import Mathlib

/-!
# SingleLinkedList (single-linked-list.h): a shallow embedding

The C++ container is a chain of heap nodes hanging off a sentinel `head_`
that lives inside the list object, plus a `size_t` counter `size_`.
The embedding keeps that shape: a `Memory` holds the list objects, the free
store of nodes, and the outcomes of the coming `new` expressions; every member
function is a function on `Memory` taking the index of `this`.
-/

namespace SLL

/-! ## Data model -/

/-- Modulus of the 64-bit `size_t` counter `size_`. -/
def SIZE_MOD : Nat := 2 ^ 64

/-- A non-null `Node*`: the address of the sentinel `head_` of a list object,
or the address of a node obtained from `new`. -/
inductive NodePtr where
  | head (l : Nat)
  | heap (a : Nat)
  deriving DecidableEq, Repr

/-- The `struct Node`: a value and the raw pointer `next_node` (`none` is `nullptr`). -/
structure Node (α : Type) where
  value : α
  next_node : Option NodePtr
  deriving DecidableEq, Repr

/-- A `SingleLinkedList` object: `head_.next_node` and `size_`.
The value slot of the sentinel is never read by the container. -/
structure SingleLinkedList where
  head_next : Option NodePtr
  size_ : Nat
  deriving DecidableEq, Repr

/-- The machine state: the list objects (indexed by position, automatic objects
are pushed and popped at the end), the free store (`none` marks a released
cell), and the outcomes of the upcoming `new Node(...)` expressions
(`true`: the node is constructed; `false`: allocation or the element copy throws). -/
structure Memory (α : Type) where
  lists : List SingleLinkedList
  heap : List (Option (Node α))
  grants : List Bool
  deriving DecidableEq, Repr

/-- Ways a call can leave the defined behaviour of the program. -/
inductive Fault where
  | assert_fail
  | ub
  | out_of_fuel
  deriving DecidableEq, Repr

/-- Outcome of a member function: normal return, an exception that propagates
to the caller, or a fault. -/
inductive Result (α ρ : Type) where
  | ok (m : Memory α) (r : ρ)
  | throw (m : Memory α)
  | fault (f : Fault)
  deriving DecidableEq, Repr

deriving instance DecidableEq for Except

/-- A `BasicIterator`: the wrapped `node_`, `none` for `nullptr`. -/
abbrev Iterator := Option NodePtr

/-! ## Raw memory accesses -/

/-- Read `p->next_node`; `none` when `p` does not point to a live node. -/
def Memory.load_next {α : Type} (m : Memory α) : NodePtr → Option (Option NodePtr)
  | .head l =>
    match m.lists[l]? with
    | some L => some L.head_next
    | none => none
  | .heap a =>
    match m.heap[a]? with
    | some (some n) => some n.next_node
    | _ => none

/-- Read `p->value` of a heap node. -/
def Memory.load_value {α : Type} (m : Memory α) : NodePtr → Option α
  | .head _ => none
  | .heap a =>
    match m.heap[a]? with
    | some (some n) => some n.value
    | _ => none

/-- Write `p->next_node = v`; `none` when `p` does not point to a live node. -/
def Memory.store_next {α : Type} (m : Memory α) (p : NodePtr) (v : Option NodePtr) :
    Option (Memory α) :=
  match p with
  | .head l =>
    match m.lists[l]? with
    | some L => some { m with lists := m.lists.set l { L with head_next := v } }
    | none => none
  | .heap a =>
    match m.heap[a]? with
    | some (some n) => some { m with heap := m.heap.set a (some { n with next_node := v }) }
    | _ => none

/-- The expression `new Node(val, next)`: the pair of the memory afterwards and
the new node, or `none` when it throws. The free store never holds `2^64`
nodes, addresses being machine words. -/
def Memory.new_Node {α : Type} (m : Memory α) (val : α) (next : Option NodePtr) :
    Memory α × Option NodePtr :=
  match m.grants with
  | [] => (m, none)
  | false :: g => ({ m with grants := g }, none)
  | true :: g =>
    if m.heap.length + 1 < SIZE_MOD then
      ({ m with heap := m.heap ++ [some ⟨val, next⟩], grants := g }, some (.heap m.heap.length))
    else
      ({ m with grants := g }, none)

/-- The statement `delete p`; `none` when `p` is not a live heap node. -/
def Memory.delete_node {α : Type} (m : Memory α) : NodePtr → Option (Memory α)
  | .head _ => none
  | .heap a =>
    match m.heap[a]? with
    | some (some _) => some { m with heap := m.heap.set a none }
    | _ => none

/-- The statement `++size_` of the list object `this`. -/
def Memory.incr_size {α : Type} (m : Memory α) (this : Nat) : Option (Memory α) :=
  match m.lists[this]? with
  | some L => some { m with lists := m.lists.set this { L with size_ := (L.size_ + 1) % SIZE_MOD } }
  | none => none

/-- The statement `--size_` of the list object `this`. -/
def Memory.decr_size {α : Type} (m : Memory α) (this : Nat) : Option (Memory α) :=
  match m.lists[this]? with
  | some L =>
    some { m with lists := m.lists.set this { L with size_ := (L.size_ + SIZE_MOD - 1) % SIZE_MOD } }
  | none => none

/-! ## Member functions -/

/-- `GetSize()`. -/
def GetSize {α : Type} (m : Memory α) (this : Nat) : Option Nat :=
  match m.lists[this]? with
  | some L => some L.size_
  | none => none

/-- `IsEmpty()`: `!static_cast<bool>(size_)`. -/
def IsEmpty {α : Type} (m : Memory α) (this : Nat) : Option Bool :=
  match m.lists[this]? with
  | some L => some (!(decide (L.size_ ≠ 0)))
  | none => none

/-- `begin()`: `Iterator(head_.next_node)`. -/
def begin {α : Type} (m : Memory α) (this : Nat) : Option Iterator :=
  match m.lists[this]? with
  | some L => some L.head_next
  | none => none

/-- `end()`: `Iterator(nullptr)`. -/
def end_ : Iterator := none

/-- `before_begin()`: `Iterator(&head_)`. -/
def before_begin (this : Nat) : Iterator := some (.head this)

/-- `BasicIterator::operator++`. -/
def Iterator.incr {α : Type} (m : Memory α) (it : Iterator) : Except Fault Iterator :=
  match it with
  | none => .error .assert_fail
  | some p =>
    match m.load_next p with
    | some q => .ok q
    | none => .error .ub

/-- `BasicIterator::operator*`; reading the value slot of a sentinel is
undefined behaviour. -/
def Iterator.deref {α : Type} (m : Memory α) (it : Iterator) : Except Fault α :=
  match it with
  | none => .error .assert_fail
  | some p =>
    match m.load_value p with
    | some v => .ok v
    | none => .error .ub

/-- `PushFront(value)`. -/
def PushFront {α : Type} (m : Memory α) (this : Nat) (value : α) : Result α Unit :=
  match m.lists[this]? with
  | none => .fault .ub
  | some L =>
    match m.new_Node value L.head_next with
    | (m1, none) => .throw m1
    | (m1, some p) =>
      match m1.store_next (.head this) (some p) with
      | none => .fault .ub
      | some m2 =>
        match m2.incr_size this with
        | none => .fault .ub
        | some m3 => .ok m3 ()

/-- The loop of `PushBack`: `i` times `last_item_ptr = last_item_ptr->next_node`. -/
def PushBack.walk {α : Type} (m : Memory α) : Nat → Option NodePtr → Option (Option NodePtr)
  | 0, p => some p
  | _ + 1, none => none
  | i + 1, some p =>
    match m.load_next p with
    | some q => PushBack.walk m i q
    | none => none

/-- `PushBack(value)`. -/
def PushBack {α : Type} (m : Memory α) (this : Nat) (value : α) : Result α Unit :=
  match m.new_Node value none with
  | (m1, none) => .throw m1
  | (m1, some new_value) =>
    match m1.lists[this]? with
    | none => .fault .ub
    | some L =>
      match PushBack.walk m1 L.size_ (some (.head this)) with
      | some (some last_item_ptr) =>
        match m1.store_next last_item_ptr (some new_value) with
        | none => .fault .ub
        | some m2 =>
          match m2.incr_size this with
          | none => .fault .ub
          | some m3 => .ok m3 ()
      | _ => .fault .ub

/-- `PopFront()`. -/
def PopFront {α : Type} (m : Memory α) (this : Nat) : Result α Unit :=
  match m.lists[this]? with
  | none => .fault .ub
  | some L =>
    if L.size_ ≠ 0 then
      match L.head_next with
      | none => .fault .ub
      | some tmp_ptr =>
        match m.load_next tmp_ptr with
        | none => .fault .ub
        | some nxt =>
          match m.store_next (.head this) nxt with
          | none => .fault .ub
          | some m1 =>
            match m1.delete_node tmp_ptr with
            | none => .fault .ub
            | some m2 =>
              match m2.decr_size this with
              | none => .fault .ub
              | some m3 => .ok m3 ()
    else .ok m ()

/-- The loop of `Clear()`: `while (size_ != 0) PopFront();`, at most `fuel` rounds. -/
def Clear.loop {α : Type} (this : Nat) : Nat → Memory α → Result α Unit
  | fuel, m =>
    match m.lists[this]? with
    | none => .fault .ub
    | some L =>
      if L.size_ ≠ 0 then
        match fuel with
        | 0 => .fault .out_of_fuel
        | fuel + 1 =>
          match PopFront m this with
          | .ok m1 _ => Clear.loop this fuel m1
          | .throw m1 => .throw m1
          | .fault f => .fault f
      else .ok m ()

/-- `Clear()`; every round lowers `size_` by one, so `size_` rounds are enough. -/
def Clear {α : Type} (m : Memory α) (this : Nat) : Result α Unit :=
  match m.lists[this]? with
  | none => .fault .ub
  | some L => Clear.loop this L.size_ m

/-- `InsertAfter(pos, value)`. -/
def InsertAfter {α : Type} (m : Memory α) (this : Nat) (pos : Iterator) (value : α) :
    Result α Iterator :=
  match pos with
  | none => .fault .assert_fail
  | some p =>
    match m.load_next p with
    | none => .fault .ub
    | some tmp_ptr =>
      match m.new_Node value tmp_ptr with
      | (m1, none) => .throw m1
      | (m1, some new_item) =>
        match m1.store_next p (some new_item) with
        | none => .fault .ub
        | some m2 =>
          match m2.incr_size this with
          | none => .fault .ub
          | some m3 => .ok m3 (some new_item)

/-- `EraseAfter(pos)`. -/
def EraseAfter {α : Type} (m : Memory α) (this : Nat) (pos : Iterator) : Result α Iterator :=
  match pos with
  | none => .fault .assert_fail
  | some p =>
    match m.load_next p with
    | none => .fault .ub
    | some none => .ok m none
    | some (some victim) =>
      match m.load_next victim with
      | none => .fault .ub
      | some ptr_after_deleted =>
        match m.delete_node victim with
        | none => .fault .ub
        | some m1 =>
          match m1.store_next p ptr_after_deleted with
          | none => .fault .ub
          | some m2 =>
            match m2.decr_size this with
            | none => .fault .ub
            | some m3 => .ok m3 ptr_after_deleted

/-- `swap(other)`: `std::swap` of the two `head_.next_node` and of the two `size_`. -/
def swap {α : Type} (m : Memory α) (this other : Nat) : Result α Unit :=
  match m.lists[this]?, m.lists[other]? with
  | some A, some B => .ok { m with lists := (m.lists.set this B).set other A } ()
  | _, _ => .fault .ub

/-! ## Observations -/

/-- Iterate `for (it = start; it != end(); ++it)` collecting `*it`, at most
`fuel` elements. -/
def traverse {α : Type} (m : Memory α) : Nat → Iterator → Option (List α)
  | _, none => some []
  | 0, some _ => none
  | fuel + 1, some p =>
    match Iterator.deref m (some p), Iterator.incr m (some p) with
    | .ok v, .ok nxt => (traverse m fuel nxt).map (fun vs => v :: vs)
    | _, _ => none

/-- The element sequence of list `this`: the values met from `begin()` to `end()`.
A null-terminated chain meets every cell of the free store at most once. -/
def elements {α : Type} (m : Memory α) (this : Nat) : Option (List α) :=
  match m.lists[this]? with
  | some L => traverse m m.heap.length L.head_next
  | none => none

/-- Apply `operator++` to an iterator `n` times. -/
def advance {α : Type} (m : Memory α) : Nat → Iterator → Except Fault Iterator
  | 0, it => .ok it
  | n + 1, it =>
    match Iterator.incr m it with
    | .ok nxt => advance m n nxt
    | .error e => .error e

/-! ## Chains of nodes -/

/-- List segment: starting at pointer `p`, the free-store cells listed in `c`
(address and value) are live and linked in this order, and the `next_node` of
the last one is `q` (with `c` empty, `p` is `q`). -/
def Seg {α : Type} (h : List (Option (Node α))) :
    Option NodePtr → List (Nat × α) → Option NodePtr → Prop
  | p, [], q => p = q
  | p, x :: c, q =>
    p = some (.heap x.1) ∧ ∃ nxt, h[x.1]? = some (some ⟨x.2, nxt⟩) ∧ Seg h nxt c q

/-! ## Hypotheses of the contracts -/

/-- The next `n` expressions `new Node(...)` succeed: the environment grants
them and the free store has room for `n` more nodes. -/
def Memory.can_new {α : Type} (m : Memory α) (n : Nat) : Bool :=
  decide (m.grants.take n = List.replicate n true ∧ m.heap.length + n < SIZE_MOD)

/-- A sample memory: list object `0` holds `[10, 20]`, list object `1` is empty;
two more nodes can be allocated. -/
def sample_memory : Memory Nat :=
  { lists := [⟨some (.heap 0), 2⟩, ⟨none, 0⟩],
    heap := [some ⟨10, some (.heap 1)⟩, some ⟨20, none⟩],
    grants := [true, true] }

/-- Machine representability of a memory: every `size_` is a `size_t` value and
the addresses of the free store are machine words. -/
def Memory.representable {α : Type} (m : Memory α) : Bool :=
  decide (m.heap.length < SIZE_MOD ∧ ∀ L ∈ m.lists, L.size_ < SIZE_MOD)

/-! ## Bulk construction, copy and assignment -/

/-- What `CopyFromRange` needs from its iterator type `It`: `*it` and `++it`
(`it != end` is inequality of iterators). -/
structure InputIt (α It : Type) where
  deref : Memory α → It → Except Fault α
  incr : Memory α → It → Except Fault It

/-- Iterators of a `std::initializer_list<Type>` holding `values`: indices into
its array, `begin()` is `0` and `end()` is `values.length`. -/
def array_it {α : Type} (values : List α) : InputIt α Nat where
  deref := fun _ i =>
    match values[i]? with
    | some v => .ok v
    | none => .error .ub
  incr := fun _ i => .ok (i + 1)

/-- Iterators of a `SingleLinkedList`: `ConstIterator`. -/
def list_it {α : Type} : InputIt α Iterator where
  deref := Iterator.deref
  incr := Iterator.incr

/-- The loop of `CopyFromRange`:
`for (It it = begin; it != end; ++it) { InsertAfter(insert_after_ptr, *it); ++insert_after_ptr; }`,
at most `fuel` rounds. -/
def CopyFromRange.loop {α It : Type} [DecidableEq It] (I : InputIt α It) (this : Nat)
    (last : It) : Nat → Memory α → Iterator → It → Result α Unit
  | fuel, m, insert_after_ptr, it =>
    if it = last then .ok m ()
    else
      match fuel with
      | 0 => .fault .out_of_fuel
      | fuel + 1 =>
        match I.deref m it with
        | .error f => .fault f
        | .ok v =>
          match InsertAfter m this insert_after_ptr v with
          | .fault f => .fault f
          | .throw m1 => .throw m1
          | .ok m1 _ =>
            match Iterator.incr m1 insert_after_ptr with
            | .error f => .fault f
            | .ok ptr2 =>
              match I.incr m1 it with
              | .error f => .fault f
              | .ok it2 => CopyFromRange.loop I this last fuel m1 ptr2 it2

/-- `CopyFromRange(begin, end)`. -/
def CopyFromRange {α It : Type} [DecidableEq It] (I : InputIt α It) (fuel : Nat)
    (m : Memory α) (this : Nat) (first last : It) : Result α Unit :=
  CopyFromRange.loop I this last fuel m (before_begin this) first

/-- Storage for a new list object with `head_.next_node = nullptr` and `size_ = 0`:
the default constructor, and the member initialisation of the other constructors.
Returns the memory and the index of the new object. -/
def SingleLinkedList.default_ctor {α : Type} (m : Memory α) : Memory α × Nat :=
  ({ m with lists := m.lists ++ [⟨none, 0⟩] }, m.lists.length)

/-- End of the scope of the most recent automatic list object: its destructor
`~SingleLinkedList()` runs `Clear()`, then its storage is released. -/
def end_scope {α : Type} (m : Memory α) : Result α Unit :=
  match Clear m (m.lists.length - 1) with
  | .ok m1 _ => .ok { m1 with lists := m1.lists.dropLast } ()
  | .throw m1 => .throw m1
  | .fault f => .fault f

/-- The body shared by the two converting constructors: with `this` and the local
`copy` already constructed, fill `copy`, `this->swap(copy)`, destroy `copy`. When
filling throws, `copy` is destroyed and the storage of `this` released. -/
def fill_and_swap {α It : Type} [DecidableEq It] (I : InputIt α It) (fuel : Nat)
    (m : Memory α) (this copy : Nat) (first last : It) : Result α Nat :=
  match CopyFromRange I fuel m copy first last with
  | .fault f => .fault f
  | .throw m1 =>
    match end_scope m1 with
    | .ok m2 _ => .throw { m2 with lists := m2.lists.dropLast }
    | .throw m2 => .throw m2
    | .fault f => .fault f
  | .ok m1 _ =>
    match swap m1 this copy with
    | .ok m2 _ =>
      match end_scope m2 with
      | .ok m3 _ => .ok m3 this
      | .throw m3 => .throw m3
      | .fault f => .fault f
    | .throw m2 => .throw m2
    | .fault f => .fault f

/-- `SingleLinkedList(std::initializer_list<Type> values)`; the range holds
`values.length` elements. Returns the index of the constructed object. -/
def SingleLinkedList.from_initializer_list {α : Type} (m : Memory α) (values : List α) :
    Result α Nat :=
  match SingleLinkedList.default_ctor m with
  | (m0, this) =>
    match SingleLinkedList.default_ctor m0 with
    | (m1, copy) =>
      fill_and_swap (array_it values) values.length m1 this copy 0 values.length

/-- `SingleLinkedList(const SingleLinkedList& other)`; `fuel` bounds the rounds of
the copy loop. Returns the index of the constructed object. -/
def SingleLinkedList.copy_ctor {α : Type} (fuel : Nat) (m : Memory α) (other : Nat) :
    Result α Nat :=
  match SingleLinkedList.default_ctor m with
  | (m0, this) =>
    if this ≠ other then
      match SingleLinkedList.default_ctor m0 with
      | (m1, copy) =>
        match begin m1 other with
        | none => .fault .ub
        | some first => fill_and_swap list_it fuel m1 this copy first end_
    else .ok m0 this

/-- `operator=(const SingleLinkedList& rhs)`. -/
def assign {α : Type} (fuel : Nat) (m : Memory α) (this rhs : Nat) : Result α Unit :=
  if this ≠ rhs then
    match SingleLinkedList.copy_ctor fuel m rhs with
    | .fault f => .fault f
    | .throw m1 => .throw m1
    | .ok m1 copy =>
      match swap m1 this copy with
      | .ok m2 _ => end_scope m2
      | .throw m2 => .throw m2
      | .fault f => .fault f
  else .ok m ()

/-! ## Programs over the public interface -/

/-- A position `pos` is a non-end position of list `this`: `before_begin()` or an
iterator to one of its elements, that is, reached from `before_begin()` by some
number of increments. -/
def ValidPos {α : Type} (m : Memory α) (this : Nat) (pos : NodePtr) : Prop :=
  ∃ i, advance m i (before_begin this) = .ok (some pos)

/-- The memory a call leaves behind when it returns or throws. -/
def Result.memory? {α ρ : Type} : Result α ρ → Option (Memory α)
  | .ok m _ => some m
  | .throw m => some m
  | .fault _ => none

/-- One call of the public interface. -/
inductive Call (α : Type) where
  | default_ctor
  | from_initializer_list (values : List α)
  | copy_ctor (fuel other : Nat)
  | PushFront (this : Nat) (value : α)
  | PushBack (this : Nat) (value : α)
  | PopFront (this : Nat)
  | Clear (this : Nat)
  | InsertAfter (this : Nat) (pos : NodePtr) (value : α)
  | EraseAfter (this : Nat) (pos : NodePtr)
  | swap (this other : Nat)
  | assign (fuel this rhs : Nat)

/-- The memory after a call that returned or threw (the caller catches the
exception and goes on); `none` when the call faults. -/
def Call.run {α : Type} (m : Memory α) : Call α → Option (Memory α)
  | .default_ctor => some (SingleLinkedList.default_ctor m).1
  | .from_initializer_list values => (SingleLinkedList.from_initializer_list m values).memory?
  | .copy_ctor fuel other => (SingleLinkedList.copy_ctor fuel m other).memory?
  | .PushFront this value => (SLL.PushFront m this value).memory?
  | .PushBack this value => (SLL.PushBack m this value).memory?
  | .PopFront this => (SLL.PopFront m this).memory?
  | .Clear this => (SLL.Clear m this).memory?
  | .InsertAfter this pos value => (SLL.InsertAfter m this (some pos) value).memory?
  | .EraseAfter this pos => (SLL.EraseAfter m this (some pos)).memory?
  | .swap this other => (SLL.swap m this other).memory?
  | .assign fuel this rhs => (SLL.assign fuel m this rhs).memory?

/-- The precondition of a call: `InsertAfter` and `EraseAfter` take a non-end
position of the list they are called on. -/
def Call.valid {α : Type} (m : Memory α) : Call α → Prop
  | .InsertAfter this pos _ => ValidPos m this pos
  | .EraseAfter this pos => ValidPos m this pos
  | _ => True

/-- Memories reachable from a program start without list objects by a finite
sequence of constructions and calls. -/
inductive Reachable {α : Type} : Memory α → Prop where
  | start (g : List Bool) : Reachable ⟨[], [], g⟩
  | step {m m2 : Memory α} (c : Call α) :
      Reachable m → c.valid m → c.run m = some m2 → Reachable m2

/-- The invariant of a memory: it is representable, the chain of every list
object is null-terminated with exactly `size_` nodes, and the chains of two
different list objects share no node. -/
def Memory.Inv {α : Type} (m : Memory α) : Prop :=
  m.representable = true ∧
  (∀ (l : Nat) (L : SingleLinkedList), m.lists[l]? = some L →
    ∃ cs, Seg m.heap L.head_next cs none ∧ L.size_ = cs.length) ∧
  (∀ (l1 l2 : Nat) (L1 L2 : SingleLinkedList) (cs1 cs2 : List (Nat × α)), l1 ≠ l2 → m.lists[l1]? = some L1 → m.lists[l2]? = some L2 →
    Seg m.heap L1.head_next cs1 none → Seg m.heap L2.head_next cs2 none →
    ∀ a ∈ cs1.map Prod.fst, a ∉ cs2.map Prod.fst)

/-- The memory after `SingleLinkedList l; l.PushFront(8); l.PushFront(7);` at
program start. -/
def built_memory : Memory Nat :=
  { lists := [⟨some (.heap 1), 2⟩],
    heap := [some ⟨8, none⟩, some ⟨7, some (.heap 0)⟩],
    grants := [] }

/-! ## Comparison operators -/

/-- The loop of `operator==`: `n` rounds of
`if (*lhs_it != *rhs_it) return false; ++lhs_it; ++rhs_it;`, then `return true`.
The element type's `!=` is `ne`. -/
def operator_eq.loop {α : Type} (ne : α → α → Bool) (m : Memory α) :
    Nat → Iterator → Iterator → Except Fault Bool
  | 0, _, _ => .ok true
  | n + 1, lhs_it, rhs_it =>
    match Iterator.deref m lhs_it with
    | .error f => .error f
    | .ok a =>
      match Iterator.deref m rhs_it with
      | .error f => .error f
      | .ok b =>
        if ne a b then .ok false
        else
          match Iterator.incr m lhs_it with
          | .error f => .error f
          | .ok l2 =>
            match Iterator.incr m rhs_it with
            | .error f => .error f
            | .ok r2 => operator_eq.loop ne m n l2 r2

/-- `operator==(lhs, rhs)`. -/
def operator_eq {α : Type} (ne : α → α → Bool) (m : Memory α) (lhs rhs : Nat) :
    Except Fault Bool :=
  match GetSize m lhs, GetSize m rhs with
  | some n1, some n2 =>
    if n1 = n2 then
      match begin m lhs, begin m rhs with
      | some lhs_it, some rhs_it => operator_eq.loop ne m n1 lhs_it rhs_it
      | _, _ => .error .ub
    else .ok false
  | _, _ => .error .ub

/-- `operator!=(lhs, rhs)`: `!(lhs == rhs)`. -/
def operator_ne {α : Type} (ne : α → α → Bool) (m : Memory α) (lhs rhs : Nat) :
    Except Fault Bool :=
  match operator_eq ne m lhs rhs with
  | .ok b => .ok (!b)
  | .error f => .error f

/-- Modelled from the spec: `std::lexicographical_compare(first1, last1, first2, last2)`
of the C++ standard library, which `operator<` calls and which is not part of the
repository. It is the loop the standard gives for it, with the element type's `<` as `lt`:
`for (; first1 != last1 && first2 != last2; ++first1, ++first2)
 { if (*first1 < *first2) return true; if (*first2 < *first1) return false; }
 return first1 == last1 && first2 != last2;`,
the spec's element-wise comparison that returns on the first differing pair,
with the shorter sequence lesser when it is a prefix of the other. At most `fuel` rounds. -/
def lexicographical_compare {α : Type} (lt : α → α → Bool) (m : Memory α)
    (last1 last2 : Iterator) : Nat → Iterator → Iterator → Except Fault Bool
  | fuel, first1, first2 =>
    if first1 ≠ last1 ∧ first2 ≠ last2 then
      match fuel with
      | 0 => .error .out_of_fuel
      | fuel + 1 =>
        match Iterator.deref m first1 with
        | .error f => .error f
        | .ok a =>
          match Iterator.deref m first2 with
          | .error f => .error f
          | .ok b =>
            if lt a b then .ok true
            else if lt b a then .ok false
            else
              match Iterator.incr m first1 with
              | .error f => .error f
              | .ok n1 =>
                match Iterator.incr m first2 with
                | .error f => .error f
                | .ok n2 => lexicographical_compare lt m last1 last2 fuel n1 n2
    else .ok (decide (first1 = last1 ∧ first2 ≠ last2))

/-- `operator<(lhs, rhs)`:
`std::lexicographical_compare(lhs.begin(), lhs.end(), rhs.begin(), rhs.end())`.
The memory does not change during the comparison, so a range that ends meets
every cell of the free store at most once. -/
def operator_lt {α : Type} (lt : α → α → Bool) (m : Memory α) (lhs rhs : Nat) :
    Except Fault Bool :=
  match begin m lhs, begin m rhs with
  | some first1, some first2 =>
    lexicographical_compare lt m end_ end_ m.heap.length first1 first2
  | _, _ => .error .ub

/-- `operator<=(lhs, rhs)`: `!(rhs < lhs)`. -/
def operator_le {α : Type} (lt : α → α → Bool) (m : Memory α) (lhs rhs : Nat) :
    Except Fault Bool :=
  match operator_lt lt m rhs lhs with
  | .ok b => .ok (!b)
  | .error f => .error f

/-- `operator>(lhs, rhs)`: `(rhs < lhs)`. -/
def operator_gt {α : Type} (lt : α → α → Bool) (m : Memory α) (lhs rhs : Nat) :
    Except Fault Bool :=
  operator_lt lt m rhs lhs

/-- `operator>=(lhs, rhs)`: `!(lhs < rhs)`. -/
def operator_ge {α : Type} (lt : α → α → Bool) (m : Memory α) (lhs rhs : Nat) :
    Except Fault Bool :=
  match operator_lt lt m lhs rhs with
  | .ok b => .ok (!b)
  | .error f => .error f

/-- The free function `swap(lhs, rhs)`: `lhs.swap(rhs)`. -/
def free_swap {α : Type} (m : Memory α) (lhs rhs : Nat) : Result α Unit :=
  swap m lhs rhs

/-- Value-level reading of `operator==` on two element sequences. -/
def equal_values {α : Type} (ne : α → α → Bool) : List α → List α → Bool
  | [], [] => true
  | a :: s, b :: t => !(ne a b) && equal_values ne s t
  | _, _ => false

/-- Value-level reading of `std::lexicographical_compare` on two element sequences. -/
def lex_less {α : Type} (lt : α → α → Bool) : List α → List α → Bool
  | [], [] => false
  | [], _ :: _ => true
  | _ :: _, [] => false
  | a :: s, b :: t => if lt a b then true else if lt b a then false else lex_less lt s t

/-- A memory with four lists: `[1, 2]`, `[1, 2, 3]`, `[1, 3]` and `[2]`. -/
def compare_memory : Memory Nat :=
  { lists := [⟨some (.heap 0), 2⟩, ⟨some (.heap 2), 3⟩, ⟨some (.heap 5), 2⟩, ⟨some (.heap 7), 1⟩],
    heap := [some ⟨1, some (.heap 1)⟩, some ⟨2, none⟩,
             some ⟨1, some (.heap 3)⟩, some ⟨2, some (.heap 4)⟩, some ⟨3, none⟩,
             some ⟨1, some (.heap 6)⟩, some ⟨3, none⟩,
             some ⟨2, none⟩],
    grants := [] }

/-! ## What a range yields -/

/-- Memory `m` agrees with memory `m0` on the cells of the free store below
address `n0`. -/
def AgreeBelow {α : Type} (n0 : Nat) (m0 m : Memory α) : Prop :=
  ∀ a, a < n0 → m.heap[a]? = m0.heap[a]?

/-- The range from iterator `it` to `last` holds the values `vs`: in every
memory that agrees with `m0` below `n0`, dereferencing and advancing `it` gives
the values of `vs` one after the other and then reaches `last`. -/
def Yields {α It : Type} (I : InputIt α It) (last : It) (n0 : Nat) (m0 : Memory α) :
    It → List α → Prop
  | it, [] => it = last
  | it, v :: vs =>
    it ≠ last ∧ ∃ it2,
      (∀ m, AgreeBelow n0 m0 m → I.deref m it = .ok v ∧ I.incr m it = .ok it2) ∧
      Yields I last n0 m0 it2 vs

/-- List `l` has in memory `m2` exactly the element sequence and `GetSize()` it
has in memory `m`. -/
def SameList {α : Type} (m m2 : Memory α) (l : Nat) : Prop :=
  elements m2 l = elements m l ∧ GetSize m2 l = GetSize m l

/-- The sample memory with room for a single further node: list `0` holds
`[10, 20]`, list `1` is empty. -/
def scarce_memory : Memory Nat :=
  { lists := [⟨some (.heap 0), 2⟩, ⟨none, 0⟩],
    heap := [some ⟨10, some (.heap 1)⟩, some ⟨20, none⟩],
    grants := [true] }

/-! # Proofs -/

/-! ## Segments: composition, framing, uniqueness, absence of cycles -/

theorem seg_nil {α : Type} (h : List (Option (Node α))) (p q : Option NodePtr) :
    Seg h p [] q ↔ p = q := Iff.rfl

theorem seg_cons {α : Type} (h : List (Option (Node α))) (p q : Option NodePtr) (x : Nat × α)
    (c : List (Nat × α)) :
    Seg h p (x :: c) q ↔
      p = some (.heap x.1) ∧ ∃ nxt, h[x.1]? = some (some ⟨x.2, nxt⟩) ∧ Seg h nxt c q := Iff.rfl

theorem seg_append {α : Type} (h : List (Option (Node α))) (c1 c2 : List (Nat × α))
    (p q : Option NodePtr) :
    Seg h p (c1 ++ c2) q ↔ ∃ r, Seg h p c1 r ∧ Seg h r c2 q := by
  induction c1 generalizing p with
  | nil => simp [seg_nil]
  | cons x c1 ih =>
    simp only [List.cons_append, seg_cons, ih]
    constructor
    · rintro ⟨hp, nxt, hx, r, h1, h2⟩
      exact ⟨r, ⟨hp, nxt, hx, h1⟩, h2⟩
    · rintro ⟨r, ⟨hp, nxt, hx, h1⟩, h2⟩
      exact ⟨hp, nxt, hx, r, h1, h2⟩

theorem seg_frame {α : Type} {h h2 : List (Option (Node α))} {c : List (Nat × α)}
    {p q : Option NodePtr} (hc : Seg h p c q)
    (hagree : ∀ a ∈ c.map Prod.fst, h2[a]? = h[a]?) : Seg h2 p c q := by
  induction c generalizing p with
  | nil => exact hc
  | cons x c ih =>
    obtain ⟨hp, nxt, hx, hrest⟩ := hc
    refine ⟨hp, nxt, ?_, ih hrest ?_⟩
    · rw [hagree x.1 (by simp)]; exact hx
    · intro a ha
      exact hagree a (by simp only [List.map_cons, List.mem_cons]; exact Or.inr ha)

theorem seg_lt {α : Type} {h : List (Option (Node α))} {c : List (Nat × α)}
    {p q : Option NodePtr} (hc : Seg h p c q) : ∀ a ∈ c.map Prod.fst, a < h.length := by
  induction c generalizing p with
  | nil => simp
  | cons x c ih =>
    obtain ⟨_, nxt, hx, hrest⟩ := hc
    intro a ha
    simp only [List.map_cons, List.mem_cons] at ha
    rcases ha with rfl | ha
    · by_contra hge
      rw [List.getElem?_eq_none (by omega)] at hx
      cases hx
    · exact ih hrest a ha

theorem seg_unique {α : Type} {h : List (Option (Node α))} {c c2 : List (Nat × α)}
    {p : Option NodePtr} (hc : Seg h p c none) (hc2 : Seg h p c2 none) : c = c2 := by
  induction c generalizing p c2 with
  | nil =>
    cases c2 with
    | nil => rfl
    | cons y c2 =>
      have h1 : p = none := hc
      obtain ⟨hp, _⟩ := hc2
      rw [h1] at hp; cases hp
  | cons x c ih =>
    obtain ⟨hp, nxt, hx, hrest⟩ := hc
    cases c2 with
    | nil =>
      have h1 : p = none := hc2
      rw [h1] at hp; cases hp
    | cons y c2 =>
      obtain ⟨hp2, nxt2, hy, hrest2⟩ := hc2
      rw [hp] at hp2
      injection hp2 with hp2
      injection hp2 with hxy
      rw [← hxy] at hy
      rw [hx] at hy
      injection hy with hy
      injection hy with hy
      injection hy with hv hn
      subst hn
      have : x = y := Prod.ext hxy hv
      rw [this, ih hrest hrest2]

theorem seg_nodup {α : Type} {h : List (Option (Node α))} {c : List (Nat × α)}
    {p : Option NodePtr} (hc : Seg h p c none) : (c.map Prod.fst).Nodup := by
  induction c generalizing p with
  | nil => simp
  | cons x c ih =>
    have hc0 := hc
    obtain ⟨hp, nxt, hx, hrest⟩ := hc
    simp only [List.map_cons, List.nodup_cons]
    refine ⟨?_, ih hrest⟩
    intro hmem
    obtain ⟨y, hy, hyx⟩ := List.mem_map.mp hmem
    obtain ⟨c1, c2, hsplit⟩ := List.append_of_mem hy
    rw [hsplit, seg_append] at hrest
    obtain ⟨r, _, hr2⟩ := hrest
    have hr := hr2
    obtain ⟨hr', _⟩ := hr
    rw [hyx, ← hp] at hr'
    rw [hr'] at hr2
    have := seg_unique hc0 hr2
    have hl := congrArg List.length this
    rw [hsplit] at hl
    simp at hl
    omega

theorem nodup_length_le {l : List Nat} {n : Nat} (hn : l.Nodup) (hlt : ∀ a ∈ l, a < n) :
    l.length ≤ n := by
  have hsub : l ⊆ List.range n := fun a ha => List.mem_range.mpr (hlt a ha)
  have := (List.subperm_of_subset hn hsub).length_le
  simpa using this

theorem seg_length_le {α : Type} {h : List (Option (Node α))} {c : List (Nat × α)}
    {p : Option NodePtr} (hc : Seg h p c none) : c.length ≤ h.length := by
  have := nodup_length_le (seg_nodup hc) (seg_lt hc)
  simpa using this

/-! ## Traversal, positions and chains -/

theorem traverse_of_seg {α : Type} {m : Memory α} {c : List (Nat × α)} {p : Option NodePtr}
    (hc : Seg m.heap p c none) (fuel : Nat) (hf : c.length ≤ fuel) :
    traverse m fuel p = some (c.map Prod.snd) := by
  induction c generalizing p fuel with
  | nil =>
    have hp : p = none := hc
    subst hp
    cases fuel <;> rfl
  | cons x c ih =>
    obtain ⟨hp, nxt, hx, hrest⟩ := hc
    subst hp
    cases fuel with
    | zero => simp at hf
    | succ fuel =>
      have hf2 : c.length ≤ fuel := by simpa using hf
      simp [traverse, Iterator.deref, Iterator.incr, Memory.load_value, Memory.load_next, hx,
        ih hrest fuel hf2]

theorem seg_of_traverse {α : Type} {m : Memory α} {fuel : Nat} {p : Option NodePtr}
    {vs : List α} (ht : traverse m fuel p = some vs) :
    ∃ c, Seg m.heap p c none ∧ c.map Prod.snd = vs := by
  induction fuel generalizing p vs with
  | zero =>
    cases p with
    | none =>
      simp [traverse] at ht
      exact ⟨[], rfl, by simp [ht]⟩
    | some q => simp [traverse] at ht
  | succ fuel ih =>
    cases p with
    | none =>
      simp [traverse] at ht
      exact ⟨[], rfl, by simp [ht]⟩
    | some q =>
      cases q with
      | head l => simp [traverse, Iterator.deref, Memory.load_value] at ht
      | heap a =>
        cases hcell : m.heap[a]? with
        | none => simp [traverse, Iterator.deref, Memory.load_value, hcell] at ht
        | some cell =>
          cases cell with
          | none => simp [traverse, Iterator.deref, Memory.load_value, hcell] at ht
          | some n =>
            simp [traverse, Iterator.deref, Iterator.incr, Memory.load_value, Memory.load_next,
              hcell] at ht
            obtain ⟨ws, hws, hvs⟩ := ht
            obtain ⟨c, hc, hmap⟩ := ih hws
            refine ⟨(a, n.value) :: c, ⟨rfl, n.next_node, ?_, hc⟩, ?_⟩
            · simpa using hcell
            · simp [hmap, hvs]

theorem elements_iff {α : Type} (m : Memory α) (this : Nat) (s : List α) :
    elements m this = some s ↔
      ∃ L c, m.lists[this]? = some L ∧ Seg m.heap L.head_next c none ∧ c.map Prod.snd = s := by
  constructor
  · intro h
    unfold elements at h
    cases hL : m.lists[this]? with
    | none => simp [hL] at h
    | some L =>
      simp [hL] at h
      obtain ⟨c, hc, hmap⟩ := seg_of_traverse h
      exact ⟨L, c, rfl, hc, hmap⟩
  · rintro ⟨L, c, hL, hc, hmap⟩
    unfold elements
    simp only [hL]
    rw [traverse_of_seg hc _ (seg_length_le hc), hmap]

theorem elements_of_seg {α : Type} {m : Memory α} {this : Nat} {L : SingleLinkedList}
    {c : List (Nat × α)} (hL : m.lists[this]? = some L) (hc : Seg m.heap L.head_next c none) :
    elements m this = some (c.map Prod.snd) :=
  (elements_iff m this _).mpr ⟨L, c, hL, hc, rfl⟩


theorem advance_seg {α : Type} {m : Memory α} {cs : List (Nat × α)} {p q : Option NodePtr}
    (hc : Seg m.heap p cs q) (k : Nat) (hk : k ≤ cs.length) :
    advance m k p = .ok (match cs[k]? with
      | some x => some (.heap x.1)
      | none => q) := by
  induction cs generalizing p k with
  | nil =>
    have hp : p = q := hc
    subst hp
    have : k = 0 := by simpa using hk
    subst this
    rfl
  | cons x cs ih =>
    obtain ⟨hp, nxt, hx, hrest⟩ := hc
    subst hp
    cases k with
    | zero => simp [advance]
    | succ k =>
      have hk2 : k ≤ cs.length := by simpa using hk
      simp [advance, Iterator.incr, Memory.load_next, hx, ih hrest k hk2]

theorem seg_append_heap {α : Type} {h : List (Option (Node α))} {c : List (Nat × α)}
    {p q : Option NodePtr} (hc : Seg h p c q) (t : List (Option (Node α))) :
    Seg (h ++ t) p c q := by
  refine seg_frame hc ?_
  intro a ha
  exact List.getElem?_append_left (seg_lt hc a ha)

theorem seg_set_frame {α : Type} {h : List (Option (Node α))} {c : List (Nat × α)}
    {p q : Option NodePtr} (hc : Seg h p c q) (a : Nat) (x : Option (Node α))
    (ha : a ∉ c.map Prod.fst) : Seg (h.set a x) p c q := by
  refine seg_frame hc ?_
  intro b hb
  have hne : a ≠ b := fun e => ha (e ▸ hb)
  simp [List.getElem?_set, hne]

/-! ## PushFront -/

theorem can_new_one {α : Type} {m : Memory α} (hnew : m.can_new 1 = true) :
    ∃ g, m.grants = true :: g ∧ m.heap.length + 1 < SIZE_MOD := by
  unfold Memory.can_new at hnew
  simp only [decide_eq_true_eq] at hnew
  obtain ⟨hg, hlt⟩ := hnew
  cases hgr : m.grants with
  | nil => simp [hgr] at hg
  | cons b g =>
    simp [hgr] at hg
    exact ⟨g, by simp [hg], hlt⟩

theorem new_Node_ok {α : Type} {m : Memory α} {g : List Bool} (hg : m.grants = true :: g)
    (hlt : m.heap.length + 1 < SIZE_MOD) (v : α) (nxt : Option NodePtr) :
    m.new_Node v nxt =
      ({ m with heap := m.heap ++ [some ⟨v, nxt⟩], grants := g }, some (.heap m.heap.length)) := by
  unfold Memory.new_Node
  simp [hg, hlt]

theorem size_incr_mod {n len : Nat} (hn : n ≤ len) (hlt : len + 1 < SIZE_MOD) :
    (n + 1) % SIZE_MOD = n + 1 := Nat.mod_eq_of_lt (by omega)

/-- Claim C7. `PushFront(x)` on a list with element sequence `s` (and `size_` equal
to its length), when the node can be allocated, returns normally and leaves the
sequence `x :: s` and `GetSize()` one larger. -/
theorem PushFront_prepends {α : Type} (m : Memory α) (this : Nat) (s : List α) (x : α)
    (hs : elements m this = some s) (hsize : GetSize m this = some s.length)
    (hnew : m.can_new 1 = true) :
    ∃ m2, PushFront m this x = .ok m2 () ∧ elements m2 this = some (x :: s) ∧
      GetSize m2 this = some (s.length + 1) := by
  obtain ⟨L, c, hL, hc, hmap⟩ := (elements_iff m this s).mp hs
  obtain ⟨g, hg, hlt⟩ := can_new_one hnew
  have hlen : s.length = c.length := by rw [← hmap]; simp
  have hLs : L.size_ = s.length := by
    simp [GetSize, hL] at hsize; exact hsize
  have hthis : this < m.lists.length := by
    by_contra hge
    rw [List.getElem?_eq_none (by omega)] at hL
    cases hL
  have hcl := seg_length_le hc
  have hmod : (L.size_ + 1) % SIZE_MOD = s.length + 1 := by
    rw [hLs]; exact size_incr_mod (by omega) hlt
  refine ⟨⟨m.lists.set this ⟨some (.heap m.heap.length), (L.size_ + 1) % SIZE_MOD⟩,
    m.heap ++ [some ⟨x, L.head_next⟩], g⟩, ?_, ?_, ?_⟩
  · simp [PushFront, hL, new_Node_ok hg hlt, Memory.store_next, Memory.incr_size, hthis]
  · apply (elements_iff _ _ _).mpr
    refine ⟨⟨some (.heap m.heap.length), (L.size_ + 1) % SIZE_MOD⟩,
      (m.heap.length, x) :: c, ?_, ?_, ?_⟩
    · simp [hthis]
    · exact ⟨rfl, L.head_next, by simp, seg_append_heap hc _⟩
    · simp [hmap]
  · simp [GetSize, hthis, hmod]

theorem PushFront_prepends_witness :
    elements sample_memory 0 = some [10, 20] ∧
    ∃ m2, PushFront sample_memory 0 5 = .ok m2 () ∧ elements m2 0 = some [5, 10, 20] ∧
      GetSize m2 0 = some ([10, 20].length + 1) :=
  ⟨by decide, PushFront_prepends sample_memory 0 [10, 20] 5 (by decide) (by decide) (by decide)⟩

/-! ## PopFront -/

theorem lists_lt {α : Type} {m : Memory α} {this : Nat} {L : SingleLinkedList}
    (hL : m.lists[this]? = some L) : this < m.lists.length := by
  by_contra hge
  rw [List.getElem?_eq_none (by omega)] at hL
  cases hL

theorem representable_size {α : Type} {m : Memory α} {this : Nat} {L : SingleLinkedList}
    (hr : m.representable = true) (hL : m.lists[this]? = some L) : L.size_ < SIZE_MOD := by
  unfold Memory.representable at hr
  simp only [decide_eq_true_eq] at hr
  exact hr.2 L (List.getElem?_mem hL)

theorem representable_heap {α : Type} {m : Memory α} (hr : m.representable = true) :
    m.heap.length < SIZE_MOD := by
  unfold Memory.representable at hr
  simp only [decide_eq_true_eq] at hr
  exact hr.1

theorem PopFront_zero {α : Type} {m : Memory α} {this : Nat} {L : SingleLinkedList}
    (hL : m.lists[this]? = some L) (hz : L.size_ = 0) : PopFront m this = .ok m () := by
  simp [PopFront, hL, hz]

theorem PopFront_cons {α : Type} {m : Memory α} {this a : Nat} {L : SingleLinkedList}
    {x : α} {nxt : Option NodePtr}
    (hL : m.lists[this]? = some L) (hne : L.size_ ≠ 0) (hhead : L.head_next = some (.heap a))
    (hcell : m.heap[a]? = some (some ⟨x, nxt⟩)) :
    PopFront m this = .ok ⟨m.lists.set this ⟨nxt, (L.size_ + SIZE_MOD - 1) % SIZE_MOD⟩,
      m.heap.set a none, m.grants⟩ () := by
  have hthis := lists_lt hL
  simp [PopFront, hL, hne, hhead, Memory.load_next, hcell, Memory.store_next,
    Memory.delete_node, Memory.decr_size, hthis]

theorem size_decr_mod2 {n : Nat} (hpos : n ≠ 0) (hlt : n < SIZE_MOD) :
    (n + SIZE_MOD - 1) % SIZE_MOD = n - 1 := by
  have : n + SIZE_MOD - 1 = (n - 1) + SIZE_MOD := by omega
  rw [this, Nat.add_mod_right]
  exact Nat.mod_eq_of_lt (by omega)

theorem GetSize_set {α : Type} {ls : List SingleLinkedList} {this : Nat}
    (hthis : this < ls.length) (L2 : SingleLinkedList) (h : List (Option (Node α)))
    (g : List Bool) : GetSize (⟨ls.set this L2, h, g⟩ : Memory α) this = some L2.size_ := by
  simp [GetSize, hthis]

theorem elements_set {α : Type} {ls : List SingleLinkedList} {this : Nat}
    (hthis : this < ls.length) (p : Option NodePtr) (n : Nat) {h : List (Option (Node α))}
    (g : List Bool) {c : List (Nat × α)} (hc : Seg h p c none) :
    elements (⟨ls.set this ⟨p, n⟩, h, g⟩ : Memory α) this = some (c.map Prod.snd) := by
  apply (elements_iff _ _ _).mpr
  exact ⟨⟨p, n⟩, c, by simp [hthis], hc, rfl⟩

/-- Claim C8. `PopFront()` on a list with element sequence `s` satisfying the size
invariant returns normally; when `s` is empty the memory is unchanged, and when
`s` is `x :: t` the sequence becomes `t` and `GetSize()` drops by one. -/
theorem PopFront_spec {α : Type} (m : Memory α) (this : Nat) (s : List α)
    (hrep : m.representable = true)
    (hs : elements m this = some s) (hsize : GetSize m this = some s.length) :
    (s = [] → PopFront m this = .ok m ()) ∧
    (∀ x t, s = x :: t → ∃ m2, PopFront m this = .ok m2 () ∧ elements m2 this = some t ∧
      GetSize m2 this = some (s.length - 1)) := by
  obtain ⟨L, c, hL, hc, hmap⟩ := (elements_iff m this s).mp hs
  have hLs : L.size_ = s.length := by
    simp [GetSize, hL] at hsize; exact hsize
  have hthis := lists_lt hL
  constructor
  · intro hnil
    exact PopFront_zero hL (by simp [hLs, hnil])
  · intro x t hst
    subst hst
    cases c with
    | nil => simp at hmap
    | cons y c2 =>
      have hnd := seg_nodup hc
      obtain ⟨hp, nxt, hy, hrest⟩ := hc
      simp only [List.map_cons, List.cons.injEq] at hmap
      have hne : L.size_ ≠ 0 := by simp [hLs]
      have hdec := size_decr_mod2 hne (representable_size hrep hL)
      rw [hmap.1] at hy
      refine ⟨_, PopFront_cons hL hne hp hy, ?_, ?_⟩
      · rw [← hmap.2]
        exact elements_set hthis _ _ _ (seg_set_frame hrest _ _ (List.nodup_cons.mp hnd).1)
      · rw [GetSize_set hthis, hdec, hLs]

theorem PopFront_spec_witness :
    (([10, 20] : List Nat) = [] → PopFront sample_memory 0 = .ok sample_memory ()) ∧
    (∀ x t, [10, 20] = x :: t → ∃ m2, PopFront sample_memory 0 = .ok m2 () ∧
      elements m2 0 = some t ∧ GetSize m2 0 = some ([10, 20].length - 1)) :=
  PopFront_spec sample_memory 0 [10, 20] (by decide) (by decide) (by decide)

/-! ## Positions and InsertAfter -/

theorem advance_past {α : Type} {m : Memory α} {cs : List (Nat × α)} {p : Option NodePtr}
    (hc : Seg m.heap p cs none) (k : Nat) (hk : cs.length < k) :
    advance m k p = .error .assert_fail := by
  induction cs generalizing p k with
  | nil =>
    have hp : p = none := hc
    subst hp
    cases k with
    | zero => simp at hk
    | succ k => simp [advance, Iterator.incr]
  | cons x cs ih =>
    obtain ⟨hp, nxt, hx, hrest⟩ := hc
    subst hp
    cases k with
    | zero => simp at hk
    | succ k =>
      have hk2 : cs.length < k := by simpa using hk
      simp [advance, Iterator.incr, Memory.load_next, hx, ih hrest k hk2]

theorem position_cases {α : Type} {m : Memory α} {this : Nat} {L : SingleLinkedList}
    {cs : List (Nat × α)} {i : Nat} {pos : NodePtr}
    (hL : m.lists[this]? = some L) (hc : Seg m.heap L.head_next cs none)
    (hpos : advance m i (before_begin this) = .ok (some pos)) :
    (i = 0 ∧ pos = .head this) ∨ (∃ k x, i = k + 1 ∧ cs[k]? = some x ∧ pos = .heap x.1) := by
  cases i with
  | zero =>
    left
    simp [advance, before_begin] at hpos
    exact ⟨rfl, hpos.symm⟩
  | succ k =>
    right
    simp [advance, before_begin, Iterator.incr, Memory.load_next, hL] at hpos
    rcases Nat.lt_or_ge cs.length k with hlt | hge
    · rw [advance_past hc k hlt] at hpos
      cases hpos
    · rw [advance_seg hc k hge] at hpos
      cases hk : cs[k]? with
      | none => simp [hk] at hpos
      | some x =>
        simp [hk] at hpos
        exact ⟨k, x, rfl, hk, hpos.symm⟩

theorem seg_split_at {α : Type} {h : List (Option (Node α))} {cs : List (Nat × α)}
    {p : Option NodePtr} {k : Nat} {x : Nat × α}
    (hc : Seg h p cs none) (hk : cs[k]? = some x) :
    ∃ nxt, Seg h p (cs.take k) (some (.heap x.1)) ∧ h[x.1]? = some (some ⟨x.2, nxt⟩) ∧
      Seg h nxt (cs.drop (k + 1)) none ∧ x.1 ∉ (cs.take k).map Prod.fst ∧
      x.1 ∉ (cs.drop (k + 1)).map Prod.fst := by
  have hklt : k < cs.length := by
    by_contra hge
    rw [List.getElem?_eq_none (by omega)] at hk
    cases hk
  have hx : cs[k] = x := by
    rw [List.getElem?_eq_getElem hklt] at hk
    exact Option.some.inj hk
  have hsplit : cs = cs.take k ++ x :: cs.drop (k + 1) := by
    rw [← hx, ← List.drop_eq_getElem_cons hklt, List.take_append_drop]
  have hnd := seg_nodup hc
  rw [hsplit] at hc hnd
  rw [seg_append] at hc
  obtain ⟨r, h1, hr, nxt, hcell, h2⟩ := hc
  subst hr
  refine ⟨nxt, h1, hcell, h2, ?_, ?_⟩
  · simp only [List.map_append, List.map_cons] at hnd
    have := (List.nodup_append.mp hnd).2.2
    intro hmem
    exact this hmem (List.mem_cons_self _ _)
  · simp only [List.map_append, List.map_cons] at hnd
    have := (List.nodup_append.mp hnd).2.1
    exact (List.nodup_cons.mp this).1

theorem take_succ_of_getElem? {β : Type} {l : List β} {k : Nat} {x : β}
    (hk : l[k]? = some x) : l.take (k + 1) = l.take k ++ [x] := by
  rw [List.take_succ, hk]
  rfl

theorem seg_insert {α : Type} {h : List (Option (Node α))} {cs : List (Nat × α)}
    {p : Option NodePtr} {k : Nat} {x : Nat × α} (v : α)
    (hc : Seg h p cs none) (hk : cs[k]? = some x) :
    ∃ nxt, h[x.1]? = some (some ⟨x.2, nxt⟩) ∧
      Seg ((h ++ [some (⟨v, nxt⟩ : Node α)]).set x.1 (some ⟨x.2, some (.heap h.length)⟩)) p
        (cs.take (k + 1) ++ (h.length, v) :: cs.drop (k + 1)) none := by
  obtain ⟨nxt, h1, hcell, h2, hn1, hn2⟩ := seg_split_at hc hk
  have hxlt : x.1 < h.length := by
    by_contra hge
    rw [List.getElem?_eq_none (by omega)] at hcell
    cases hcell
  refine ⟨nxt, hcell, ?_⟩
  rw [take_succ_of_getElem? hk, List.append_assoc, seg_append]
  refine ⟨some (.heap x.1), seg_set_frame (seg_append_heap h1 _) _ _ hn1, ?_⟩
  refine ⟨rfl, some (.heap h.length), ?_, rfl, nxt, ?_, ?_⟩
  · have hlt2 : x.1 < (h ++ [some (⟨v, nxt⟩ : Node α)]).length := by
      simp only [List.length_append, List.length_singleton]; omega
    rw [List.getElem?_set_self hlt2]
  · have hne : x.1 ≠ h.length := by omega
    simp [List.getElem?_set, hne]
  · exact seg_set_frame (seg_append_heap h2 _) _ _ hn2

theorem InsertAfter_heap {α : Type} {m : Memory α} {this a : Nat} {L : SingleLinkedList}
    {g : List Bool} {xv : α} {nxt : Option NodePtr} (v : α)
    (hL : m.lists[this]? = some L) (hg : m.grants = true :: g)
    (hlt : m.heap.length + 1 < SIZE_MOD) (hcell : m.heap[a]? = some (some ⟨xv, nxt⟩)) :
    InsertAfter m this (some (.heap a)) v =
      .ok ⟨m.lists.set this ⟨L.head_next, (L.size_ + 1) % SIZE_MOD⟩,
        (m.heap ++ [some (⟨v, nxt⟩ : Node α)]).set a (some ⟨xv, some (.heap m.heap.length)⟩), g⟩
        (some (.heap m.heap.length)) := by
  have hthis := lists_lt hL
  have halt : a < m.heap.length := by
    by_contra hge
    rw [List.getElem?_eq_none (by omega)] at hcell
    cases hcell
  simp [InsertAfter, Memory.load_next, hcell, new_Node_ok hg hlt, Memory.store_next,
    List.getElem?_append_left halt, Memory.incr_size, hL]

theorem InsertAfter_head {α : Type} {m : Memory α} {this : Nat} {L : SingleLinkedList}
    {g : List Bool} (v : α)
    (hL : m.lists[this]? = some L) (hg : m.grants = true :: g)
    (hlt : m.heap.length + 1 < SIZE_MOD) :
    InsertAfter m this (some (.head this)) v =
      .ok ⟨m.lists.set this ⟨some (.heap m.heap.length), (L.size_ + 1) % SIZE_MOD⟩,
        m.heap ++ [some (⟨v, L.head_next⟩ : Node α)], g⟩ (some (.heap m.heap.length)) := by
  have hthis := lists_lt hL
  simp [InsertAfter, Memory.load_next, hL, new_Node_ok hg hlt, Memory.store_next,
    Memory.incr_size, hthis]

/-- Claim C3. Let list `this` have element sequence `s` (with `size_` its length)
and let `pos` be its position number `i`, reached from `before_begin()` by `i`
increments (`0` is `before_begin()`, `k + 1` is the element of index `k`). When the
node can be allocated, `InsertAfter(pos, v)` returns normally, the sequence becomes
`s` with `v` inserted at index `i`, `GetSize()` grows by one, and the returned
iterator dereferences to `v`, follows `pos`, and precedes what followed `pos`. -/
theorem InsertAfter_spec {α : Type} (m : Memory α) (this : Nat) (s : List α) (i : Nat)
    (pos : NodePtr) (v : α)
    (hs : elements m this = some s) (hsize : GetSize m this = some s.length)
    (hpos : advance m i (before_begin this) = .ok (some pos))
    (hnew : m.can_new 1 = true) :
    ∃ m2 new_item, InsertAfter m this (some pos) v = .ok m2 (some new_item) ∧
      elements m2 this = some (s.take i ++ v :: s.drop i) ∧
      GetSize m2 this = some (s.length + 1) ∧
      Iterator.deref m2 (some new_item) = .ok v ∧
      Iterator.incr m2 (some pos) = .ok (some new_item) ∧
      Iterator.incr m2 (some new_item) = Iterator.incr m (some pos) := by
  obtain ⟨L, cs, hL, hc, hmap⟩ := (elements_iff m this s).mp hs
  obtain ⟨g, hg, hlt⟩ := can_new_one hnew
  have hLs : L.size_ = s.length := by
    simp [GetSize, hL] at hsize; exact hsize
  have hthis := lists_lt hL
  have hcl := seg_length_le hc
  have hlen : s.length = cs.length := by rw [← hmap]; simp
  have hmod : (L.size_ + 1) % SIZE_MOD = s.length + 1 := by
    rw [hLs]; exact size_incr_mod (by omega) hlt
  rcases position_cases hL hc hpos with ⟨hi, hp⟩ | ⟨k, x, hi, hk, hp⟩
  · subst hi; subst hp
    refine ⟨_, _, InsertAfter_head v hL hg hlt, ?_, ?_, ?_, ?_, ?_⟩
    · have hseg : Seg (m.heap ++ [some (⟨v, L.head_next⟩ : Node α)])
          (some (.heap m.heap.length)) ((m.heap.length, v) :: cs) none :=
        ⟨rfl, L.head_next, by simp, seg_append_heap hc _⟩
      rw [elements_set hthis (some (.heap m.heap.length)) ((L.size_ + 1) % SIZE_MOD) g hseg]
      simp [hmap]
    · rw [GetSize_set hthis, hmod]
    · simp [Iterator.deref, Memory.load_value]
    · simp [Iterator.incr, Memory.load_next, hthis]
    · simp [Iterator.incr, Memory.load_next, hL]
  · subst hi; subst hp
    obtain ⟨nxt, hcell, hseg⟩ := seg_insert v hc hk
    have hxlt : x.1 < m.heap.length := by
      by_contra hge
      rw [List.getElem?_eq_none (by omega)] at hcell
      cases hcell
    have hne : x.1 ≠ m.heap.length := by omega
    refine ⟨_, _, InsertAfter_heap v hL hg hlt hcell, ?_, ?_, ?_, ?_, ?_⟩
    · rw [elements_set hthis L.head_next ((L.size_ + 1) % SIZE_MOD) g hseg]
      simp [← hmap, List.map_take, List.map_drop]
    · rw [GetSize_set hthis, hmod]
    · simp [Iterator.deref, Memory.load_value, List.getElem?_set, hne]
    · have hlt2 : x.1 < (m.heap ++ [some (⟨v, nxt⟩ : Node α)]).length := by
        simp only [List.length_append, List.length_singleton]; omega
      simp only [Iterator.incr, Memory.load_next]
      rw [List.getElem?_set_self hlt2]
    · simp [Iterator.incr, Memory.load_next, List.getElem?_set, hne, hcell]

theorem InsertAfter_spec_witness :
    advance sample_memory 0 (before_begin 0) = .ok (some (.head 0)) ∧
    ∃ m2 new_item, InsertAfter sample_memory 0 (some (.head 0)) 5 = .ok m2 (some new_item) ∧
      elements m2 0 = some ([10, 20].take 0 ++ 5 :: [10, 20].drop 0) ∧
      GetSize m2 0 = some ([10, 20].length + 1) ∧
      Iterator.deref m2 (some new_item) = .ok 5 ∧
      Iterator.incr m2 (some (.head 0)) = .ok (some new_item) ∧
      Iterator.incr m2 (some new_item) = Iterator.incr sample_memory (some (.head 0)) :=
  ⟨by decide, InsertAfter_spec sample_memory 0 [10, 20] 0 (.head 0) 5
    (by decide) (by decide) (by decide) (by decide)⟩

/-! ## EraseAfter -/

theorem cell_lt {α : Type} {h : List (Option (Node α))} {a : Nat} {n : Node α}
    (hcell : h[a]? = some (some n)) : a < h.length := by
  by_contra hge
  rw [List.getElem?_eq_none (by omega)] at hcell
  cases hcell

theorem seg_erase {α : Type} {h : List (Option (Node α))} {cs : List (Nat × α)}
    {p : Option NodePtr} {k : Nat} {x y : Nat × α}
    (hc : Seg h p cs none) (hk : cs[k]? = some x) (hk1 : cs[k + 1]? = some y) :
    ∃ ny, h[x.1]? = some (some ⟨x.2, some (.heap y.1)⟩) ∧ h[y.1]? = some (some ⟨y.2, ny⟩) ∧
      x.1 ≠ y.1 ∧ (ny = none ↔ k + 2 = cs.length) ∧
      Seg ((h.set y.1 none).set x.1 (some ⟨x.2, ny⟩)) p
        (cs.take (k + 1) ++ cs.drop (k + 2)) none := by
  obtain ⟨nxt, h1, hcell, h2, hn1, hn2⟩ := seg_split_at hc hk
  obtain ⟨ny, _, hcelly, h4, hm1, hm2⟩ := seg_split_at hc hk1
  have hk1lt : k + 1 < cs.length := by
    by_contra hge
    rw [List.getElem?_eq_none (by omega)] at hk1
    cases hk1
  have hy : cs[k + 1] = y := by
    rw [List.getElem?_eq_getElem hk1lt] at hk1
    exact Option.some.inj hk1
  have hdrop : cs.drop (k + 1) = y :: cs.drop (k + 2) := by
    rw [List.drop_eq_getElem_cons hk1lt, hy]
  rw [hdrop] at h2 hn2
  obtain ⟨hnxt, ny2, hcelly2, h5⟩ := h2
  subst hnxt
  have hxy : x.1 ≠ y.1 := by
    intro e
    apply hn2
    simp [e]
  have hxd : x.1 ∉ (cs.drop (k + 2)).map Prod.fst := by
    intro hmem
    apply hn2
    simp only [List.map_cons, List.mem_cons]
    exact Or.inr hmem
  have hyt : y.1 ∉ (cs.take k).map Prod.fst := by
    intro hmem
    apply hm1
    rw [take_succ_of_getElem? hk]
    simp only [List.map_append, List.mem_append]
    exact Or.inl hmem
  have hxlt := cell_lt hcell
  have hylt := cell_lt hcelly
  refine ⟨ny, hcell, hcelly, hxy, ?_, ?_⟩
  · constructor
    · intro hnone
      subst hnone
      cases hd : cs.drop (k + 2) with
      | nil =>
        have := congrArg List.length hd
        simp at this
        omega
      | cons z zs =>
        rw [hd] at h4
        obtain ⟨hz, _⟩ := h4
        cases hz
    · intro hlen
      have hd : cs.drop (k + 2) = [] := by
        apply List.eq_nil_of_length_eq_zero
        simp; omega
      rw [hd] at h4
      exact h4
  · rw [take_succ_of_getElem? hk, List.append_assoc, seg_append]
    refine ⟨some (.heap x.1),
      seg_set_frame (seg_set_frame h1 _ _ hyt) _ _ hn1, ?_⟩
    refine ⟨rfl, ny, ?_, ?_⟩
    · have hlt2 : x.1 < (h.set y.1 none).length := by simpa using hxlt
      rw [List.getElem?_set_self hlt2]
    · exact seg_set_frame (seg_set_frame h4 _ _ hm2) _ _ hxd

theorem EraseAfter_end {α : Type} {m : Memory α} (this : Nat) {p : NodePtr}
    (hnext : m.load_next p = some none) : EraseAfter m this (some p) = .ok m none := by
  simp [EraseAfter, hnext]

theorem EraseAfter_head {α : Type} {m : Memory α} {this a : Nat} {L : SingleLinkedList}
    {x : α} {nxt : Option NodePtr}
    (hL : m.lists[this]? = some L) (hhead : L.head_next = some (.heap a))
    (hcell : m.heap[a]? = some (some ⟨x, nxt⟩)) :
    EraseAfter m this (some (.head this)) =
      .ok ⟨m.lists.set this ⟨nxt, (L.size_ + SIZE_MOD - 1) % SIZE_MOD⟩,
        m.heap.set a none, m.grants⟩ nxt := by
  have hthis := lists_lt hL
  simp [EraseAfter, Memory.load_next, hL, hhead, hcell, Memory.delete_node,
    Memory.store_next, Memory.decr_size, hthis]

theorem EraseAfter_heap {α : Type} {m : Memory α} {this a b : Nat} {L : SingleLinkedList}
    {xa xb : α} {nxt : Option NodePtr}
    (hL : m.lists[this]? = some L) (hab : a ≠ b)
    (hcella : m.heap[a]? = some (some ⟨xa, some (.heap b)⟩))
    (hcellb : m.heap[b]? = some (some ⟨xb, nxt⟩)) :
    EraseAfter m this (some (.heap a)) =
      .ok ⟨m.lists.set this ⟨L.head_next, (L.size_ + SIZE_MOD - 1) % SIZE_MOD⟩,
        (m.heap.set b none).set a (some ⟨xa, nxt⟩), m.grants⟩ nxt := by
  have hthis := lists_lt hL
  have hba : b ≠ a := fun e => hab e.symm
  simp [EraseAfter, Memory.load_next, hL, hcella, hcellb, Memory.delete_node,
    Memory.store_next, Memory.decr_size, List.getElem?_set, hba]

/-- Claim C4. Let list `this` have element sequence `s` (with `size_` its length)
and let `pos` be its position number `i` (`0` is `before_begin()`, `k + 1` the
element of index `k`) with `i < s.length`, so that a node follows `pos`. Then
`EraseAfter(pos)` returns normally, removes exactly the element of index `i`,
lowers `GetSize()` by one, and returns the iterator that now follows `pos`, which
is `end()` exactly when the removed node was the last. -/
theorem EraseAfter_spec {α : Type} (m : Memory α) (this : Nat) (s : List α) (i : Nat)
    (pos : NodePtr)
    (hrep : m.representable = true)
    (hs : elements m this = some s) (hsize : GetSize m this = some s.length)
    (hpos : advance m i (before_begin this) = .ok (some pos))
    (hi : i < s.length) :
    ∃ m2 ret, EraseAfter m this (some pos) = .ok m2 ret ∧
      elements m2 this = some (s.take i ++ s.drop (i + 1)) ∧
      GetSize m2 this = some (s.length - 1) ∧
      Iterator.incr m2 (some pos) = .ok ret ∧
      (ret = end_ ↔ i + 1 = s.length) := by
  obtain ⟨L, cs, hL, hc, hmap⟩ := (elements_iff m this s).mp hs
  have hLs : L.size_ = s.length := by
    simp [GetSize, hL] at hsize; exact hsize
  have hthis := lists_lt hL
  have hlen : s.length = cs.length := by rw [← hmap]; simp
  have hne : L.size_ ≠ 0 := by omega
  have hdec : (L.size_ + SIZE_MOD - 1) % SIZE_MOD = s.length - 1 := by
    rw [size_decr_mod2 hne (representable_size hrep hL), hLs]
  rcases position_cases hL hc hpos with ⟨hi0, hp⟩ | ⟨k, x, hik, hk, hp⟩
  · subst hi0; subst hp
    cases cs with
    | nil => rw [hlen] at hi; simp at hi
    | cons y c2 =>
      have hnd := seg_nodup hc
      obtain ⟨hp, nxt, hy, hrest⟩ := hc
      refine ⟨_, _, EraseAfter_head hL hp hy, ?_, ?_, ?_, ?_⟩
      · rw [elements_set hthis nxt ((L.size_ + SIZE_MOD - 1) % SIZE_MOD) _
          (seg_set_frame hrest _ _ (List.nodup_cons.mp hnd).1)]
        simp [← hmap]
      · rw [GetSize_set hthis, hdec]
      · simp [Iterator.incr, Memory.load_next, hthis]
      · cases c2 with
        | nil =>
          have : nxt = none := hrest
          simp [end_, this, hlen]
        | cons z c3 =>
          obtain ⟨hz, _⟩ := hrest
          simp [end_, hz, hlen]
  · subst hik; subst hp
    have hk1lt : k + 1 < cs.length := by omega
    obtain ⟨y, hk1⟩ : ∃ y, cs[k + 1]? = some y := ⟨_, List.getElem?_eq_getElem hk1lt⟩
    obtain ⟨ny, hcx, hcy, hxy, hny, hseg⟩ := seg_erase hc hk hk1
    refine ⟨_, _, EraseAfter_heap hL hxy hcx hcy, ?_, ?_, ?_, ?_⟩
    · rw [elements_set hthis L.head_next ((L.size_ + SIZE_MOD - 1) % SIZE_MOD) _ hseg]
      simp [← hmap, List.map_take, List.map_drop]
    · rw [GetSize_set hthis, hdec]
    · have hlt2 : x.1 < (m.heap.set y.1 none).length := by
        simpa using cell_lt hcx
      simp only [Iterator.incr, Memory.load_next]
      rw [List.getElem?_set_self hlt2]
    · rw [hlen]
      exact hny

theorem EraseAfter_spec_witness :
    advance sample_memory 0 (before_begin 0) = .ok (some (.head 0)) ∧
    ∃ m2 ret, EraseAfter sample_memory 0 (some (.head 0)) = .ok m2 ret ∧
      elements m2 0 = some ([10, 20].take 0 ++ [10, 20].drop (0 + 1)) ∧
      GetSize m2 0 = some ([10, 20].length - 1) ∧
      Iterator.incr m2 (some (.head 0)) = .ok ret ∧
      (ret = end_ ↔ 0 + 1 = [10, 20].length) :=
  ⟨by decide, EraseAfter_spec sample_memory 0 [10, 20] 0 (.head 0)
    (by decide) (by decide) (by decide) (by decide) (by decide)⟩

/-- Claim C5. Let `pos` be position number `i` of list `this`, whose element
sequence is `s`, and let the successor of `pos` be `end()`. Then `pos` is the last
position (`i = s.length`: the last element, or `before_begin()` of an empty list)
and `EraseAfter(pos)` returns `end()` with the memory, hence the element sequence
and `GetSize()`, unchanged. -/
theorem EraseAfter_noop {α : Type} (m : Memory α) (this : Nat) (s : List α) (i : Nat)
    (pos : NodePtr)
    (hs : elements m this = some s)
    (hpos : advance m i (before_begin this) = .ok (some pos))
    (hsucc : Iterator.incr m (some pos) = .ok end_) :
    i = s.length ∧
    ∃ m2, EraseAfter m this (some pos) = .ok m2 end_ ∧ m2 = m ∧
      elements m2 this = some s ∧ GetSize m2 this = GetSize m this := by
  have hnext : m.load_next pos = some none := by
    simp only [Iterator.incr] at hsucc
    cases hl : m.load_next pos with
    | none => simp [hl] at hsucc
    | some q =>
      simp [hl, end_] at hsucc
      rw [hsucc]
  refine ⟨?_, m, EraseAfter_end this hnext, rfl, hs, rfl⟩
  obtain ⟨L, cs, hL, hc, hmap⟩ := (elements_iff m this s).mp hs
  have hlen : s.length = cs.length := by rw [← hmap]; simp
  rcases position_cases hL hc hpos with ⟨hi0, hp⟩ | ⟨k, x, hik, hk, hp⟩
  · subst hi0; subst hp
    simp [Memory.load_next, hL] at hnext
    rw [hnext] at hc
    cases cs with
    | nil => simp [hlen]
    | cons y c2 =>
      obtain ⟨hy, _⟩ := hc
      cases hy
  · subst hik; subst hp
    obtain ⟨nxt, _, hcell, h2, _, _⟩ := seg_split_at hc hk
    simp [Memory.load_next, hcell] at hnext
    subst hnext
    have hklt : k < cs.length := by
      by_contra hge
      rw [List.getElem?_eq_none (by omega)] at hk
      cases hk
    cases hd : cs.drop (k + 1) with
    | nil =>
      have := congrArg List.length hd
      simp at this
      omega
    | cons z zs =>
      rw [hd] at h2
      obtain ⟨hz, _⟩ := h2
      cases hz

theorem EraseAfter_noop_witness :
    advance sample_memory 2 (before_begin 0) = .ok (some (.heap 1)) ∧
    2 = [10, 20].length ∧
    ∃ m2, EraseAfter sample_memory 0 (some (.heap 1)) = .ok m2 end_ ∧ m2 = sample_memory ∧
      elements m2 0 = some [10, 20] ∧ GetSize m2 0 = GetSize sample_memory 0 :=
  ⟨by decide, EraseAfter_noop sample_memory 0 [10, 20] 2 (.heap 1)
    (by decide) (by decide) (by decide)⟩

/-! ## PushBack -/

theorem walk_head {α : Type} {m : Memory α} {this : Nat} {L : SingleLinkedList}
    (hL : m.lists[this]? = some L) (k : Nat) :
    PushBack.walk m (k + 1) (some (.head this)) = PushBack.walk m k L.head_next := by
  simp [PushBack.walk, Memory.load_next, hL]

theorem walk_seg {α : Type} {m : Memory α} {cs : List (Nat × α)} {p q : Option NodePtr}
    (hc : Seg m.heap p cs q) (k : Nat) (hk : k ≤ cs.length) :
    PushBack.walk m k p = some (match cs[k]? with
      | some x => some (.heap x.1)
      | none => q) := by
  induction cs generalizing p k with
  | nil =>
    have hp : p = q := hc
    subst hp
    have : k = 0 := by simpa using hk
    subst this
    simp [PushBack.walk]
  | cons x cs ih =>
    obtain ⟨hp, nxt, hx, hrest⟩ := hc
    subst hp
    cases k with
    | zero => simp [PushBack.walk]
    | succ k =>
      have hk2 : k ≤ cs.length := by simpa using hk
      simp [PushBack.walk, Memory.load_next, hx, ih hrest k hk2]

theorem PushBack_at_head {α : Type} {m : Memory α} {this : Nat} {L : SingleLinkedList}
    {g : List Bool} (x : α)
    (hL : m.lists[this]? = some L) (hg : m.grants = true :: g)
    (hlt : m.heap.length + 1 < SIZE_MOD)
    (hwalk : PushBack.walk (⟨m.lists, m.heap ++ [some (⟨x, none⟩ : Node α)], g⟩ : Memory α)
      L.size_ (some (.head this)) = some (some (.head this))) :
    PushBack m this x =
      .ok ⟨m.lists.set this ⟨some (.heap m.heap.length), (L.size_ + 1) % SIZE_MOD⟩,
        m.heap ++ [some (⟨x, none⟩ : Node α)], g⟩ () := by
  have hthis := lists_lt hL
  simp [PushBack, new_Node_ok hg hlt, hL, hwalk, Memory.store_next, Memory.incr_size, hthis]

theorem PushBack_at_node {α : Type} {m : Memory α} {this a : Nat} {L : SingleLinkedList}
    {g : List Bool} {xa : α} {nxt : Option NodePtr} (x : α)
    (hL : m.lists[this]? = some L) (hg : m.grants = true :: g)
    (hlt : m.heap.length + 1 < SIZE_MOD)
    (hwalk : PushBack.walk (⟨m.lists, m.heap ++ [some (⟨x, none⟩ : Node α)], g⟩ : Memory α)
      L.size_ (some (.head this)) = some (some (.heap a)))
    (hcell : m.heap[a]? = some (some ⟨xa, nxt⟩)) :
    PushBack m this x =
      .ok ⟨m.lists.set this ⟨L.head_next, (L.size_ + 1) % SIZE_MOD⟩,
        (m.heap ++ [some (⟨x, none⟩ : Node α)]).set a (some ⟨xa, some (.heap m.heap.length)⟩),
        g⟩ () := by
  have hthis := lists_lt hL
  have halt := cell_lt hcell
  simp [PushBack, new_Node_ok hg hlt, hL, hwalk, Memory.store_next,
    List.getElem?_append_left halt, hcell, Memory.incr_size]

/-- Claim C6. Let list `this` have element sequence `s` and satisfy the size
invariant (`size_` is the length of `s`). When the node can be allocated,
`PushBack(x)` returns normally, the sequence becomes `s ++ [x]` and `GetSize()`
grows by one. The walk of `size_` steps from the sentinel never dereferences a null
pointer and stops at a node `last` that is the last position of the list (the
sentinel itself when `s` is empty), whose `next_node` was null. -/
theorem PushBack_appends {α : Type} (m : Memory α) (this : Nat) (s : List α) (x : α)
    (hs : elements m this = some s) (hsize : GetSize m this = some s.length)
    (hnew : m.can_new 1 = true) :
    ∃ m2 last, PushBack m this x = .ok m2 () ∧
      elements m2 this = some (s ++ [x]) ∧
      GetSize m2 this = some (s.length + 1) ∧
      PushBack.walk (m.new_Node x none).1 s.length (some (.head this)) = some (some last) ∧
      PushBack.walk m s.length (some (.head this)) = some (some last) ∧
      advance m s.length (before_begin this) = .ok (some last) ∧
      (s = [] → last = .head this) ∧
      Iterator.incr m (some last) = .ok end_ := by
  obtain ⟨L, cs, hL, hc, hmap⟩ := (elements_iff m this s).mp hs
  obtain ⟨g, hg, hlt⟩ := can_new_one hnew
  have hLs : L.size_ = s.length := by
    simp [GetSize, hL] at hsize; exact hsize
  have hthis := lists_lt hL
  have hcl := seg_length_le hc
  have hlen : s.length = cs.length := by rw [← hmap]; simp
  have hmod : (L.size_ + 1) % SIZE_MOD = s.length + 1 := by
    rw [hLs]; exact size_incr_mod (by omega) hlt
  have hL1 : (⟨m.lists, m.heap ++ [some (⟨x, none⟩ : Node α)], g⟩ : Memory α).lists[this]?
      = some L := hL
  have hc1 : Seg (⟨m.lists, m.heap ++ [some (⟨x, none⟩ : Node α)], g⟩ : Memory α).heap
      L.head_next cs none := seg_append_heap hc _
  rw [new_Node_ok hg hlt]
  rcases List.eq_nil_or_concat cs with hnil | ⟨cs0, xl, hcat⟩
  · subst hnil
    have hs0 : s = [] := by simpa using hmap.symm
    subst hs0
    have hhead : L.head_next = none := hc
    refine ⟨_, .head this, PushBack_at_head x hL hg hlt ?_, ?_, ?_, ?_, ?_, ?_, ?_, ?_⟩
    · rw [hLs]; rfl
    · have hseg : Seg (m.heap ++ [some (⟨x, none⟩ : Node α)])
          (some (.heap m.heap.length)) [(m.heap.length, x)] none :=
        ⟨rfl, none, by simp, rfl⟩
      rw [elements_set hthis _ _ g hseg]
      rfl
    · rw [GetSize_set hthis, hmod]
    · rfl
    · rfl
    · rfl
    · intro _; rfl
    · simp [Iterator.incr, Memory.load_next, hL, hhead, end_]
  · have hk : cs[cs0.length]? = some xl := by
      rw [hcat]; simp
    have hclen : cs.length = cs0.length + 1 := by rw [hcat]; simp
    have hsl : s.length = cs0.length + 1 := by omega
    obtain ⟨nxt, hcell, hseg⟩ := seg_insert x hc hk
    obtain ⟨nxt2, _, hcell2, h2, _, _⟩ := seg_split_at hc hk
    have hnxt : nxt = none := by
      rw [hcell] at hcell2
      injection hcell2 with e
      injection e with e
      injection e with _ e
      rw [e]
      have hd : cs.drop (cs0.length + 1) = [] := by
        apply List.eq_nil_of_length_eq_zero
        simp; omega
      rw [hd] at h2
      exact h2
    subst hnxt
    have hw1 : PushBack.walk (⟨m.lists, m.heap ++ [some (⟨x, none⟩ : Node α)], g⟩ : Memory α)
        s.length (some (.head this)) = some (some (.heap xl.1)) := by
      rw [hsl, walk_head hL1, walk_seg hc1 _ (by omega), hk]
    have hw0 : PushBack.walk m s.length (some (.head this)) = some (some (.heap xl.1)) := by
      rw [hsl, walk_head hL, walk_seg hc _ (by omega), hk]
    have hadv : advance m s.length (before_begin this) = .ok (some (.heap xl.1)) := by
      rw [hsl]
      simp only [advance, before_begin, Iterator.incr, Memory.load_next, hL]
      rw [advance_seg hc _ (by omega), hk]
    refine ⟨_, .heap xl.1, PushBack_at_node x hL hg hlt (hLs ▸ hw1) hcell, ?_, ?_, hw1, hw0,
      hadv, ?_, ?_⟩
    · rw [elements_set hthis _ _ g hseg]
      have htake : cs.take (cs0.length + 1) = cs := by
        apply List.take_of_length_le; omega
      have hdrop : cs.drop (cs0.length + 1) = [] := by
        apply List.eq_nil_of_length_eq_zero
        simp; omega
      rw [htake, hdrop]
      simp [hmap]
    · rw [GetSize_set hthis, hmod]
    · intro hnil
      rw [hnil] at hsl
      simp at hsl
    · simp [Iterator.incr, Memory.load_next, hcell, end_]

theorem PushBack_appends_witness :
    elements sample_memory 0 = some [10, 20] ∧
    ∃ m2 last, PushBack sample_memory 0 5 = .ok m2 () ∧
      elements m2 0 = some ([10, 20] ++ [5]) ∧
      GetSize m2 0 = some ([10, 20].length + 1) ∧
      PushBack.walk (sample_memory.new_Node 5 none).1 [10, 20].length (some (.head 0))
        = some (some last) ∧
      PushBack.walk sample_memory [10, 20].length (some (.head 0)) = some (some last) ∧
      advance sample_memory [10, 20].length (before_begin 0) = .ok (some last) ∧
      (([10, 20] : List Nat) = [] → last = .head 0) ∧
      Iterator.incr sample_memory (some last) = .ok end_ :=
  ⟨by decide, PushBack_appends sample_memory 0 [10, 20] 5 (by decide) (by decide) (by decide)⟩

/-! ## Clear -/

theorem set_self_of_getElem? {β : Type} {l : List β} {i : Nat} {x : β}
    (h : l[i]? = some x) : l.set i x = l := by
  apply List.ext_getElem?
  intro j
  by_cases hij : i = j
  · subst hij
    have hlt : i < l.length := by
      by_contra hge
      rw [List.getElem?_eq_none (by omega)] at h
      cases h
    rw [List.getElem?_set_self hlt, h]
  · rw [List.getElem?_set_ne hij]

theorem Clear_loop_zero {α : Type} {m : Memory α} {this : Nat} {L : SingleLinkedList}
    (hL : m.lists[this]? = some L) (hz : L.size_ = 0) (fuel : Nat) :
    Clear.loop this fuel m = .ok m () := by
  cases fuel <;> simp [Clear.loop, hL, hz]

theorem Clear_loop_succ {α : Type} {m : Memory α} {this : Nat} {L : SingleLinkedList}
    (hL : m.lists[this]? = some L) (hne : L.size_ ≠ 0) (fuel : Nat) :
    Clear.loop this (fuel + 1) m =
      match PopFront m this with
      | .ok m1 _ => Clear.loop this fuel m1
      | .throw m1 => .throw m1
      | .fault f => .fault f := by
  simp [Clear.loop, hL, hne]

theorem Clear_loop_seg {α : Type} (this : Nat) (cs : List (Nat × α)) :
    ∀ (m : Memory α) (L : SingleLinkedList), m.lists[this]? = some L →
      Seg m.heap L.head_next cs none → L.size_ = cs.length → cs.length < SIZE_MOD →
      ∃ h2, Clear.loop this cs.length m = .ok ⟨m.lists.set this ⟨none, 0⟩, h2, m.grants⟩ () ∧
        h2.length = m.heap.length ∧ ∀ a, a ∉ cs.map Prod.fst → h2[a]? = m.heap[a]? := by
  induction cs with
  | nil =>
    intro m L hL hc hsz _
    have hhead : L.head_next = none := hc
    have hLeq : L = ⟨none, 0⟩ := by
      cases L
      simp only [List.length_nil] at hsz hhead
      rw [hsz, hhead]
    refine ⟨m.heap, ?_, rfl, fun _ _ => rfl⟩
    rw [Clear_loop_zero hL (by simpa using hsz)]
    rw [← hLeq, set_self_of_getElem? hL]
  | cons x cs ih =>
    intro m L hL hc hsz hbound
    have hnd := seg_nodup hc
    obtain ⟨hp, nxt, hx, hrest⟩ := hc
    have hthis := lists_lt hL
    have hne : L.size_ ≠ 0 := by rw [hsz]; simp
    have hdec : (L.size_ + SIZE_MOD - 1) % SIZE_MOD = cs.length := by
      rw [size_decr_mod2 hne (by rw [hsz]; exact hbound), hsz]
      simp
    have hx1 : x.1 ∉ cs.map Prod.fst := (List.nodup_cons.mp hnd).1
    obtain ⟨h2, hloop, hlen2, hframe⟩ := ih
      (⟨m.lists.set this ⟨nxt, (L.size_ + SIZE_MOD - 1) % SIZE_MOD⟩, m.heap.set x.1 none,
        m.grants⟩ : Memory α) ⟨nxt, (L.size_ + SIZE_MOD - 1) % SIZE_MOD⟩
      (by simp [hthis]) (seg_set_frame hrest _ _ hx1) hdec
      (by simp only [List.length_cons] at hbound; omega)
    refine ⟨h2, ?_, ?_, ?_⟩
    · simp only [List.length_cons]
      rw [Clear_loop_succ hL hne, PopFront_cons hL hne hp hx]
      simp only
      rw [hloop]
      simp
    · simpa using hlen2
    · intro a ha
      simp only [List.map_cons, List.mem_cons, not_or] at ha
      rw [hframe a ha.2]
      have hne2 : x.1 ≠ a := fun e => ha.1 e.symm
      simp [List.getElem?_set, hne2]

/-- Claim C9. On a list with element sequence `s` satisfying the size invariant,
`Clear()` returns normally (its loop terminates) and leaves `GetSize() == 0`,
`begin() == end()` and no element; a second `Clear()` returns the very same
memory, so clearing twice equals clearing once. -/
theorem Clear_empties_idempotent {α : Type} (m : Memory α) (this : Nat) (s : List α)
    (hrep : m.representable = true)
    (hs : elements m this = some s) (hsize : GetSize m this = some s.length) :
    ∃ m2, Clear m this = .ok m2 () ∧ GetSize m2 this = some 0 ∧
      begin m2 this = some end_ ∧ elements m2 this = some [] ∧
      IsEmpty m2 this = some true ∧ Clear m2 this = .ok m2 () := by
  obtain ⟨L, cs, hL, hc, hmap⟩ := (elements_iff m this s).mp hs
  have hLs : L.size_ = s.length := by
    simp [GetSize, hL] at hsize; exact hsize
  have hthis := lists_lt hL
  have hlen : s.length = cs.length := by rw [← hmap]; simp
  have hbound : cs.length < SIZE_MOD := by
    rw [← hlen, ← hLs]; exact representable_size hrep hL
  obtain ⟨h2, hloop, _, _⟩ := Clear_loop_seg this cs m L hL hc (by omega) hbound
  have hL2 : (⟨m.lists.set this ⟨none, 0⟩, h2, m.grants⟩ : Memory α).lists[this]?
      = some ⟨none, 0⟩ := by simp [hthis]
  refine ⟨⟨m.lists.set this ⟨none, 0⟩, h2, m.grants⟩, ?_, ?_, ?_, ?_, ?_, ?_⟩
  · simp only [Clear, hL]
    rw [hLs, hlen, hloop]
  · rw [GetSize_set hthis]
  · simp [begin, hthis, end_]
  · have hseg : Seg h2 none ([] : List (Nat × α)) none := rfl
    rw [elements_set hthis none 0 _ hseg]
    rfl
  · simp [IsEmpty, hthis]
  · simp only [Clear, hL2]
    exact Clear_loop_zero hL2 rfl 0

theorem Clear_empties_idempotent_witness :
    elements sample_memory 0 = some [10, 20] ∧
    ∃ m2, Clear sample_memory 0 = .ok m2 () ∧ GetSize m2 0 = some 0 ∧
      begin m2 0 = some end_ ∧ elements m2 0 = some [] ∧
      IsEmpty m2 0 = some true ∧ Clear m2 0 = .ok m2 () :=
  ⟨by decide, Clear_empties_idempotent sample_memory 0 [10, 20]
    (by decide) (by decide) (by decide)⟩

/-! ## Construction from a sequence -/

theorem advance_index {α : Type} {m : Memory α} {this : Nat} {L : SingleLinkedList}
    {cs : List (Nat × α)} {k : Nat} {x : Nat × α}
    (hL : m.lists[this]? = some L) (hc : Seg m.heap L.head_next cs none)
    (hk : cs[k]? = some x) :
    advance m (k + 1) (before_begin this) = .ok (some (.heap x.1)) := by
  have hklt : k < cs.length := by
    by_contra hge
    rw [List.getElem?_eq_none (by omega)] at hk
    cases hk
  simp only [advance, before_begin, Iterator.incr, Memory.load_next, hL]
  rw [advance_seg hc k (by omega), hk]

theorem position_le {α : Type} {m : Memory α} {this : Nat} {L : SingleLinkedList}
    {cs : List (Nat × α)} {i : Nat} {pos : NodePtr}
    (hL : m.lists[this]? = some L) (hc : Seg m.heap L.head_next cs none)
    (hpos : advance m i (before_begin this) = .ok (some pos)) : i ≤ cs.length := by
  rcases position_cases hL hc hpos with ⟨hi, _⟩ | ⟨k, x, hi, hk, _⟩
  · omega
  · have hklt : k < cs.length := by
      by_contra hge
      rw [List.getElem?_eq_none (by omega)] at hk
      cases hk
    omega

theorem InsertAfter_chain {α : Type} {m : Memory α} {this : Nat} {L : SingleLinkedList}
    {cs : List (Nat × α)} {i : Nat} {pos : NodePtr} {g : List Bool} (v : α)
    (hL : m.lists[this]? = some L) (hc : Seg m.heap L.head_next cs none)
    (hsz : L.size_ = cs.length)
    (hpos : advance m i (before_begin this) = .ok (some pos))
    (hg : m.grants = true :: g) (hlt : m.heap.length + 1 < SIZE_MOD) :
    ∃ hd2 h2, InsertAfter m this (some pos) v =
        .ok ⟨m.lists.set this ⟨hd2, cs.length + 1⟩, h2, g⟩ (some (.heap m.heap.length)) ∧
      Seg h2 hd2 (cs.take i ++ (m.heap.length, v) :: cs.drop i) none ∧
      h2.length = m.heap.length + 1 ∧
      (∀ a, a < m.heap.length → a ∉ cs.map Prod.fst → h2[a]? = m.heap[a]?) ∧
      Iterator.incr (⟨m.lists.set this ⟨hd2, cs.length + 1⟩, h2, g⟩ : Memory α) (some pos)
        = .ok (some (.heap m.heap.length)) := by
  have hthis := lists_lt hL
  have hcl := seg_length_le hc
  have hmod : (L.size_ + 1) % SIZE_MOD = cs.length + 1 := by
    rw [hsz]; exact size_incr_mod (by omega) hlt
  rcases position_cases hL hc hpos with ⟨hi, hp⟩ | ⟨k, x, hi, hk, hp⟩
  · subst hi; subst hp
    refine ⟨some (.heap m.heap.length), m.heap ++ [some (⟨v, L.head_next⟩ : Node α)],
      ?_, ?_, ?_, ?_, ?_⟩
    · rw [InsertAfter_head v hL hg hlt, hmod]
    · exact ⟨rfl, L.head_next, by simp, seg_append_heap hc _⟩
    · simp
    · intro a ha _
      exact List.getElem?_append_left ha
    · simp [Iterator.incr, Memory.load_next, hthis]
  · subst hi; subst hp
    obtain ⟨nxt, hcell, hseg⟩ := seg_insert v hc hk
    have hxlt := cell_lt hcell
    refine ⟨L.head_next,
      (m.heap ++ [some (⟨v, nxt⟩ : Node α)]).set x.1 (some ⟨x.2, some (.heap m.heap.length)⟩),
      ?_, hseg, ?_, ?_, ?_⟩
    · rw [InsertAfter_heap v hL hg hlt hcell, hmod]
    · simp
    · intro a ha hmem
      have hne : x.1 ≠ a := by
        intro e
        apply hmem
        rw [← e]
        exact List.mem_map.mpr ⟨x, List.getElem?_mem hk, rfl⟩
      rw [List.getElem?_set_ne hne]
      exact List.getElem?_append_left ha
    · have hlt2 : x.1 < (m.heap ++ [some (⟨v, nxt⟩ : Node α)]).length := by
        simp only [List.length_append, List.length_singleton]; omega
      simp only [Iterator.incr, Memory.load_next]
      rw [List.getElem?_set_self hlt2]

theorem can_new_succ {α : Type} {m : Memory α} {n : Nat} (hnew : m.can_new (n + 1) = true) :
    ∃ g, m.grants = true :: g ∧ m.heap.length + 1 < SIZE_MOD ∧
      g.take n = List.replicate n true ∧ m.heap.length + 1 + n < SIZE_MOD := by
  unfold Memory.can_new at hnew
  simp only [decide_eq_true_eq] at hnew
  obtain ⟨hg, hlt⟩ := hnew
  cases hgr : m.grants with
  | nil => simp [hgr] at hg
  | cons b g =>
    rw [hgr, List.take_succ_cons, List.replicate_succ] at hg
    injection hg with hb hg
    exact ⟨g, by rw [hb], by omega, hg, by omega⟩

theorem can_new_mk {α : Type} (ls : List SingleLinkedList) (h : List (Option (Node α)))
    (g : List Bool) (n : Nat) (hg : g.take n = List.replicate n true)
    (hlt : h.length + n < SIZE_MOD) : (⟨ls, h, g⟩ : Memory α).can_new n = true := by
  unfold Memory.can_new
  simp only [decide_eq_true_eq]
  exact ⟨hg, hlt⟩

theorem copy_loop_done {α It : Type} [DecidableEq It] (I : InputIt α It) (this : Nat)
    (last : It) (fuel : Nat) (m : Memory α) (p : Iterator) :
    CopyFromRange.loop I this last fuel m p last = .ok m () := by
  cases fuel <;> simp [CopyFromRange.loop]

theorem copy_loop_step {α It : Type} [DecidableEq It] (I : InputIt α It) (this : Nat)
    (last : It) (fuel : Nat) (m : Memory α) (p : Iterator) (it : It) (hne : it ≠ last) :
    CopyFromRange.loop I this last (fuel + 1) m p it =
      match I.deref m it with
      | .error f => .fault f
      | .ok v =>
        match InsertAfter m this p v with
        | .fault f => .fault f
        | .throw m1 => .throw m1
        | .ok m1 _ =>
          match Iterator.incr m1 p with
          | .error f => .fault f
          | .ok ptr2 =>
            match I.incr m1 it with
            | .error f => .fault f
            | .ok it2 => CopyFromRange.loop I this last fuel m1 ptr2 it2 := by
  simp [CopyFromRange.loop, hne]

theorem array_it_deref {α : Type} (values : List α) (m : Memory α) (j : Nat)
    (hj : j < values.length) : (array_it values).deref m j = .ok values[j] := by
  simp [array_it, List.getElem?_eq_getElem hj]

theorem array_it_incr {α : Type} (values : List α) (m : Memory α) (j : Nat) :
    (array_it values).incr m j = .ok (j + 1) := rfl

theorem copy_loop_array {α : Type} (values : List α) (copy : Nat) :
    ∀ (n j fuel : Nat) (m : Memory α) (L : SingleLinkedList) (cs : List (Nat × α))
      (ptr : NodePtr),
      j + n = values.length → n ≤ fuel → m.lists[copy]? = some L →
      Seg m.heap L.head_next cs none → L.size_ = cs.length →
      advance m cs.length (before_begin copy) = .ok (some ptr) → m.can_new n = true →
      ∃ hd2 h2 cs2,
        CopyFromRange.loop (array_it values) copy values.length fuel m (some ptr) j =
          .ok ⟨m.lists.set copy ⟨hd2, cs2.length⟩, h2, m.grants.drop n⟩ () ∧
        Seg h2 hd2 cs2 none ∧ cs2.map Prod.snd = cs.map Prod.snd ++ values.drop j := by
  intro n
  induction n with
  | zero =>
    intro j fuel m L cs ptr hj _ hL hc hsz _ _
    have hjl : j = values.length := by omega
    subst hjl
    refine ⟨L.head_next, m.heap, cs, ?_, hc, by simp⟩
    rw [copy_loop_done]
    have hLeq : (⟨L.head_next, cs.length⟩ : SingleLinkedList) = L := by
      cases L
      simp only at hsz
      rw [hsz]
    rw [hLeq, set_self_of_getElem? hL]
    rfl
  | succ n ih =>
    intro j fuel m L cs ptr hj hfuel hL hc hsz hptr hnew
    have hjlt : j < values.length := by omega
    have hjne : j ≠ values.length := by omega
    obtain ⟨g, hg, hlt, hgn, hltn⟩ := can_new_succ hnew
    obtain ⟨fuel2, hf2⟩ : ∃ f, fuel = f + 1 := ⟨fuel - 1, by omega⟩
    subst hf2
    have hthis := lists_lt hL
    obtain ⟨hd1, h1, hins, hseg1, hlen1, _, hincr⟩ :=
      InsertAfter_chain values[j] hL hc hsz hptr hg hlt
    rw [List.take_of_length_le (Nat.le_refl _), List.drop_of_length_le (Nat.le_refl _)]
      at hseg1
    have hL1 : (⟨m.lists.set copy ⟨hd1, cs.length + 1⟩, h1, g⟩ : Memory α).lists[copy]?
        = some ⟨hd1, cs.length + 1⟩ := by simp [hthis]
    have hk : (cs ++ [(m.heap.length, values[j])])[cs.length]?
        = some (m.heap.length, values[j]) := by simp
    have hptr1 := advance_index hL1 hseg1 hk
    obtain ⟨hd2, h2, cs2, hloop, hseg2, hvals⟩ := ih (j + 1) fuel2
      (⟨m.lists.set copy ⟨hd1, cs.length + 1⟩, h1, g⟩ : Memory α) ⟨hd1, cs.length + 1⟩
      (cs ++ [(m.heap.length, values[j])]) (.heap m.heap.length)
      (by omega) (by omega) hL1 hseg1 (by simp)
      (by simpa using hptr1)
      (can_new_mk _ _ _ _ hgn (by rw [hlen1]; exact hltn))
    refine ⟨hd2, h2, cs2, ?_, hseg2, ?_⟩
    · rw [copy_loop_step _ _ _ _ _ _ _ hjne]
      rw [array_it_deref values m j hjlt]
      simp only [hins, hincr, array_it_incr]
      rw [hloop]
      simp [hg]
    · rw [hvals, List.drop_eq_getElem_cons hjlt]
      simp

theorem set_append_two_left {β : Type} (l : List β) (a b x : β) :
    (l ++ [a, b]).set l.length x = l ++ [x, b] := by
  induction l with
  | nil => rfl
  | cons y l ih => simp [ih]

theorem set_append_two_right {β : Type} (l : List β) (a b x : β) :
    (l ++ [a, b]).set (l.length + 1) x = l ++ [a, x] := by
  induction l with
  | nil => rfl
  | cons y l ih => simp [ih]

theorem getElem?_append_two_left {β : Type} (l : List β) (a b : β) :
    (l ++ [a, b])[l.length]? = some a := by
  rw [List.getElem?_append_right (Nat.le_refl _)]
  simp

theorem getElem?_append_two_right {β : Type} (l : List β) (a b : β) :
    (l ++ [a, b])[l.length + 1]? = some b := by
  rw [List.getElem?_append_right (by omega)]
  simp

theorem dropLast_append_two {β : Type} (l : List β) (a b : β) :
    (l ++ [a, b]).dropLast = l ++ [a] := by
  have : l ++ [a, b] = (l ++ [a]) ++ [b] := by simp
  rw [this, List.dropLast_concat]

/-- Claim C2. For every sequence `s`, when the `s.length` nodes can be allocated,
the constructor from an initializer list returns normally with a new list object
whose iteration from `begin()` to `end()` gives exactly `s`, in order, and whose
`GetSize()` is the length of `s`. -/
theorem from_initializer_list_roundtrip {α : Type} (m : Memory α) (s : List α)
    (hnew : m.can_new s.length = true) :
    ∃ m2 this, SingleLinkedList.from_initializer_list m s = .ok m2 this ∧
      this = m.lists.length ∧ elements m2 this = some s ∧ GetSize m2 this = some s.length := by
  have hL1 : (⟨m.lists ++ [⟨none, 0⟩, ⟨none, 0⟩], m.heap, m.grants⟩ : Memory α).lists[
      m.lists.length + 1]? = some ⟨none, 0⟩ := getElem?_append_two_right _ _ _
  obtain ⟨hd2, h2, cs2, hloop, hseg, hvals⟩ := copy_loop_array s (m.lists.length + 1)
    s.length 0 s.length (⟨m.lists ++ [⟨none, 0⟩, ⟨none, 0⟩], m.heap, m.grants⟩ : Memory α)
    ⟨none, 0⟩ [] (.head (m.lists.length + 1)) (by omega) (Nat.le_refl _) hL1 rfl rfl rfl
    (by
      unfold Memory.can_new at hnew ⊢
      exact hnew)
  simp only [List.map_nil, List.nil_append, List.drop_zero] at hvals
  have hlen : cs2.length = s.length := by rw [← hvals]; simp
  refine ⟨⟨m.lists ++ [⟨hd2, cs2.length⟩], h2, m.grants.drop s.length⟩, m.lists.length,
    ?_, rfl, ?_, ?_⟩
  · simp only [SingleLinkedList.from_initializer_list, SingleLinkedList.default_ctor,
      List.length_append, List.length_singleton, List.append_assoc, List.singleton_append,
      fill_and_swap, CopyFromRange, before_begin]
    simp only [List.length_nil] at hloop
    rw [hloop]
    simp only [set_append_two_right, swap, getElem?_append_two_left,
      getElem?_append_two_right, set_append_two_left, end_scope, Clear,
      List.length_append, List.length_cons, List.length_nil]
    simp only [Nat.add_sub_cancel, Nat.zero_add, Nat.reduceAdd]
    rw [show m.lists.length + 2 - 1 = m.lists.length + 1 by omega]
    simp only [getElem?_append_two_right]
    rw [Clear_loop_zero (getElem?_append_two_right _ _ _) rfl]
    simp only [dropLast_append_two]
  · apply (elements_iff _ _ _).mpr
    exact ⟨⟨hd2, cs2.length⟩, cs2, by simp, hseg, hvals⟩
  · simp [GetSize, hlen]

theorem from_initializer_list_roundtrip_witness :
    ∃ m2 this, SingleLinkedList.from_initializer_list sample_memory [7, 8] = .ok m2 this ∧
      this = sample_memory.lists.length ∧ elements m2 this = some [7, 8] ∧
      GetSize m2 this = some [7, 8].length :=
  from_initializer_list_roundtrip sample_memory [7, 8] (by decide)

/-! ## The invariant of reachable memories -/

theorem Inv_update {α : Type} {m : Memory α} {this : Nat} {L : SingleLinkedList}
    {cs : List (Nat × α)} (hinv : m.Inv) (hL : m.lists[this]? = some L)
    (hc : Seg m.heap L.head_next cs none)
    (hd2 : Option NodePtr) (h2 : List (Option (Node α))) (g2 : List Bool)
    (cs2 : List (Nat × α))
    (hbound : h2.length < SIZE_MOD)
    (hseg2 : Seg h2 hd2 cs2 none)
    (hframe : ∀ a, a < m.heap.length → a ∉ cs.map Prod.fst → h2[a]? = m.heap[a]?)
    (haddr : ∀ a ∈ cs2.map Prod.fst, a ∈ cs.map Prod.fst ∨ m.heap.length ≤ a) :
    (⟨m.lists.set this ⟨hd2, cs2.length⟩, h2, g2⟩ : Memory α).Inv := by
  obtain ⟨hrep, hchains, hdisj⟩ := hinv
  have hthis := lists_lt hL
  -- every other list keeps its chain
  have hkeep : ∀ (l : Nat) (L1 : SingleLinkedList) (c1 : List (Nat × α)), l ≠ this →
      m.lists[l]? = some L1 → Seg m.heap L1.head_next c1 none → Seg h2 L1.head_next c1 none := by
    intro l L1 c1 hne hL1 hc1
    refine seg_frame hc1 ?_
    intro a ha
    exact hframe a (seg_lt hc1 a ha) (hdisj l this L1 L c1 cs hne hL1 hL hc1 hc a ha)
  have hget : ∀ (l : Nat) (L1 : SingleLinkedList),
      (m.lists.set this ⟨hd2, cs2.length⟩)[l]? = some L1 →
      (l = this ∧ L1 = ⟨hd2, cs2.length⟩) ∨ (l ≠ this ∧ m.lists[l]? = some L1) := by
    intro l L1 h
    by_cases hl : l = this
    · subst hl
      rw [List.getElem?_set_self hthis] at h
      exact Or.inl ⟨rfl, (Option.some.inj h).symm⟩
    · rw [List.getElem?_set_ne (fun e => hl e.symm)] at h
      exact Or.inr ⟨hl, h⟩
  refine ⟨?_, ?_, ?_⟩
  · unfold Memory.representable
    simp only [decide_eq_true_eq]
    refine ⟨hbound, ?_⟩
    intro L1 hmem
    rcases List.mem_or_eq_of_mem_set hmem with hold | hnew
    · obtain ⟨l, hl⟩ := List.mem_iff_getElem?.mp hold
      exact representable_size hrep hl
    · rw [hnew]
      have := seg_length_le hseg2
      simp only
      omega
  · intro l L1 hL1
    rcases hget l L1 hL1 with ⟨_, hnew⟩ | ⟨hne, hold⟩
    · subst hnew
      exact ⟨cs2, hseg2, rfl⟩
    · obtain ⟨c1, hc1, hsz⟩ := hchains l L1 hold
      exact ⟨c1, hkeep l L1 c1 hne hold hc1, hsz⟩
  · intro l1 l2 L1 L2 c1 c2 hne hL1 hL2 hc1 hc2 a ha1 ha2
    rcases hget l1 L1 hL1 with ⟨hl1, hnew1⟩ | ⟨hne1, hold1⟩
    · subst hnew1
      rcases hget l2 L2 hL2 with ⟨hl2, _⟩ | ⟨hne2, hold2⟩
      · exact hne (hl1.trans hl2.symm)
      · obtain ⟨c2o, hc2o, _⟩ := hchains l2 L2 hold2
        have e2 : c2 = c2o := seg_unique hc2 (hkeep l2 L2 c2o hne2 hold2 hc2o)
        have e1 : c1 = cs2 := seg_unique hc1 hseg2
        subst e2; subst e1
        rcases haddr a ha1 with hin | hfresh
        · exact hdisj l2 this L2 L c2 cs hne2 hold2 hL hc2o hc a ha2 hin
        · have := seg_lt hc2o a ha2
          omega
    · obtain ⟨c1o, hc1o, _⟩ := hchains l1 L1 hold1
      have e1 : c1 = c1o := seg_unique hc1 (hkeep l1 L1 c1o hne1 hold1 hc1o)
      subst e1
      rcases hget l2 L2 hL2 with ⟨hl2, hnew2⟩ | ⟨hne2, hold2⟩
      · subst hnew2
        have e2 : c2 = cs2 := seg_unique hc2 hseg2
        subst e2
        rcases haddr a ha2 with hin | hfresh
        · exact hdisj l1 this L1 L c1 cs hne1 hold1 hL hc1o hc a ha1 hin
        · have := seg_lt hc1o a ha1
          omega
      · obtain ⟨c2o, hc2o, _⟩ := hchains l2 L2 hold2
        have e2 : c2 = c2o := seg_unique hc2 (hkeep l2 L2 c2o hne2 hold2 hc2o)
        subst e2
        exact hdisj l1 l2 L1 L2 c1 c2 hne hold1 hold2 hc1o hc2o a ha1 ha2

theorem Inv_grants {α : Type} {m : Memory α} (hinv : m.Inv) (g2 : List Bool) :
    (⟨m.lists, m.heap, g2⟩ : Memory α).Inv := hinv

theorem new_Node_cases {α : Type} (m : Memory α) (v : α) (nxt : Option NodePtr) :
    (∃ g, m.grants = true :: g ∧ m.heap.length + 1 < SIZE_MOD) ∨
    (∃ g2, m.new_Node v nxt = (⟨m.lists, m.heap, g2⟩, none)) := by
  unfold Memory.new_Node
  cases hg : m.grants with
  | nil =>
    refine Or.inr ⟨[], ?_⟩
    cases m
    simp only at hg
    simp [hg]
  | cons b g =>
    cases b with
    | false => exact Or.inr ⟨g, rfl⟩
    | true =>
      by_cases hlt : m.heap.length + 1 < SIZE_MOD
      · exact Or.inl ⟨g, rfl, hlt⟩
      · exact Or.inr ⟨g, by simp [hlt]⟩

theorem validpos_exists {α : Type} {m : Memory α} {this i : Nat} {pos : NodePtr}
    (hpos : advance m i (before_begin this) = .ok (some pos))
    (hnone : m.lists[this]? = none) : i = 0 ∧ pos = .head this := by
  cases i with
  | zero =>
    simp [advance, before_begin] at hpos
    exact ⟨rfl, hpos.symm⟩
  | succ k =>
    simp [advance, before_begin, Iterator.incr, Memory.load_next, hnone] at hpos

theorem validpos_load {α : Type} {m : Memory α} {this i : Nat} {pos : NodePtr}
    {L : SingleLinkedList} {cs : List (Nat × α)}
    (hL : m.lists[this]? = some L) (hc : Seg m.heap L.head_next cs none)
    (hpos : advance m i (before_begin this) = .ok (some pos)) :
    ∃ tmp, m.load_next pos = some tmp := by
  rcases position_cases hL hc hpos with ⟨_, hp⟩ | ⟨k, x, _, hk, hp⟩
  · subst hp
    exact ⟨L.head_next, by simp [Memory.load_next, hL]⟩
  · subst hp
    obtain ⟨nxt, _, hcell, _⟩ := seg_split_at hc hk
    exact ⟨nxt, by simp [Memory.load_next, hcell]⟩

theorem mem_take_drop_insert {α : Type} {cs : List (Nat × α)} {i n : Nat} {v : α} {a : Nat}
    (ha : a ∈ (cs.take i ++ (n, v) :: cs.drop i).map Prod.fst) :
    a ∈ cs.map Prod.fst ∨ a = n := by
  simp only [List.map_append, List.map_cons, List.mem_append, List.mem_cons] at ha
  rcases ha with h | h | h
  · exact Or.inl (List.mem_map.mpr (by
      obtain ⟨y, hy, e⟩ := List.mem_map.mp h
      exact ⟨y, List.mem_of_mem_take hy, e⟩))
  · exact Or.inr h
  · exact Or.inl (List.mem_map.mpr (by
      obtain ⟨y, hy, e⟩ := List.mem_map.mp h
      exact ⟨y, List.mem_of_mem_drop hy, e⟩))

theorem InsertAfter_inv {α : Type} {m : Memory α} {this : Nat} {pos : NodePtr} (v : α)
    (hinv : m.Inv) (hpos : ValidPos m this pos) :
    (∀ m2, (InsertAfter m this (some pos) v).memory? = some m2 → m2.Inv) ∧
    (∀ m2 r, InsertAfter m this (some pos) v = .ok m2 r →
      ∃ p2, Iterator.incr m2 (some pos) = .ok (some p2) ∧ ValidPos m2 this p2) := by
  obtain ⟨i, hi⟩ := hpos
  cases hL : m.lists[this]? with
  | none =>
    obtain ⟨_, hp⟩ := validpos_exists hi hL
    subst hp
    have hf : InsertAfter m this (some (.head this)) v = .fault .ub := by
      simp [InsertAfter, Memory.load_next, hL]
    rw [hf]
    constructor
    · intro m2 h; simp [Result.memory?] at h
    · intro m2 r h; cases h
  | some L =>
    obtain ⟨cs, hc, hsz⟩ := hinv.2.1 this L hL
    obtain ⟨tmp, hload⟩ := validpos_load hL hc hi
    have hthis := lists_lt hL
    rcases new_Node_cases m v tmp with ⟨g, hg, hlt⟩ | ⟨g2, hfail⟩
    · obtain ⟨hd2, h2, hins, hseg, hlen, hframe, hincr⟩ :=
        InsertAfter_chain v hL hc hsz hi hg hlt
      have hile := position_le hL hc hi
      have hlen2 : (cs.take i ++ (m.heap.length, v) :: cs.drop i).length = cs.length + 1 := by
        simp [List.length_take, List.length_drop]; omega
      rw [hins]
      constructor
      · intro m2 h
        simp only [Result.memory?, Option.some.injEq] at h
        subst h
        rw [← hlen2]
        refine Inv_update hinv hL hc hd2 h2 g _ (by omega) hseg hframe ?_
        intro a ha
        rcases mem_take_drop_insert ha with h | h
        · exact Or.inl h
        · exact Or.inr (by omega)
      · intro m2 r h
        injection h with hm hr
        subst hm
        refine ⟨.heap m.heap.length, hincr, i + 1, ?_⟩
        have hL2 : (⟨m.lists.set this ⟨hd2, cs.length + 1⟩, h2, g⟩ : Memory α).lists[this]?
            = some ⟨hd2, cs.length + 1⟩ := by simp [hthis]
        have hk : (cs.take i ++ (m.heap.length, v) :: cs.drop i)[i]?
            = some (m.heap.length, v) := by
          rw [List.getElem?_append_right (by simp [List.length_take])]
          simp [List.length_take, Nat.min_eq_left hile]
        exact advance_index hL2 hseg hk
    · have hthrow : InsertAfter m this (some pos) v = .throw ⟨m.lists, m.heap, g2⟩ := by
        simp [InsertAfter, hload, hfail]
      rw [hthrow]
      constructor
      · intro m2 h
        simp only [Result.memory?, Option.some.injEq] at h
        subst h
        exact Inv_grants hinv g2
      · intro m2 r h; cases h

theorem Inv_erase_head {α : Type} {m : Memory α} {this : Nat} {L : SingleLinkedList}
    {y : Nat × α} {c2 : List (Nat × α)} (hinv : m.Inv) (hL : m.lists[this]? = some L)
    (hc : Seg m.heap L.head_next (y :: c2) none) (hsz : L.size_ = (y :: c2).length) :
    ∃ nxt, L.head_next = some (.heap y.1) ∧ m.heap[y.1]? = some (some ⟨y.2, nxt⟩) ∧
      L.size_ ≠ 0 ∧
      (⟨m.lists.set this ⟨nxt, (L.size_ + SIZE_MOD - 1) % SIZE_MOD⟩, m.heap.set y.1 none,
        m.grants⟩ : Memory α).Inv := by
  have hnd := seg_nodup hc
  have hc0 := hc
  obtain ⟨hp, nxt, hy, hrest⟩ := hc
  have hne : L.size_ ≠ 0 := by rw [hsz]; simp
  have hdec : (L.size_ + SIZE_MOD - 1) % SIZE_MOD = c2.length := by
    rw [size_decr_mod2 hne (representable_size hinv.1 hL), hsz]
    simp
  refine ⟨nxt, hp, hy, hne, ?_⟩
  rw [hdec]
  have hy1 : y.1 ∉ c2.map Prod.fst := (List.nodup_cons.mp hnd).1
  refine Inv_update hinv hL hc0 nxt _ _ c2 ?_ (seg_set_frame hrest _ _ hy1) ?_ ?_
  · simpa using representable_heap hinv.1
  · intro a _ hmem
    have hne2 : y.1 ≠ a := by
      intro e
      apply hmem
      simp [e]
    rw [List.getElem?_set_ne hne2]
  · intro a ha
    left
    simp only [List.map_cons, List.mem_cons]
    exact Or.inr ha

theorem mem_take_drop_erase {α : Type} {cs : List (Nat × α)} {i j : Nat} {a : Nat}
    (ha : a ∈ (cs.take i ++ cs.drop j).map Prod.fst) : a ∈ cs.map Prod.fst := by
  simp only [List.map_append, List.mem_append] at ha
  rcases ha with h | h
  · obtain ⟨y, hy, e⟩ := List.mem_map.mp h
    exact List.mem_map.mpr ⟨y, List.mem_of_mem_take hy, e⟩
  · obtain ⟨y, hy, e⟩ := List.mem_map.mp h
    exact List.mem_map.mpr ⟨y, List.mem_of_mem_drop hy, e⟩

theorem EraseAfter_inv {α : Type} {m : Memory α} {this : Nat} {pos : NodePtr}
    (hinv : m.Inv) (hpos : ValidPos m this pos) :
    ∀ m2, (EraseAfter m this (some pos)).memory? = some m2 → m2.Inv := by
  obtain ⟨i, hi⟩ := hpos
  intro m2 hres
  cases hL : m.lists[this]? with
  | none =>
    obtain ⟨_, hp⟩ := validpos_exists hi hL
    subst hp
    simp [EraseAfter, Memory.load_next, hL, Result.memory?] at hres
  | some L =>
    obtain ⟨cs, hc, hsz⟩ := hinv.2.1 this L hL
    have hthis := lists_lt hL
    rcases position_cases hL hc hi with ⟨_, hp⟩ | ⟨k, x, _, hk, hp⟩
    · subst hp
      cases cs with
      | nil =>
        have hhead : L.head_next = none := hc
        rw [EraseAfter_end this (by simp [Memory.load_next, hL, hhead])] at hres
        simp only [Result.memory?, Option.some.injEq] at hres
        subst hres
        exact hinv
      | cons y c2 =>
        obtain ⟨nxt, hp, hy, _, hinv2⟩ := Inv_erase_head hinv hL hc hsz
        rw [EraseAfter_head hL hp hy] at hres
        simp only [Result.memory?, Option.some.injEq] at hres
        subst hres
        exact hinv2
    · subst hp
      have hklt : k < cs.length := by
        by_contra hge
        rw [List.getElem?_eq_none (by omega)] at hk
        cases hk
      cases hk1 : cs[k + 1]? with
      | none =>
        obtain ⟨nxt, _, hcell, h2, _, _⟩ := seg_split_at hc hk
        have hd : cs.drop (k + 1) = [] := by
          apply List.drop_eq_nil_of_le
          by_contra hlt
          rw [List.getElem?_eq_getElem (by omega)] at hk1
          cases hk1
        rw [hd] at h2
        have hnxt : nxt = none := h2
        subst hnxt
        rw [EraseAfter_end this (by simp [Memory.load_next, hcell])] at hres
        simp only [Result.memory?, Option.some.injEq] at hres
        subst hres
        exact hinv
      | some y =>
        obtain ⟨ny, hcx, hcy, hxy, _, hseg⟩ := seg_erase hc hk hk1
        have hk1lt : k + 1 < cs.length := by
          by_contra hge
          rw [List.getElem?_eq_none (by omega)] at hk1
          cases hk1
        have hne : L.size_ ≠ 0 := by omega
        have hlen2 : (cs.take (k + 1) ++ cs.drop (k + 2)).length = cs.length - 1 := by
          simp [List.length_take, List.length_drop]; omega
        have hdec : (L.size_ + SIZE_MOD - 1) % SIZE_MOD
            = (cs.take (k + 1) ++ cs.drop (k + 2)).length := by
          rw [size_decr_mod2 hne (representable_size hinv.1 hL), hsz, hlen2]
        rw [EraseAfter_heap hL hxy hcx hcy] at hres
        simp only [Result.memory?, Option.some.injEq] at hres
        subst hres
        rw [hdec]
        refine Inv_update hinv hL hc _ _ _ _ ?_ hseg ?_ ?_
        · simpa using representable_heap hinv.1
        · intro a _ hmem
          have hnx : x.1 ≠ a := by
            intro e
            apply hmem
            rw [← e]
            exact List.mem_map.mpr ⟨x, List.getElem?_mem hk, rfl⟩
          have hny : y.1 ≠ a := by
            intro e
            apply hmem
            rw [← e]
            exact List.mem_map.mpr ⟨y, List.getElem?_mem hk1, rfl⟩
          rw [List.getElem?_set_ne hnx, List.getElem?_set_ne hny]
        · intro a ha
          exact Or.inl (mem_take_drop_erase ha)

theorem PopFront_inv {α : Type} {m : Memory α} {this : Nat} (hinv : m.Inv) :
    ∀ m2, (PopFront m this).memory? = some m2 → m2.Inv := by
  intro m2 hres
  cases hL : m.lists[this]? with
  | none => simp [PopFront, hL, Result.memory?] at hres
  | some L =>
    obtain ⟨cs, hc, hsz⟩ := hinv.2.1 this L hL
    cases cs with
    | nil =>
      rw [PopFront_zero hL (by simpa using hsz)] at hres
      simp only [Result.memory?, Option.some.injEq] at hres
      subst hres
      exact hinv
    | cons y c2 =>
      obtain ⟨nxt, hp, hy, hne, hinv2⟩ := Inv_erase_head hinv hL hc hsz
      rw [PopFront_cons hL hne hp hy] at hres
      simp only [Result.memory?, Option.some.injEq] at hres
      subst hres
      exact hinv2

theorem Clear_ok {α : Type} {m : Memory α} {this : Nat} {L : SingleLinkedList}
    {cs : List (Nat × α)} (hinv : m.Inv) (hL : m.lists[this]? = some L)
    (hc : Seg m.heap L.head_next cs none) (hsz : L.size_ = cs.length) :
    ∃ h2, Clear m this = .ok ⟨m.lists.set this ⟨none, 0⟩, h2, m.grants⟩ () ∧
      h2.length = m.heap.length ∧ (∀ a, a ∉ cs.map Prod.fst → h2[a]? = m.heap[a]?) ∧
      (⟨m.lists.set this ⟨none, 0⟩, h2, m.grants⟩ : Memory α).Inv := by
  have hbound : cs.length < SIZE_MOD := by
    rw [← hsz]; exact representable_size hinv.1 hL
  obtain ⟨h2, hloop, hlen, hframe⟩ := Clear_loop_seg this cs m L hL hc hsz hbound
  refine ⟨h2, ?_, hlen, hframe, ?_⟩
  · simp only [Clear, hL]
    rw [hsz, hloop]
  · have hseg : Seg h2 none ([] : List (Nat × α)) none := rfl
    refine Inv_update hinv hL hc none h2 m.grants [] ?_ hseg (fun a _ h => hframe a h) ?_
    · rw [hlen]; exact representable_heap hinv.1
    · intro a ha
      simp at ha

theorem Clear_inv {α : Type} {m : Memory α} {this : Nat} (hinv : m.Inv) :
    ∀ m2, (Clear m this).memory? = some m2 → m2.Inv := by
  intro m2 hres
  cases hL : m.lists[this]? with
  | none => simp [Clear, hL, Result.memory?] at hres
  | some L =>
    obtain ⟨cs, hc, hsz⟩ := hinv.2.1 this L hL
    obtain ⟨h2, hclear, _, _, hinv2⟩ := Clear_ok hinv hL hc hsz
    rw [hclear] at hres
    simp only [Result.memory?, Option.some.injEq] at hres
    subst hres
    exact hinv2

theorem validpos_head {α : Type} (m : Memory α) (this : Nat) : ValidPos m this (.head this) :=
  ⟨0, rfl⟩

theorem PushFront_eq_InsertAfter {α : Type} (m : Memory α) (this : Nat) (x : α) :
    (PushFront m this x).memory? = (InsertAfter m this (some (.head this)) x).memory? := by
  unfold PushFront InsertAfter
  simp only [Memory.load_next]
  cases m.lists[this]? with
  | none => rfl
  | some L =>
    simp only
    rcases hnew : m.new_Node x L.head_next with ⟨m1, r⟩
    cases r with
    | none => rfl
    | some p =>
      simp only
      cases m1.store_next (.head this) (some p) with
      | none => rfl
      | some m2 =>
        simp only
        cases m2.incr_size this <;> rfl

theorem PushFront_inv {α : Type} {m : Memory α} {this : Nat} (x : α) (hinv : m.Inv) :
    ∀ m2, (PushFront m this x).memory? = some m2 → m2.Inv := by
  intro m2 hres
  rw [PushFront_eq_InsertAfter] at hres
  exact (InsertAfter_inv x hinv (validpos_head m this)).1 m2 hres

theorem PushBack_inv {α : Type} {m : Memory α} {this : Nat} (x : α) (hinv : m.Inv) :
    ∀ m2, (PushBack m this x).memory? = some m2 → m2.Inv := by
  intro m2 hres
  rcases new_Node_cases m x none with ⟨g, hg, hlt⟩ | ⟨g2, hfail⟩
  · cases hL : m.lists[this]? with
    | none =>
      simp [PushBack, new_Node_ok hg hlt, hL, Result.memory?] at hres
    | some L =>
      obtain ⟨cs, hc, hsz⟩ := hinv.2.1 this L hL
      have hL1 : (⟨m.lists, m.heap ++ [some (⟨x, none⟩ : Node α)], g⟩ : Memory α).lists[this]?
          = some L := hL
      have hc1 : Seg (⟨m.lists, m.heap ++ [some (⟨x, none⟩ : Node α)], g⟩ : Memory α).heap
          L.head_next cs none := seg_append_heap hc _
      rcases List.eq_nil_or_concat cs with hnil | ⟨cs0, xl, hcat⟩
      · subst hnil
        have hhead : L.head_next = none := hc
        have hw : PushBack.walk (⟨m.lists, m.heap ++ [some (⟨x, none⟩ : Node α)], g⟩ : Memory α)
            L.size_ (some (.head this)) = some (some (.head this)) := by
          rw [hsz]; rfl
        rw [PushBack_at_head x hL hg hlt hw] at hres
        have hins := InsertAfter_head x hL hg hlt
        rw [hhead] at hins
        refine (InsertAfter_inv x hinv (validpos_head m this)).1 m2 ?_
        rw [hins]
        exact hres
      · have hk : cs[cs0.length]? = some xl := by
          rw [hcat]; simp
        have hclen : cs.length = cs0.length + 1 := by rw [hcat]; simp
        obtain ⟨nxt, _, hcell, h2, _, _⟩ := seg_split_at hc hk
        have hd : cs.drop (cs0.length + 1) = [] := by
          apply List.drop_eq_nil_of_le; omega
        rw [hd] at h2
        have hnxt : nxt = none := h2
        subst hnxt
        have hw : PushBack.walk (⟨m.lists, m.heap ++ [some (⟨x, none⟩ : Node α)], g⟩ : Memory α)
            L.size_ (some (.head this)) = some (some (.heap xl.1)) := by
          rw [hsz, hclen, walk_head hL1, walk_seg hc1 _ (by omega), hk]
        rw [PushBack_at_node x hL hg hlt hw hcell] at hres
        have hins := InsertAfter_heap x hL hg hlt hcell
        refine (InsertAfter_inv x hinv ⟨cs0.length + 1, advance_index hL hc hk⟩).1 m2 ?_
        rw [hins]
        exact hres
  · have hthrow : PushBack m this x = .throw ⟨m.lists, m.heap, g2⟩ := by
      simp [PushBack, hfail]
    rw [hthrow] at hres
    simp only [Result.memory?, Option.some.injEq] at hres
    subst hres
    exact Inv_grants hinv g2

theorem swap_getElem? {β : Type} {ls : List β} {a b : Nat} {A B : β}
    (hA : ls[a]? = some A) (hB : ls[b]? = some B) (l : Nat) :
    ((ls.set a B).set b A)[l]? = ls[if l = b then a else if l = a then b else l]? := by
  have halt : a < ls.length := by
    by_contra hge
    rw [List.getElem?_eq_none (by omega)] at hA
    cases hA
  have hblt : b < ls.length := by
    by_contra hge
    rw [List.getElem?_eq_none (by omega)] at hB
    cases hB
  by_cases hlb : l = b
  · subst hlb
    rw [List.getElem?_set_self (by simpa using hblt)]
    simp [hA]
  · rw [List.getElem?_set_ne (fun e => hlb e.symm)]
    by_cases hla : l = a
    · subst hla
      rw [List.getElem?_set_self halt]
      simp [hlb, hB]
    · rw [List.getElem?_set_ne (fun e => hla e.symm)]
      simp [hlb, hla]

theorem swap_inv {α : Type} {m : Memory α} {this other : Nat} (hinv : m.Inv) :
    ∀ m2, (swap m this other).memory? = some m2 → m2.Inv := by
  intro m2 hres
  unfold swap at hres
  cases hA : m.lists[this]? with
  | none => simp [hA, Result.memory?] at hres
  | some A =>
    cases hB : m.lists[other]? with
    | none => simp [hA, hB, Result.memory?] at hres
    | some B =>
      simp only [hA, hB, Result.memory?, Option.some.injEq] at hres
      subst hres
      obtain ⟨hrep, hchains, hdisj⟩ := hinv
      refine ⟨?_, ?_, ?_⟩
      · unfold Memory.representable
        simp only [decide_eq_true_eq]
        refine ⟨representable_heap hrep, ?_⟩
        intro L1 hmem
        obtain ⟨l, hl⟩ := List.mem_iff_getElem?.mp hmem
        rw [swap_getElem? hA hB] at hl
        exact representable_size hrep hl
      · intro l L1 hL1
        simp only at hL1
        rw [swap_getElem? hA hB] at hL1
        exact hchains _ L1 hL1
      · intro l1 l2 L1 L2 c1 c2 hne hL1 hL2 hc1 hc2
        simp only at hL1 hL2
        rw [swap_getElem? hA hB] at hL1 hL2
        refine hdisj _ _ L1 L2 c1 c2 ?_ hL1 hL2 hc1 hc2
        intro e
        apply hne
        split_ifs at e <;> omega

theorem default_ctor_inv {α : Type} {m : Memory α} (hinv : m.Inv) :
    (SingleLinkedList.default_ctor m).1.Inv := by
  obtain ⟨hrep, hchains, hdisj⟩ := hinv
  have hget : ∀ (l : Nat) (L1 : SingleLinkedList),
      (m.lists ++ [(⟨none, 0⟩ : SingleLinkedList)])[l]? = some L1 →
      m.lists[l]? = some L1 ∨ (l = m.lists.length ∧ L1 = ⟨none, 0⟩) := by
    intro l L1 h
    by_cases hl : l < m.lists.length
    · rw [List.getElem?_append_left hl] at h
      exact Or.inl h
    · rw [List.getElem?_append_right (by omega)] at h
      right
      by_cases hl2 : l = m.lists.length
      · subst hl2
        simp at h
        exact ⟨rfl, h.symm⟩
      · have : l - m.lists.length ≠ 0 := by omega
        rw [List.getElem?_eq_none (by simp; omega)] at h
        cases h
  refine ⟨?_, ?_, ?_⟩
  · unfold Memory.representable SingleLinkedList.default_ctor
    simp only [decide_eq_true_eq]
    refine ⟨representable_heap hrep, ?_⟩
    intro L1 hmem
    obtain ⟨l, hl⟩ := List.mem_iff_getElem?.mp hmem
    rcases hget l L1 hl with h | ⟨_, h⟩
    · exact representable_size hrep h
    · rw [h]
      simp [SIZE_MOD]
  · intro l L1 hL1
    rcases hget l L1 hL1 with h | ⟨_, h⟩
    · exact hchains l L1 h
    · rw [h]
      exact ⟨[], rfl, rfl⟩
  · intro l1 l2 L1 L2 c1 c2 hne hL1 hL2 hc1 hc2 a ha1 ha2
    rcases hget l1 L1 hL1 with h1 | ⟨e1, h1⟩
    · rcases hget l2 L2 hL2 with h2 | ⟨_, h2⟩
      · exact hdisj l1 l2 L1 L2 c1 c2 hne h1 h2 hc1 hc2 a ha1 ha2
      · subst h2
        cases c2 with
        | nil => simp at ha2
        | cons y c => obtain ⟨hy, _⟩ := hc2; cases hy
    · subst h1
      cases c1 with
      | nil => simp at ha1
      | cons y c => obtain ⟨hy, _⟩ := hc1; cases hy

theorem dropLast_inv {α : Type} {m : Memory α} (hinv : m.Inv) :
    (⟨m.lists.dropLast, m.heap, m.grants⟩ : Memory α).Inv := by
  obtain ⟨hrep, hchains, hdisj⟩ := hinv
  have hget : ∀ (l : Nat) (L1 : SingleLinkedList),
      m.lists.dropLast[l]? = some L1 → m.lists[l]? = some L1 := by
    intro l L1 h
    rw [List.dropLast_eq_take] at h
    rw [List.getElem?_take] at h
    split at h
    · exact h
    · cases h
  refine ⟨?_, ?_, ?_⟩
  · unfold Memory.representable
    simp only [decide_eq_true_eq]
    refine ⟨representable_heap hrep, ?_⟩
    intro L1 hmem
    obtain ⟨l, hl⟩ := List.mem_iff_getElem?.mp hmem
    exact representable_size hrep (hget l L1 hl)
  · intro l L1 hL1
    exact hchains l L1 (hget l L1 hL1)
  · intro l1 l2 L1 L2 c1 c2 hne hL1 hL2 hc1 hc2
    exact hdisj l1 l2 L1 L2 c1 c2 hne (hget l1 L1 hL1) (hget l2 L2 hL2) hc1 hc2

theorem end_scope_inv {α : Type} {m : Memory α} (hinv : m.Inv) :
    ∀ m2, (end_scope m).memory? = some m2 → m2.Inv := by
  intro m2 hres
  unfold end_scope at hres
  have hclear := @Clear_inv α m (m.lists.length - 1) hinv
  cases hc : Clear m (m.lists.length - 1) with
  | ok m1 r =>
    rw [hc] at hres hclear
    simp only [Result.memory?, Option.some.injEq] at hres
    subst hres
    exact dropLast_inv (hclear m1 rfl)
  | throw m1 =>
    rw [hc] at hres hclear
    simp only [Result.memory?, Option.some.injEq] at hres
    subst hres
    exact hclear m1 rfl
  | fault f =>
    rw [hc] at hres
    simp [Result.memory?] at hres

theorem copy_loop_inv {α It : Type} [DecidableEq It] (I : InputIt α It) (this : Nat)
    (last : It) :
    ∀ (fuel : Nat) (m : Memory α) (p : NodePtr) (it : It), m.Inv → ValidPos m this p →
      ∀ m2, (CopyFromRange.loop I this last fuel m (some p) it).memory? = some m2 → m2.Inv := by
  intro fuel
  induction fuel with
  | zero =>
    intro m p it hinv _ m2 hres
    by_cases hit : it = last
    · subst hit
      rw [copy_loop_done] at hres
      simp only [Result.memory?, Option.some.injEq] at hres
      subst hres
      exact hinv
    · simp [CopyFromRange.loop, hit, Result.memory?] at hres
  | succ fuel ih =>
    intro m p it hinv hpos m2 hres
    by_cases hit : it = last
    · subst hit
      rw [copy_loop_done] at hres
      simp only [Result.memory?, Option.some.injEq] at hres
      subst hres
      exact hinv
    · rw [copy_loop_step _ _ _ _ _ _ _ hit] at hres
      cases hd : I.deref m it with
      | error f => simp [hd, Result.memory?] at hres
      | ok v =>
        simp only [hd] at hres
        obtain ⟨hins1, hins2⟩ := InsertAfter_inv v hinv hpos
        cases hins : InsertAfter m this (some p) v with
        | fault f => simp [hins, Result.memory?] at hres
        | throw m1 =>
          rw [hins] at hins1
          simp only [hins, Result.memory?, Option.some.injEq] at hres
          subst hres
          exact hins1 m1 rfl
        | ok m1 r =>
          rw [hins] at hins1
          obtain ⟨p2, hincr, hpos2⟩ := hins2 m1 r hins
          simp only [hins, hincr] at hres
          cases hi : I.incr m1 it with
          | error f => simp [hi, Result.memory?] at hres
          | ok it2 =>
            simp only [hi] at hres
            exact ih m1 p2 it2 (hins1 m1 rfl) hpos2 m2 hres

theorem fill_and_swap_inv {α It : Type} [DecidableEq It] (I : InputIt α It) (fuel : Nat)
    {m : Memory α} (this copy : Nat) (first last : It) (hinv : m.Inv) :
    ∀ m2, (fill_and_swap I fuel m this copy first last).memory? = some m2 → m2.Inv := by
  intro m2 hres
  unfold fill_and_swap CopyFromRange at hres
  have hloop := copy_loop_inv I copy last fuel m (.head copy) first hinv (validpos_head m copy)
  simp only [before_begin] at hres
  cases hc : CopyFromRange.loop I copy last fuel m (some (.head copy)) first with
  | fault f => simp [hc, Result.memory?] at hres
  | throw m1 =>
    rw [hc] at hloop
    have hinv1 := hloop m1 rfl
    simp only [hc] at hres
    have hend := end_scope_inv hinv1
    cases he : end_scope m1 with
    | ok m3 r =>
      rw [he] at hend
      simp only [he, Result.memory?, Option.some.injEq] at hres
      subst hres
      exact dropLast_inv (hend m3 rfl)
    | throw m3 =>
      rw [he] at hend
      simp only [he, Result.memory?, Option.some.injEq] at hres
      subst hres
      exact hend m3 rfl
    | fault f => simp [he, Result.memory?] at hres
  | ok m1 r =>
    rw [hc] at hloop
    have hinv1 := hloop m1 rfl
    simp only [hc] at hres
    have hsw := @swap_inv α m1 this copy hinv1
    cases hs : swap m1 this copy with
    | fault f => simp [hs, Result.memory?] at hres
    | throw m3 =>
      rw [hs] at hsw
      simp only [hs, Result.memory?, Option.some.injEq] at hres
      subst hres
      exact hsw m3 rfl
    | ok m3 r3 =>
      rw [hs] at hsw
      have hinv3 := hsw m3 rfl
      simp only [hs] at hres
      have hend := end_scope_inv hinv3
      cases he : end_scope m3 with
      | ok m4 r4 =>
        rw [he] at hend
        simp only [he, Result.memory?, Option.some.injEq] at hres
        subst hres
        exact hend m4 rfl
      | throw m4 =>
        rw [he] at hend
        simp only [he, Result.memory?, Option.some.injEq] at hres
        subst hres
        exact hend m4 rfl
      | fault f => simp [he, Result.memory?] at hres

theorem from_initializer_list_inv {α : Type} {m : Memory α} (values : List α) (hinv : m.Inv) :
    ∀ m2, (SingleLinkedList.from_initializer_list m values).memory? = some m2 → m2.Inv := by
  intro m2 hres
  unfold SingleLinkedList.from_initializer_list at hres
  exact fill_and_swap_inv _ _ _ _ _ _ (default_ctor_inv (default_ctor_inv hinv)) m2 hres

theorem copy_ctor_inv {α : Type} {m : Memory α} (fuel other : Nat) (hinv : m.Inv) :
    ∀ m2, (SingleLinkedList.copy_ctor fuel m other).memory? = some m2 → m2.Inv := by
  intro m2 hres
  unfold SingleLinkedList.copy_ctor at hres
  simp only at hres
  split at hres
  · cases hb : begin (SingleLinkedList.default_ctor (SingleLinkedList.default_ctor m).1).1 other with
    | none => simp [hb, Result.memory?] at hres
    | some first =>
      simp only [hb] at hres
      exact fill_and_swap_inv _ _ _ _ _ _ (default_ctor_inv (default_ctor_inv hinv)) m2 hres
  · simp only [Result.memory?, Option.some.injEq] at hres
    subst hres
    exact default_ctor_inv hinv

theorem assign_inv {α : Type} {m : Memory α} (fuel this rhs : Nat) (hinv : m.Inv) :
    ∀ m2, (assign fuel m this rhs).memory? = some m2 → m2.Inv := by
  intro m2 hres
  unfold assign at hres
  split at hres
  · have hcopy := copy_ctor_inv fuel rhs hinv
    cases hc : SingleLinkedList.copy_ctor fuel m rhs with
    | fault f => simp [hc, Result.memory?] at hres
    | throw m1 =>
      rw [hc] at hcopy
      simp only [hc, Result.memory?, Option.some.injEq] at hres
      subst hres
      exact hcopy m1 rfl
    | ok m1 copy =>
      rw [hc] at hcopy
      have hinv1 := hcopy m1 rfl
      simp only [hc] at hres
      have hsw := @swap_inv α m1 this copy hinv1
      cases hs : swap m1 this copy with
      | fault f => simp [hs, Result.memory?] at hres
      | throw m3 =>
        rw [hs] at hsw
        simp only [hs, Result.memory?, Option.some.injEq] at hres
        subst hres
        exact hsw m3 rfl
      | ok m3 r3 =>
        rw [hs] at hsw
        simp only [hs] at hres
        exact end_scope_inv (hsw m3 rfl) m2 hres
  · simp only [Result.memory?, Option.some.injEq] at hres
    subst hres
    exact hinv

theorem start_inv {α : Type} (g : List Bool) : (⟨[], [], g⟩ : Memory α).Inv := by
  refine ⟨?_, ?_, ?_⟩
  · simp [Memory.representable, SIZE_MOD]
  · intro l L hL
    simp at hL
  · intro l1 l2 L1 L2 c1 c2 _ hL1
    simp at hL1

theorem reachable_inv {α : Type} {m : Memory α} (hreach : Reachable m) : m.Inv := by
  induction hreach with
  | start g => exact start_inv g
  | step c _ hvalid hrun ih =>
    cases c with
    | default_ctor =>
      simp only [Call.run, Option.some.injEq] at hrun
      subst hrun
      exact default_ctor_inv ih
    | from_initializer_list values => exact from_initializer_list_inv values ih _ hrun
    | copy_ctor fuel other => exact copy_ctor_inv fuel other ih _ hrun
    | PushFront this value => exact PushFront_inv value ih _ hrun
    | PushBack this value => exact PushBack_inv value ih _ hrun
    | PopFront this => exact PopFront_inv ih _ hrun
    | Clear this => exact Clear_inv ih _ hrun
    | InsertAfter this pos value => exact (InsertAfter_inv value ih hvalid).1 _ hrun
    | EraseAfter this pos => exact EraseAfter_inv ih hvalid _ hrun
    | swap this other => exact swap_inv ih _ hrun
    | assign fuel this rhs => exact assign_inv fuel this rhs ih _ hrun

/-- Claim C1. In every memory reachable from program start by constructions
(default, from a sequence, copy) and calls of `PushFront`, `PushBack`, `PopFront`,
`Clear`, `InsertAfter`, `EraseAfter` (at non-end positions of the list called),
`swap` and copy assignment, every list object with `GetSize() = n` iterates from
`begin()` to `end()` over exactly `n` nodes: its element sequence has length `n`,
`n` increments lead from `begin()` to `end()`, fewer lead to a node, and counted
from the sentinel itself the null reference is met at increment `n + 1`. -/
theorem size_invariant {α : Type} (m : Memory α) (this n : Nat)
    (hreach : Reachable m) (hsize : GetSize m this = some n) :
    ∃ s b, elements m this = some s ∧ s.length = n ∧ begin m this = some b ∧
      advance m n b = .ok end_ ∧
      (∀ k, k < n → ∃ p, advance m k b = .ok (some p)) ∧
      advance m (n + 1) (before_begin this) = .ok end_ := by
  have hinv := reachable_inv hreach
  cases hL : m.lists[this]? with
  | none => simp [GetSize, hL] at hsize
  | some L =>
    simp only [GetSize, hL, Option.some.injEq] at hsize
    obtain ⟨cs, hc, hsz⟩ := hinv.2.1 this L hL
    have hn : cs.length = n := by omega
    have hend : advance m n L.head_next = .ok end_ := by
      rw [← hn, advance_seg hc cs.length (Nat.le_refl _)]
      simp [end_]
    refine ⟨cs.map Prod.snd, L.head_next, elements_of_seg hL hc, by simp [hn],
      by simp [begin, hL], hend, ?_, ?_⟩
    · intro k hk
      have hklt : k < cs.length := by omega
      rw [advance_seg hc k (by omega), List.getElem?_eq_getElem hklt]
      exact ⟨_, rfl⟩
    · simp only [advance, before_begin, Iterator.incr, Memory.load_next, hL]
      exact hend

theorem size_invariant_witness :
    ∃ s b, elements built_memory 0 = some s ∧ s.length = 2 ∧ begin built_memory 0 = some b ∧
      advance built_memory 2 b = .ok end_ ∧
      (∀ k, k < 2 → ∃ p, advance built_memory k b = .ok (some p)) ∧
      advance built_memory (2 + 1) (before_begin 0) = .ok end_ :=
  size_invariant built_memory 0 2
    (@Reachable.step Nat ⟨[⟨some (.heap 0), 1⟩], [some ⟨8, none⟩], [true]⟩ built_memory
      (.PushFront 0 7)
      (@Reachable.step Nat ⟨[⟨none, 0⟩], [], [true, true]⟩
        ⟨[⟨some (.heap 0), 1⟩], [some ⟨8, none⟩], [true]⟩ (.PushFront 0 8)
        (@Reachable.step Nat ⟨[], [], [true, true]⟩ ⟨[⟨none, 0⟩], [], [true, true]⟩
          .default_ctor (Reachable.start [true, true]) trivial (by decide))
        trivial (by decide))
      trivial (by decide))
    (by decide)

/-- Claim C10. In every reachable memory, for every list object the three
conditions `IsEmpty()`, `GetSize() == 0` and `begin() == end()` are pairwise
equivalent. -/
theorem emptiness_equivalences {α : Type} (m : Memory α) (this : Nat)
    (hreach : Reachable m) :
    (IsEmpty m this = some true ↔ GetSize m this = some 0) ∧
    (GetSize m this = some 0 ↔ begin m this = some end_) ∧
    (IsEmpty m this = some true ↔ begin m this = some end_) := by
  have hinv := reachable_inv hreach
  cases hL : m.lists[this]? with
  | none => simp [IsEmpty, GetSize, begin, hL]
  | some L =>
    obtain ⟨cs, hc, hsz⟩ := hinv.2.1 this L hL
    have h1 : IsEmpty m this = some true ↔ GetSize m this = some 0 := by
      simp [IsEmpty, GetSize, hL]
    have h2 : GetSize m this = some 0 ↔ begin m this = some end_ := by
      simp only [GetSize, begin, hL, Option.some.injEq, end_]
      constructor
      · intro h0
        cases cs with
        | nil => exact hc
        | cons y c => rw [hsz] at h0; simp at h0
      · intro hnone
        cases cs with
        | nil => simpa using hsz
        | cons y c =>
          obtain ⟨hy, _⟩ := hc
          rw [hnone] at hy
          cases hy
    exact ⟨h1, h2, h1.trans h2⟩

theorem emptiness_equivalences_witness :
    (IsEmpty built_memory 0 = some true ↔ GetSize built_memory 0 = some 0) ∧
    (GetSize built_memory 0 = some 0 ↔ begin built_memory 0 = some end_) ∧
    (IsEmpty built_memory 0 = some true ↔ begin built_memory 0 = some end_) :=
  emptiness_equivalences built_memory 0
    (@Reachable.step Nat ⟨[⟨some (.heap 0), 1⟩], [some ⟨8, none⟩], [true]⟩ built_memory
      (.PushFront 0 7)
      (@Reachable.step Nat ⟨[⟨none, 0⟩], [], [true, true]⟩
        ⟨[⟨some (.heap 0), 1⟩], [some ⟨8, none⟩], [true]⟩ (.PushFront 0 8)
        (@Reachable.step Nat ⟨[], [], [true, true]⟩ ⟨[⟨none, 0⟩], [], [true, true]⟩
          .default_ctor (Reachable.start [true, true]) trivial (by decide))
        trivial (by decide))
      trivial (by decide))

/-! ## The fuel of the loops -/

theorem PopFront_ok_size {α : Type} {m m1 : Memory α} {this : Nat} {L : SingleLinkedList}
    {r : Unit} (hL : m.lists[this]? = some L) (hne : L.size_ ≠ 0)
    (hok : PopFront m this = .ok m1 r) :
    ∃ L1, m1.lists[this]? = some L1 ∧ L1.size_ = (L.size_ + SIZE_MOD - 1) % SIZE_MOD := by
  have hthis := lists_lt hL
  unfold PopFront at hok
  simp only [hL, hne, ne_eq, not_false_eq_true, ite_true] at hok
  cases hh : L.head_next with
  | none => simp [hh] at hok
  | some tmp =>
    simp only [hh] at hok
    cases hl : m.load_next tmp with
    | none => simp [hl] at hok
    | some nxt =>
      simp only [hl, Memory.store_next, hL] at hok
      cases hd : Memory.delete_node
          (⟨m.lists.set this ⟨nxt, L.size_⟩, m.heap, m.grants⟩ : Memory α) tmp with
      | none => simp [hd] at hok
      | some m2 =>
        simp only [hd] at hok
        have hm2 : m2.lists = m.lists.set this ⟨nxt, L.size_⟩ := by
          cases tmp with
          | head l => simp [Memory.delete_node] at hd
          | heap a =>
            simp only [Memory.delete_node] at hd
            split at hd
            · injection hd with hd
              rw [← hd]
            · cases hd
        have hL2 : m2.lists[this]? = some ⟨nxt, L.size_⟩ := by
          rw [hm2]; simp [hthis]
        simp only [Memory.decr_size, hL2] at hok
        injection hok with hm _
        subst hm
        refine ⟨⟨nxt, (L.size_ + SIZE_MOD - 1) % SIZE_MOD⟩, ?_, rfl⟩
        simp [hm2, hthis]

theorem PopFront_no_throw {α : Type} (m m1 : Memory α) (this : Nat) :
    PopFront m this ≠ .throw m1 := by
  unfold PopFront
  intro h
  repeat' split at h
  all_goals cases h

theorem Clear_loop_fuel {α : Type} (this : Nat) :
    ∀ (fuel : Nat) (m : Memory α) (L : SingleLinkedList), m.lists[this]? = some L →
      L.size_ ≤ fuel → L.size_ < SIZE_MOD → Clear.loop this fuel m ≠ .fault .out_of_fuel := by
  intro fuel
  induction fuel with
  | zero =>
    intro m L hL hle _
    rw [Clear_loop_zero hL (by omega)]
    intro h; cases h
  | succ fuel ih =>
    intro m L hL hle hlt
    by_cases hz : L.size_ = 0
    · rw [Clear_loop_zero hL hz]
      intro h; cases h
    · rw [Clear_loop_succ hL hz]
      cases hp : PopFront m this with
      | ok m1 r =>
        simp only
        obtain ⟨L1, hL1, hs1⟩ := PopFront_ok_size hL hz hp
        rw [size_decr_mod2 hz hlt] at hs1
        exact ih m1 L1 hL1 (by omega) (by omega)
      | throw m1 => intro h; cases h
      | fault f =>
        simp only
        intro h
        injection h with h
        subst h
        unfold PopFront at hp
        repeat' split at hp
        all_goals cases hp

/-- The fuel handed to the loop of `Clear()` never runs out: on a representable
memory `Clear()` does not report `out_of_fuel`. -/
theorem Clear_fuel_enough {α : Type} (m : Memory α) (this : Nat)
    (hrep : m.representable = true) : Clear m this ≠ .fault .out_of_fuel := by
  unfold Clear
  cases hL : m.lists[this]? with
  | none => intro h; cases h
  | some L => exact Clear_loop_fuel this L.size_ m L hL (Nat.le_refl _) (representable_size hrep hL)

theorem InsertAfter_fuel {α : Type} (m : Memory α) (this : Nat) (pos : Iterator) (v : α) :
    InsertAfter m this pos v ≠ .fault .out_of_fuel := by
  unfold InsertAfter
  intro h
  repeat' split at h
  all_goals cases h

theorem incr_fuel {α : Type} (m : Memory α) (it : Iterator) :
    Iterator.incr m it ≠ .error .out_of_fuel := by
  unfold Iterator.incr
  intro h
  repeat' split at h
  all_goals cases h

theorem copy_loop_array_fuel {α : Type} (values : List α) (this : Nat) :
    ∀ (n j fuel : Nat) (m : Memory α) (p : Iterator), j + n = values.length → n ≤ fuel →
      CopyFromRange.loop (array_it values) this values.length fuel m p j
        ≠ .fault .out_of_fuel := by
  intro n
  induction n with
  | zero =>
    intro j fuel m p hj _
    have hjl : j = values.length := by omega
    subst hjl
    rw [copy_loop_done]
    intro h; cases h
  | succ n ih =>
    intro j fuel m p hj hfuel
    have hjlt : j < values.length := by omega
    have hjne : j ≠ values.length := by omega
    obtain ⟨fuel2, hf2⟩ : ∃ f, fuel = f + 1 := ⟨fuel - 1, by omega⟩
    subst hf2
    rw [copy_loop_step _ _ _ _ _ _ _ hjne, array_it_deref values m j hjlt]
    simp only
    cases hins : InsertAfter m this p values[j] with
    | fault f =>
      simp only
      intro h
      injection h with h
      subst h
      exact InsertAfter_fuel m this p _ hins
    | throw m1 => intro h; cases h
    | ok m1 r =>
      simp only
      cases hi : Iterator.incr m1 p with
      | error f =>
        simp only
        intro h
        injection h with h
        subst h
        exact incr_fuel m1 p hi
      | ok p2 =>
        simp only [array_it_incr]
        exact ih (j + 1) fuel2 m1 p2 (by omega) (by omega)

/-- The fuel the initializer-list constructor hands to `CopyFromRange`, the
number of elements of the range, never runs out. -/
theorem from_initializer_list_copy_fuel {α : Type} (m : Memory α) (values : List α)
    (copy : Nat) :
    CopyFromRange (array_it values) values.length m copy 0 values.length
      ≠ .fault .out_of_fuel := by
  unfold CopyFromRange
  exact copy_loop_array_fuel values copy values.length 0 values.length m _ (by omega)
    (Nat.le_refl _)

/-! ## Comparison operators -/

theorem eq_loop_seg {α : Type} (ne : α → α → Bool) {m : Memory α} :
    ∀ (n : Nat) (c1 c2 : List (Nat × α)) (p q : Option NodePtr),
      Seg m.heap p c1 none → Seg m.heap q c2 none → c1.length = n → c2.length = n →
      operator_eq.loop ne m n p q
        = .ok (equal_values ne (c1.map Prod.snd) (c2.map Prod.snd)) := by
  intro n
  induction n with
  | zero =>
    intro c1 c2 p q _ _ h1 h2
    have e1 : c1 = [] := List.eq_nil_of_length_eq_zero h1
    have e2 : c2 = [] := List.eq_nil_of_length_eq_zero h2
    subst e1; subst e2
    rfl
  | succ n ih =>
    intro c1 c2 p q hc1 hc2 h1 h2
    cases c1 with
    | nil => simp at h1
    | cons x c1 =>
      cases c2 with
      | nil => simp at h2
      | cons y c2 =>
        obtain ⟨hp, nx, hx, hr1⟩ := hc1
        obtain ⟨hq, ny, hy, hr2⟩ := hc2
        subst hp; subst hq
        have h1' : c1.length = n := by simpa using h1
        have h2' : c2.length = n := by simpa using h2
        simp only [operator_eq.loop, Iterator.deref, Memory.load_value, hx, hy,
          Iterator.incr, Memory.load_next, List.map_cons, equal_values]
        by_cases hne : ne x.2 y.2 = true
        · simp [hne]
        · simp [hne, ih c1 c2 nx ny hr1 hr2 h1' h2']

theorem equal_values_length {α : Type} (ne : α → α → Bool) :
    ∀ (s t : List α), equal_values ne s t = true → s.length = t.length := by
  intro s
  induction s with
  | nil =>
    intro t h
    cases t with
    | nil => rfl
    | cons b t => simp [equal_values] at h
  | cons a s ih =>
    intro t h
    cases t with
    | nil => simp [equal_values] at h
    | cons b t =>
      simp only [equal_values, Bool.and_eq_true] at h
      simp [ih t h.2]

theorem equal_values_iff {α : Type} (ne : α → α → Bool) :
    ∀ (s t : List α), equal_values ne s t = true ↔
      (s.length = t.length ∧
        ∀ (i : Nat) (h1 : i < s.length) (h2 : i < t.length), ne s[i] t[i] = false) := by
  intro s
  induction s with
  | nil =>
    intro t
    cases t with
    | nil => simp [equal_values]
    | cons b t => simp [equal_values]
  | cons a s ih =>
    intro t
    cases t with
    | nil => simp [equal_values]
    | cons b t =>
      simp only [equal_values, Bool.and_eq_true, ih t, List.length_cons, Nat.add_right_cancel_iff,
        Bool.not_eq_true']
      constructor
      · rintro ⟨hab, hlen, hall⟩
        refine ⟨hlen, ?_⟩
        intro i h1 h2
        cases i with
        | zero => simpa using hab
        | succ i =>
          simp only [List.getElem_cons_succ]
          exact hall i (by omega) (by omega)
      · rintro ⟨hlen, hall⟩
        refine ⟨?_, hlen, ?_⟩
        · have := hall 0 (by omega) (by omega)
          simpa using this
        · intro i h1 h2
          have := hall (i + 1) (by omega) (by omega)
          simpa using this

theorem operator_eq_values {α : Type} (ne : α → α → Bool) {m : Memory α} {A B : Nat}
    {s t : List α}
    (hs : elements m A = some s) (hsA : GetSize m A = some s.length)
    (ht : elements m B = some t) (hsB : GetSize m B = some t.length) :
    operator_eq ne m A B = .ok (equal_values ne s t) := by
  obtain ⟨LA, cA, hLA, hcA, hmA⟩ := (elements_iff m A s).mp hs
  obtain ⟨LB, cB, hLB, hcB, hmB⟩ := (elements_iff m B t).mp ht
  have hlA : cA.length = s.length := by rw [← hmA]; simp
  have hlB : cB.length = t.length := by rw [← hmB]; simp
  simp only [operator_eq, hsA, hsB, begin, hLA, hLB]
  by_cases hlen : s.length = t.length
  · simp only [hlen, if_true]
    rw [eq_loop_seg ne t.length cA cB _ _ hcA hcB (by omega) hlB, hmA, hmB]
  · simp only [hlen, if_false]
    cases hev : equal_values ne s t with
    | false => rfl
    | true => exact absurd (equal_values_length ne s t hev) hlen

/-- Claim C11. For two lists with element sequences `s` and `t` satisfying the size
invariant, `operator==` returns a boolean that is true exactly when the sizes are
equal and, at every index, the element `!=` of the two elements is false;
`operator!=` returns its negation. -/
theorem operator_eq_spec {α : Type} (ne : α → α → Bool) (m : Memory α) (A B : Nat)
    (s t : List α)
    (hs : elements m A = some s) (hsA : GetSize m A = some s.length)
    (ht : elements m B = some t) (hsB : GetSize m B = some t.length) :
    ∃ b, operator_eq ne m A B = .ok b ∧
      (b = true ↔ (s.length = t.length ∧
        ∀ (i : Nat) (h1 : i < s.length) (h2 : i < t.length), ne s[i] t[i] = false)) ∧
      operator_ne ne m A B = .ok (!b) := by
  have h := operator_eq_values ne hs hsA ht hsB
  refine ⟨equal_values ne s t, h, equal_values_iff ne s t, ?_⟩
  simp [operator_ne, h]

theorem operator_eq_spec_witness :
    elements compare_memory 0 = some [1, 2] ∧ elements compare_memory 2 = some [1, 3] ∧
    ∃ b, operator_eq (fun x y => decide (x ≠ y)) compare_memory 0 2 = .ok b ∧
      (b = true ↔ (([1, 2] : List Nat).length = ([1, 3] : List Nat).length ∧
        ∀ (i : Nat) (_ : i < ([1, 2] : List Nat).length) (h2 : i < ([1, 3] : List Nat).length),
          (fun x y => decide (x ≠ y)) ([1, 2] : List Nat)[i] ([1, 3] : List Nat)[i] = false)) ∧
      operator_ne (fun x y => decide (x ≠ y)) compare_memory 0 2 = .ok (!b) :=
  ⟨by decide, by decide,
    operator_eq_spec (fun x y => decide (x ≠ y)) compare_memory 0 2 [1, 2] [1, 3]
      (by decide) (by decide) (by decide) (by decide)⟩

theorem lex_seg {α : Type} (lt : α → α → Bool) {m : Memory α} :
    ∀ (c1 c2 : List (Nat × α)) (p q : Option NodePtr) (fuel : Nat),
      Seg m.heap p c1 none → Seg m.heap q c2 none → min c1.length c2.length ≤ fuel →
      lexicographical_compare lt m end_ end_ fuel p q
        = .ok (lex_less lt (c1.map Prod.snd) (c2.map Prod.snd)) := by
  intro c1
  induction c1 with
  | nil =>
    intro c2 p q fuel hc1 hc2 _
    have hp : p = none := hc1
    subst hp
    cases c2 with
    | nil =>
      have hq : q = none := hc2
      subst hq
      cases fuel <;> simp [lexicographical_compare, end_, lex_less]
    | cons y c2 =>
      obtain ⟨hq, _⟩ := hc2
      subst hq
      cases fuel <;> simp [lexicographical_compare, end_, lex_less]
  | cons x c1 ih =>
    intro c2 p q fuel hc1 hc2 hfuel
    obtain ⟨hp, nx, hx, hr1⟩ := hc1
    subst hp
    cases c2 with
    | nil =>
      have hq : q = none := hc2
      subst hq
      cases fuel <;> simp [lexicographical_compare, end_, lex_less]
    | cons y c2 =>
      obtain ⟨hq, ny, hy, hr2⟩ := hc2
      subst hq
      cases fuel with
      | zero => simp at hfuel
      | succ fuel =>
        have hf : min c1.length c2.length ≤ fuel := by
          simp only [List.length_cons] at hfuel
          omega
        simp only [lexicographical_compare, end_, ne_eq, reduceCtorEq, not_false_eq_true,
          and_self, if_true, Iterator.deref, Memory.load_value, hx, hy, Iterator.incr,
          Memory.load_next, List.map_cons, lex_less]
        by_cases h1 : lt x.2 y.2 = true
        · simp [h1]
        · by_cases h2 : lt y.2 x.2 = true
          · simp [h1, h2]
          · have := ih c2 nx ny fuel hr1 hr2 hf
            simp only [end_] at this
            simp [h1, h2, this]

theorem operator_lt_values {α : Type} (lt : α → α → Bool) {m : Memory α} {A B : Nat}
    {s t : List α} (hs : elements m A = some s) (ht : elements m B = some t) :
    operator_lt lt m A B = .ok (lex_less lt s t) := by
  obtain ⟨LA, cA, hLA, hcA, hmA⟩ := (elements_iff m A s).mp hs
  obtain ⟨LB, cB, hLB, hcB, hmB⟩ := (elements_iff m B t).mp ht
  simp only [operator_lt, begin, hLA, hLB]
  rw [lex_seg lt cA cB _ _ _ hcA hcB
    (Nat.le_trans (Nat.min_le_left _ _) (seg_length_le hcA)), hmA, hmB]

theorem lex_less_iff {α : Type} (lt : α → α → Bool) :
    ∀ (s t : List α), lex_less lt s t = true ↔
      ∃ k, (∀ i, i < k → ∃ x y, s[i]? = some x ∧ t[i]? = some y ∧
              lt x y = false ∧ lt y x = false) ∧
        ((k = s.length ∧ k < t.length) ∨
          (∃ x y, s[k]? = some x ∧ t[k]? = some y ∧ lt x y = true)) := by
  intro s
  induction s with
  | nil =>
    intro t
    cases t with
    | nil =>
      simp only [lex_less, Bool.false_eq_true, false_iff]
      rintro ⟨k, _, h | ⟨x, y, hx, _⟩⟩
      · simp at h
      · simp at hx
    | cons b t =>
      simp only [lex_less, true_iff]
      exact ⟨0, by intro i hi; omega, Or.inl ⟨rfl, by simp⟩⟩
  | cons a s ih =>
    intro t
    cases t with
    | nil =>
      simp only [lex_less, Bool.false_eq_true, false_iff]
      rintro ⟨k, _, h | ⟨x, y, _, hy, _⟩⟩
      · simp at h
      · simp at hy
    | cons b t =>
      simp only [lex_less]
      by_cases h1 : lt a b = true
      · simp only [h1, if_true, true_iff]
        exact ⟨0, by intro i hi; omega, Or.inr ⟨a, b, by simp, by simp, h1⟩⟩
      · have h1f : lt a b = false := by simpa using h1
        simp only [h1f, Bool.false_eq_true, if_false]
        by_cases h2 : lt b a = true
        · simp only [h2, if_true, Bool.false_eq_true, false_iff]
          rintro ⟨k, hall, hk⟩
          cases k with
          | zero =>
            rcases hk with h | ⟨x, y, hx, hy, hxy⟩
            · simp at h
            · simp at hx hy
              subst hx; subst hy
              rw [h1f] at hxy
              cases hxy
          | succ k =>
            obtain ⟨x, y, hx, hy, _, hyx⟩ := hall 0 (by omega)
            simp at hx hy
            subst hx; subst hy
            rw [h2] at hyx
            cases hyx
        · have h2f : lt b a = false := by simpa using h2
          simp only [h2f, Bool.false_eq_true, if_false, ih t]
          constructor
          · rintro ⟨k, hall, hk⟩
            refine ⟨k + 1, ?_, ?_⟩
            · intro i hi
              cases i with
              | zero => exact ⟨a, b, by simp, by simp, h1f, h2f⟩
              | succ i =>
                simpa using hall i (by omega)
            · rcases hk with ⟨hk1, hk2⟩ | ⟨x, y, hx, hy, hxy⟩
              · exact Or.inl ⟨by simp [hk1], by simp; omega⟩
              · exact Or.inr ⟨x, y, by simpa using hx, by simpa using hy, hxy⟩
          · rintro ⟨k, hall, hk⟩
            cases k with
            | zero =>
              rcases hk with h | ⟨x, y, hx, hy, hxy⟩
              · simp at h
              · simp at hx hy
                subst hx; subst hy
                rw [h1f] at hxy
                cases hxy
            | succ k =>
              refine ⟨k, ?_, ?_⟩
              · intro i hi
                simpa using hall (i + 1) (by omega)
              · rcases hk with ⟨hk1, hk2⟩ | ⟨x, y, hx, hy, hxy⟩
                · exact Or.inl ⟨by simpa using hk1, by simpa using hk2⟩
                · exact Or.inr ⟨x, y, by simpa using hx, by simpa using hy, hxy⟩

/-- Claim C12. For two lists with element sequences `s` and `t`, `operator<`
returns a boolean that is true exactly when there is an index `k` such that at
every index below `k` neither element is less than the other, and either `k` is
the length of `s` and smaller than the length of `t`, or `k` is below both lengths
and the element of `s` at `k` is less than the element of `t` at `k`. -/
theorem operator_lt_lexicographic {α : Type} (lt : α → α → Bool) (m : Memory α) (A B : Nat)
    (s t : List α) (hs : elements m A = some s) (ht : elements m B = some t) :
    ∃ b, operator_lt lt m A B = .ok b ∧
      (b = true ↔
        ∃ k, (∀ i, i < k → ∃ x y, s[i]? = some x ∧ t[i]? = some y ∧
                lt x y = false ∧ lt y x = false) ∧
          ((k = s.length ∧ k < t.length) ∨
            (∃ x y, s[k]? = some x ∧ t[k]? = some y ∧ lt x y = true))) :=
  ⟨lex_less lt s t, operator_lt_values lt hs ht, lex_less_iff lt s t⟩

theorem operator_lt_lexicographic_witness :
    elements compare_memory 0 = some [1, 2] ∧ elements compare_memory 1 = some [1, 2, 3] ∧
    ∃ b, operator_lt (fun x y => decide (x < y)) compare_memory 0 1 = .ok b ∧
      (b = true ↔
        ∃ k, (∀ i, i < k → ∃ x y, ([1, 2] : List Nat)[i]? = some x ∧
                ([1, 2, 3] : List Nat)[i]? = some y ∧
                (fun x y => decide (x < y)) x y = false ∧
                (fun x y => decide (x < y)) y x = false) ∧
          ((k = ([1, 2] : List Nat).length ∧ k < ([1, 2, 3] : List Nat).length) ∨
            (∃ x y, ([1, 2] : List Nat)[k]? = some x ∧ ([1, 2, 3] : List Nat)[k]? = some y ∧
              (fun x y => decide (x < y)) x y = true))) :=
  ⟨by decide, by decide,
    operator_lt_lexicographic (fun x y => decide (x < y)) compare_memory 0 1 [1, 2] [1, 2, 3]
      (by decide) (by decide)⟩

/-- The three comparisons the specification lists: `[1,2] < [1,2,3]` and
`[1,3] < [2]` are true, `[1,2] < [1,2]` is false. -/
theorem operator_lt_examples :
    operator_lt (fun x y => decide (x < y)) compare_memory 0 1 = .ok true ∧
    operator_lt (fun x y => decide (x < y)) compare_memory 2 3 = .ok true ∧
    operator_lt (fun x y => decide (x < y)) compare_memory 0 0 = .ok false := by
  decide

/-- Claim C13. For two lists with element sequences `s` and `t`, the four ordering
operators return booleans, and `a <= b` is `!(b < a)`, `a > b` is `b < a`, and
`a >= b` is `!(a < b)`. -/
theorem derived_operators_consistent {α : Type} (lt : α → α → Bool) (m : Memory α)
    (A B : Nat) (s t : List α) (hs : elements m A = some s) (ht : elements m B = some t) :
    ∃ ab ba, operator_lt lt m A B = .ok ab ∧ operator_lt lt m B A = .ok ba ∧
      operator_le lt m A B = .ok (!ba) ∧ operator_gt lt m A B = .ok ba ∧
      operator_ge lt m A B = .ok (!ab) := by
  have h1 := operator_lt_values lt hs ht
  have h2 := operator_lt_values lt ht hs
  refine ⟨lex_less lt s t, lex_less lt t s, h1, h2, ?_, ?_, ?_⟩
  · simp [operator_le, h2]
  · simp [operator_gt, h2]
  · simp [operator_ge, h1]

theorem derived_operators_consistent_witness :
    elements compare_memory 2 = some [1, 3] ∧ elements compare_memory 3 = some [2] ∧
    ∃ ab ba, operator_lt (fun x y => decide (x < y)) compare_memory 2 3 = .ok ab ∧
      operator_lt (fun x y => decide (x < y)) compare_memory 3 2 = .ok ba ∧
      operator_le (fun x y => decide (x < y)) compare_memory 2 3 = .ok (!ba) ∧
      operator_gt (fun x y => decide (x < y)) compare_memory 2 3 = .ok ba ∧
      operator_ge (fun x y => decide (x < y)) compare_memory 2 3 = .ok (!ab) :=
  ⟨by decide, by decide,
    derived_operators_consistent (fun x y => decide (x < y)) compare_memory 2 3 [1, 3] [2]
      (by decide) (by decide)⟩

theorem lex_trichotomy {α : Type} (lt ne : α → α → Bool)
    (hasym : ∀ x y, lt x y = true → lt y x = false)
    (hne : ∀ x y, ne x y = true ↔ (lt x y = true ∨ lt y x = true)) :
    ∀ (s t : List α),
      (lex_less lt s t = true ∧ equal_values ne s t = false ∧ lex_less lt t s = false) ∨
      (lex_less lt s t = false ∧ equal_values ne s t = true ∧ lex_less lt t s = false) ∨
      (lex_less lt s t = false ∧ equal_values ne s t = false ∧ lex_less lt t s = true) := by
  intro s
  induction s with
  | nil =>
    intro t
    cases t with
    | nil => simp [lex_less, equal_values]
    | cons b t => simp [lex_less, equal_values]
  | cons a s ih =>
    intro t
    cases t with
    | nil => simp [lex_less, equal_values]
    | cons b t =>
      by_cases h1 : lt a b = true
      · have h2 : lt b a = false := hasym a b h1
        have h3 : ne a b = true := (hne a b).mpr (Or.inl h1)
        simp [lex_less, equal_values, h1, h2, h3]
      · have h1f : lt a b = false := by simpa using h1
        by_cases h2 : lt b a = true
        · have h3 : ne a b = true := (hne a b).mpr (Or.inr h2)
          simp [lex_less, equal_values, h1f, h2, h3]
        · have h2f : lt b a = false := by simpa using h2
          have h3 : ne a b = false := by
            cases hn : ne a b with
            | false => rfl
            | true =>
              rcases (hne a b).mp hn with h | h
              · exact absurd h h1
              · exact absurd h h2
          simpa [lex_less, equal_values, h1f, h2f, h3] using ih t

/-- Claim C20. Let the element `<` be a strict order (irreflexive and transitive),
let the element `==` hold exactly when neither element is less than the other
(which makes the order total up to `==`), and let the element `!=` be the negation
of `==`. Then for two lists satisfying the size invariant exactly one of `a < b`,
`a == b`, `b < a` is true, `a <= b` is `a < b || a == b`, and `a >= b` is
`a > b || a == b`. -/
theorem comparison_trichotomy {α : Type} (lt eq ne : α → α → Bool) (m : Memory α)
    (A B : Nat) (s t : List α)
    (hirr : ∀ x, lt x x = false)
    (htrans : ∀ x y z, lt x y = true → lt y z = true → lt x z = true)
    (heq : ∀ x y, eq x y = true ↔ (lt x y = false ∧ lt y x = false))
    (hne : ∀ x y, ne x y = true ↔ eq x y = false)
    (hs : elements m A = some s) (hsA : GetSize m A = some s.length)
    (ht : elements m B = some t) (hsB : GetSize m B = some t.length) :
    ∃ less equal greater,
      operator_lt lt m A B = .ok less ∧ operator_eq ne m A B = .ok equal ∧
      operator_lt lt m B A = .ok greater ∧ operator_gt lt m A B = .ok greater ∧
      ((less = true ∧ equal = false ∧ greater = false) ∨
       (less = false ∧ equal = true ∧ greater = false) ∨
       (less = false ∧ equal = false ∧ greater = true)) ∧
      operator_le lt m A B = .ok (less || equal) ∧
      operator_ge lt m A B = .ok (greater || equal) := by
  have hasym : ∀ x y, lt x y = true → lt y x = false := by
    intro x y hxy
    cases hyx : lt y x with
    | false => rfl
    | true =>
      have := htrans x y x hxy hyx
      rw [hirr x] at this
      cases this
  have hne2 : ∀ x y, ne x y = true ↔ (lt x y = true ∨ lt y x = true) := by
    intro x y
    rw [hne x y]
    constructor
    · intro hf
      by_contra hcon
      have hboth : lt x y = false ∧ lt y x = false := by
        constructor
        · cases h : lt x y with
          | false => rfl
          | true => exact absurd (Or.inl h) hcon
        · cases h : lt y x with
          | false => rfl
          | true => exact absurd (Or.inr h) hcon
      rw [(heq x y).mpr hboth] at hf
      cases hf
    · intro hor
      cases he : eq x y with
      | false => rfl
      | true =>
        obtain ⟨h1, h2⟩ := (heq x y).mp he
        rcases hor with h | h
        · rw [h1] at h; cases h
        · rw [h2] at h; cases h
  have h1 := operator_lt_values lt hs ht
  have h2 := operator_lt_values lt ht hs
  have h3 := operator_eq_values ne hs hsA ht hsB
  have htri := lex_trichotomy lt ne hasym hne2 s t
  refine ⟨lex_less lt s t, equal_values ne s t, lex_less lt t s, h1, h3, h2, ?_, htri, ?_, ?_⟩
  · simp [operator_gt, h2]
  · simp only [operator_le, h2]
    rcases htri with ⟨a, b, c⟩ | ⟨a, b, c⟩ | ⟨a, b, c⟩ <;> simp [a, b, c]
  · simp only [operator_ge, h1]
    rcases htri with ⟨a, b, c⟩ | ⟨a, b, c⟩ | ⟨a, b, c⟩ <;> simp [a, b, c]

theorem comparison_trichotomy_witness :
    elements compare_memory 0 = some [1, 2] ∧ elements compare_memory 2 = some [1, 3] ∧
    ∃ less equal greater,
      operator_lt (fun x y => decide (x < y)) compare_memory 0 2 = .ok less ∧
      operator_eq (fun x y => decide (x ≠ y)) compare_memory 0 2 = .ok equal ∧
      operator_lt (fun x y => decide (x < y)) compare_memory 2 0 = .ok greater ∧
      operator_gt (fun x y => decide (x < y)) compare_memory 0 2 = .ok greater ∧
      ((less = true ∧ equal = false ∧ greater = false) ∨
       (less = false ∧ equal = true ∧ greater = false) ∨
       (less = false ∧ equal = false ∧ greater = true)) ∧
      operator_le (fun x y => decide (x < y)) compare_memory 0 2 = .ok (less || equal) ∧
      operator_ge (fun x y => decide (x < y)) compare_memory 0 2 = .ok (greater || equal) :=
  ⟨by decide, by decide,
    comparison_trichotomy (fun x y => decide (x < y)) (fun x y => decide (x = y))
      (fun x y => decide (x ≠ y)) compare_memory 0 2 [1, 2] [1, 3]
      (by intro x; simp)
      (by intro x y z; simp; omega)
      (by intro x y; simp; omega)
      (by intro x y; simp)
      (by decide) (by decide) (by decide) (by decide)⟩

/-! ## swap -/

theorem swap_no_throw {α : Type} (m m1 : Memory α) (a b : Nat) : swap m a b ≠ .throw m1 := by
  unfold swap
  intro h
  repeat' split at h
  all_goals cases h

/-- Claim C14. Let list `A` have element sequence `s` and list `B` element sequence
`t`. Then `A.swap(B)`, and the free function `swap(A, B)` alike, returns normally;
afterwards `A` has sequence `t` and the size `B` had, `B` has sequence `s` and the
size `A` had; the free store is untouched (no node is allocated, copied or changed);
and `swap` never throws. -/
theorem swap_exchanges {α : Type} (m : Memory α) (A B : Nat) (s t : List α)
    (hs : elements m A = some s) (ht : elements m B = some t) :
    ∃ m2, swap m A B = .ok m2 () ∧ free_swap m A B = .ok m2 () ∧
      elements m2 A = some t ∧ elements m2 B = some s ∧
      GetSize m2 A = GetSize m B ∧ GetSize m2 B = GetSize m A ∧
      m2.heap = m.heap ∧ m2.grants = m.grants ∧
      (∀ m1 a b, swap m a b ≠ .throw m1) ∧ (∀ m1 a b, free_swap m a b ≠ .throw m1) := by
  obtain ⟨LA, cA, hLA, hcA, hmA⟩ := (elements_iff m A s).mp hs
  obtain ⟨LB, cB, hLB, hcB, hmB⟩ := (elements_iff m B t).mp ht
  have hA2 : ((m.lists.set A LB).set B LA)[A]? = some LB := by
    rw [swap_getElem? hLA hLB]
    by_cases hab : A = B
    · subst hab
      simp only [if_true]
      rw [hLA] at hLB
      rw [hLA, hLB]
    · simp [hab, hLB]
  have hB2 : ((m.lists.set A LB).set B LA)[B]? = some LA := by
    rw [swap_getElem? hLA hLB]
    simp [hLA]
  have hsw : swap m A B = .ok ⟨(m.lists.set A LB).set B LA, m.heap, m.grants⟩ () := by
    simp [swap, hLA, hLB]
  refine ⟨_, hsw, hsw, ?_, ?_, ?_, ?_, rfl, rfl, fun m1 a b => swap_no_throw m m1 a b,
    fun m1 a b => swap_no_throw m m1 a b⟩
  · exact (elements_iff _ _ _).mpr ⟨LB, cB, hA2, hcB, hmB⟩
  · exact (elements_iff _ _ _).mpr ⟨LA, cA, hB2, hcA, hmA⟩
  · simp only [GetSize, hA2, hLB]
  · simp only [GetSize, hB2, hLA]

theorem swap_exchanges_witness :
    elements sample_memory 0 = some [10, 20] ∧ elements sample_memory 1 = some [] ∧
    ∃ m2, swap sample_memory 0 1 = .ok m2 () ∧ free_swap sample_memory 0 1 = .ok m2 () ∧
      elements m2 0 = some [] ∧ elements m2 1 = some [10, 20] ∧
      GetSize m2 0 = GetSize sample_memory 1 ∧ GetSize m2 1 = GetSize sample_memory 0 ∧
      m2.heap = sample_memory.heap ∧ m2.grants = sample_memory.grants ∧
      (∀ m1 a b, swap sample_memory a b ≠ .throw m1) ∧
      (∀ m1 a b, free_swap sample_memory a b ≠ .throw m1) :=
  ⟨by decide, by decide, swap_exchanges sample_memory 0 1 [10, 20] [] (by decide) (by decide)⟩

/-! ## PopFront and EraseAfter at the sentinel; assertions -/

/-- Claim C19. On a list with element sequence `s` satisfying the size invariant,
`PopFront()` and `EraseAfter(before_begin())` both return normally and leave the
very same memory, hence the same element sequence (`s` without its first element)
and the same `GetSize()`. -/
theorem PopFront_agrees_EraseAfter {α : Type} (m : Memory α) (this : Nat) (s : List α)
    (hs : elements m this = some s) (hsize : GetSize m this = some s.length) :
    ∃ m2 ret, PopFront m this = .ok m2 () ∧
      EraseAfter m this (before_begin this) = .ok m2 ret ∧
      elements m2 this = some s.tail := by
  obtain ⟨L, cs, hL, hc, hmap⟩ := (elements_iff m this s).mp hs
  have hLs : L.size_ = s.length := by
    simp [GetSize, hL] at hsize; exact hsize
  have hthis := lists_lt hL
  have hlen : s.length = cs.length := by rw [← hmap]; simp
  cases cs with
  | nil =>
    have hhead : L.head_next = none := hc
    have hs0 : s = [] := by simpa using hmap.symm
    refine ⟨m, none, PopFront_zero hL (by rw [hLs, hs0]; rfl), ?_, ?_⟩
    · exact EraseAfter_end this (by simp [Memory.load_next, hL, hhead])
    · rw [hs, hs0]; rfl
  | cons y c2 =>
    have hnd := seg_nodup hc
    obtain ⟨hp, nxt, hy, hrest⟩ := hc
    have hne : L.size_ ≠ 0 := by rw [hLs, hlen]; simp
    refine ⟨_, nxt, PopFront_cons hL hne hp hy, EraseAfter_head hL hp hy, ?_⟩
    rw [elements_set hthis nxt _ _ (seg_set_frame hrest _ _ (List.nodup_cons.mp hnd).1)]
    rw [← hmap]
    rfl

theorem PopFront_agrees_EraseAfter_witness :
    elements sample_memory 0 = some [10, 20] ∧
    ∃ m2 ret, PopFront sample_memory 0 = .ok m2 () ∧
      EraseAfter sample_memory 0 (before_begin 0) = .ok m2 ret ∧
      elements m2 0 = some ([10, 20] : List Nat).tail :=
  ⟨by decide, PopFront_agrees_EraseAfter sample_memory 0 [10, 20] (by decide) (by decide)⟩

/-- Claim C17. Dereferencing or advancing the end iterator, and `InsertAfter` or
`EraseAfter` at the end position, stop at the failing assertion (no memory is
produced). For a position `pos` of a list with element sequence `s`, reached from
`before_begin()` by `i` increments, the assertions of `operator++`, `InsertAfter`
and `EraseAfter` pass and the increment returns; when `pos` is on an element
(`i = k + 1`), the assertion of `operator*` passes and it returns that element. -/
theorem end_position_asserted {α : Type} (m : Memory α) (this : Nat) (s : List α) (i : Nat)
    (pos : NodePtr) (v : α)
    (hs : elements m this = some s)
    (hpos : advance m i (before_begin this) = .ok (some pos)) :
    Iterator.deref m end_ = .error .assert_fail ∧
    Iterator.incr m end_ = .error .assert_fail ∧
    InsertAfter m this end_ v = .fault .assert_fail ∧
    EraseAfter m this end_ = .fault .assert_fail ∧
    (InsertAfter m this end_ v).memory? = none ∧
    (EraseAfter m this end_).memory? = none ∧
    (∃ nxt, Iterator.incr m (some pos) = .ok nxt) ∧
    (∀ k, i = k + 1 → ∃ x, s[k]? = some x ∧ Iterator.deref m (some pos) = .ok x) ∧
    Iterator.deref m (some pos) ≠ .error .assert_fail ∧
    InsertAfter m this (some pos) v ≠ .fault .assert_fail ∧
    EraseAfter m this (some pos) ≠ .fault .assert_fail := by
  obtain ⟨L, cs, hL, hc, hmap⟩ := (elements_iff m this s).mp hs
  obtain ⟨tmp, hload⟩ := validpos_load hL hc hpos
  refine ⟨rfl, rfl, rfl, rfl, rfl, rfl, ⟨tmp, by simp [Iterator.incr, hload]⟩, ?_, ?_, ?_, ?_⟩
  · intro k hk
    subst hk
    rcases position_cases hL hc hpos with ⟨h0, _⟩ | ⟨k2, x, hk2, hx, hp⟩
    · omega
    · have hkk : k2 = k := by omega
      subst hkk
      subst hp
      obtain ⟨nxt, _, hcell, _⟩ := seg_split_at hc hx
      refine ⟨x.2, ?_, by simp [Iterator.deref, Memory.load_value, hcell]⟩
      rw [← hmap, List.getElem?_map, hx]
      rfl
  · simp only [Iterator.deref]
    intro h
    repeat' split at h
    all_goals cases h
  · simp only [InsertAfter]
    intro h
    repeat' split at h
    all_goals cases h
  · simp only [EraseAfter]
    intro h
    repeat' split at h
    all_goals cases h

theorem end_position_asserted_witness :
    advance sample_memory 1 (before_begin 0) = .ok (some (.heap 0)) ∧
    Iterator.deref sample_memory end_ = .error .assert_fail ∧
    Iterator.incr sample_memory end_ = .error .assert_fail ∧
    InsertAfter sample_memory 0 end_ 5 = .fault .assert_fail ∧
    EraseAfter sample_memory 0 end_ = .fault .assert_fail ∧
    (InsertAfter sample_memory 0 end_ 5).memory? = none ∧
    (EraseAfter sample_memory 0 end_).memory? = none ∧
    (∃ nxt, Iterator.incr sample_memory (some (.heap 0)) = .ok nxt) ∧
    (∀ k, 1 = k + 1 → ∃ x, ([10, 20] : List Nat)[k]? = some x ∧
      Iterator.deref sample_memory (some (.heap 0)) = .ok x) ∧
    Iterator.deref sample_memory (some (.heap 0)) ≠ .error .assert_fail ∧
    InsertAfter sample_memory 0 (some (.heap 0)) 5 ≠ .fault .assert_fail ∧
    EraseAfter sample_memory 0 (some (.heap 0)) ≠ .fault .assert_fail :=
  ⟨by decide, end_position_asserted sample_memory 0 [10, 20] 1 (.heap 0) 5
    (by decide) (by decide)⟩

/-! ## Positions of another list -/

theorem InsertAfter_head_other {α : Type} {m : Memory α} {this l : Nat}
    {L Lp : SingleLinkedList} {g : List Bool} (v : α)
    (hL : m.lists[this]? = some L) (hLp : m.lists[l]? = some Lp) (hne : this ≠ l)
    (hg : m.grants = true :: g) (hlt : m.heap.length + 1 < SIZE_MOD) :
    InsertAfter m this (some (.head l)) v =
      .ok ⟨(m.lists.set l ⟨some (.heap m.heap.length), Lp.size_⟩).set this
          ⟨L.head_next, (L.size_ + 1) % SIZE_MOD⟩,
        m.heap ++ [some (⟨v, Lp.head_next⟩ : Node α)], g⟩ (some (.heap m.heap.length)) := by
  have hthis := lists_lt hL
  have hl := lists_lt hLp
  have hne2 : l ≠ this := fun e => hne e.symm
  simp [InsertAfter, Memory.load_next, hLp, new_Node_ok hg hlt, Memory.store_next,
    Memory.incr_size, List.getElem?_set_ne hne2, hL]

theorem EraseAfter_head_other {α : Type} {m : Memory α} {this l a : Nat}
    {L Lp : SingleLinkedList} {x : α} {nxt : Option NodePtr}
    (hL : m.lists[this]? = some L) (hLp : m.lists[l]? = some Lp) (hne : this ≠ l)
    (hhead : Lp.head_next = some (.heap a))
    (hcell : m.heap[a]? = some (some ⟨x, nxt⟩)) :
    EraseAfter m this (some (.head l)) =
      .ok ⟨(m.lists.set l ⟨nxt, Lp.size_⟩).set this
          ⟨L.head_next, (L.size_ + SIZE_MOD - 1) % SIZE_MOD⟩,
        m.heap.set a none, m.grants⟩ nxt := by
  have hthis := lists_lt hL
  have hl := lists_lt hLp
  have hne2 : l ≠ this := fun e => hne e.symm
  simp [EraseAfter, Memory.load_next, hLp, hhead, hcell, Memory.delete_node,
    Memory.store_next, Memory.decr_size, List.getElem?_set_ne hne2, hL]

theorem getElem?_set_set_left {β : Type} {ls : List β} {a b : Nat} (x y : β)
    (hab : a ≠ b) (ha : a < ls.length) : ((ls.set a x).set b y)[a]? = some x := by
  rw [List.getElem?_set_ne (fun e => hab e.symm), List.getElem?_set_self ha]

theorem getElem?_set_set_right {β : Type} {ls : List β} (a : Nat) {b : Nat} (x y : β)
    (hb : b < ls.length) : ((ls.set a x).set b y)[b]? = some y := by
  rw [List.getElem?_set_self (by simpa using hb)]

theorem inv_chain {α : Type} {m : Memory α} {l : Nat} {s : List α} (hinv : m.Inv)
    (hs : elements m l = some s) :
    ∃ L cs, m.lists[l]? = some L ∧ Seg m.heap L.head_next cs none ∧
      cs.map Prod.snd = s ∧ L.size_ = s.length ∧ cs.length = s.length := by
  obtain ⟨L, cs, hL, hc, hmap⟩ := (elements_iff m l s).mp hs
  obtain ⟨cs2, hc2, hsz⟩ := hinv.2.1 l L hL
  have e := seg_unique hc hc2
  subst e
  have hlen : cs.length = s.length := by rw [← hmap]; simp
  exact ⟨L, cs, hL, hc, hmap, by omega, hlen⟩

theorem elements_mk {α : Type} {ls : List SingleLinkedList} {h : List (Option (Node α))}
    (g : List Bool) {this : Nat} {p : Option NodePtr} {n : Nat} {c : List (Nat × α)}
    (hget : ls[this]? = some ⟨p, n⟩) (hc : Seg h p c none) :
    elements (⟨ls, h, g⟩ : Memory α) this = some (c.map Prod.snd) :=
  (elements_iff _ _ _).mpr ⟨⟨p, n⟩, c, hget, hc, rfl⟩

/-- The sample memory is reached by `SingleLinkedList a; a.PushBack(10);
a.PushBack(20); SingleLinkedList b;`. -/
theorem sample_memory_reachable : Reachable sample_memory :=
  @Reachable.step Nat
    ⟨[⟨some (.heap 0), 2⟩], [some ⟨10, some (.heap 1)⟩, some ⟨20, none⟩], [true, true]⟩
    sample_memory .default_ctor
    (@Reachable.step Nat ⟨[⟨some (.heap 0), 1⟩], [some ⟨10, none⟩], [true, true, true]⟩
      ⟨[⟨some (.heap 0), 2⟩], [some ⟨10, some (.heap 1)⟩, some ⟨20, none⟩], [true, true]⟩
      (.PushBack 0 20)
      (@Reachable.step Nat ⟨[⟨none, 0⟩], [], [true, true, true, true]⟩
        ⟨[⟨some (.heap 0), 1⟩], [some ⟨10, none⟩], [true, true, true]⟩ (.PushBack 0 10)
        (@Reachable.step Nat ⟨[], [], [true, true, true, true]⟩
          ⟨[⟨none, 0⟩], [], [true, true, true, true]⟩ .default_ctor
          (Reachable.start [true, true, true, true]) trivial (by decide))
        trivial (by decide))
      trivial (by decide))
    trivial (by decide)

theorem sample_memory_inv : sample_memory.Inv := reachable_inv sample_memory_reachable

/-! ## The copy loop on any range -/

theorem yields_array {α : Type} (values : List α) (n0 : Nat) (m0 : Memory α) :
    ∀ (n j : Nat), j + n = values.length →
      Yields (array_it values) values.length n0 m0 j (values.drop j) := by
  intro n
  induction n with
  | zero =>
    intro j hj
    have hjl : j = values.length := by omega
    subst hjl
    rw [List.drop_of_length_le (Nat.le_refl _)]
    rfl
  | succ n ih =>
    intro j hj
    have hjlt : j < values.length := by omega
    rw [List.drop_eq_getElem_cons hjlt]
    refine ⟨by omega, j + 1, ?_, ih (j + 1) (by omega)⟩
    intro m _
    exact ⟨array_it_deref values m j hjlt, rfl⟩

theorem yields_list {α : Type} (n0 : Nat) (m0 : Memory α) :
    ∀ (src : List (Nat × α)) (p : Option NodePtr), Seg m0.heap p src none →
      (∀ a ∈ src.map Prod.fst, a < n0) →
      Yields list_it end_ n0 m0 p (src.map Prod.snd) := by
  intro src
  induction src with
  | nil =>
    intro p hc _
    exact hc
  | cons x src ih =>
    intro p hc hlt
    obtain ⟨hp, nxt, hx, hrest⟩ := hc
    subst hp
    refine ⟨by simp [end_], nxt, ?_, ih nxt hrest ?_⟩
    · intro m hag
      have hcell : m.heap[x.1]? = some (some ⟨x.2, nxt⟩) := by
        rw [hag x.1 (hlt x.1 (by simp))]; exact hx
      simp [list_it, Iterator.deref, Iterator.incr, Memory.load_value, Memory.load_next, hcell]
    · intro a ha
      exact hlt a (by simp only [List.map_cons, List.mem_cons]; exact Or.inr ha)

theorem can_new_zero {α : Type} {m : Memory α} (h : m.heap.length < SIZE_MOD) :
    m.can_new 0 = true := by
  unfold Memory.can_new
  simp only [decide_eq_true_eq]
  exact ⟨rfl, by omega⟩

theorem can_new_of_step {α : Type} {m m1 : Memory α} {g : List Bool} {n : Nat}
    (hg : m.grants = true :: g) (hg1 : m1.grants = g)
    (hlen : m1.heap.length = m.heap.length + 1) :
    m.can_new (n + 1) = m1.can_new n := by
  unfold Memory.can_new
  rw [hg, hg1, hlen, List.take_succ_cons, List.replicate_succ]
  have e : (m.heap.length + (n + 1) < SIZE_MOD) = (m.heap.length + 1 + n < SIZE_MOD) := by
    rw [Nat.add_assoc, Nat.add_comm 1 n]
  simp only [List.cons.injEq, true_and, e]

theorem can_new_false_of_fail {α : Type} {m : Memory α} {v : α} {nxt : Option NodePtr}
    {m1 : Memory α} (hfail : m.new_Node v nxt = (m1, none)) (n : Nat) :
    m.can_new (n + 1) = false := by
  cases h : m.can_new (n + 1) with
  | false => rfl
  | true =>
    obtain ⟨g, hg, hlt, _, _⟩ := can_new_succ h
    rw [new_Node_ok hg hlt] at hfail
    injection hfail with _ h2
    cases h2

theorem copy_loop_yields {α It : Type} [DecidableEq It] (I : InputIt α It) (copy n0 : Nat)
    (m0 : Memory α) (last : It) :
    ∀ (vs : List α) (fuel : Nat) (m : Memory α) (L : SingleLinkedList) (ptr : NodePtr)
      (it : It) (cs : List (Nat × α)),
      Yields I last n0 m0 it vs → vs.length ≤ fuel →
      m.lists[copy]? = some L → Seg m.heap L.head_next cs none → L.size_ = cs.length →
      (∀ a ∈ cs.map Prod.fst, n0 ≤ a) → AgreeBelow n0 m0 m → n0 ≤ m.heap.length →
      m.heap.length < SIZE_MOD →
      advance m cs.length (before_begin copy) = .ok (some ptr) →
      ∃ hd2 h2 g2 cs2, Seg h2 hd2 cs2 none ∧ (∀ a ∈ cs2.map Prod.fst, n0 ≤ a) ∧
        (∀ a, a < n0 → h2[a]? = m0.heap[a]?) ∧ m.heap.length ≤ h2.length ∧
        h2.length < SIZE_MOD ∧
        ((m.can_new vs.length = true ∧
            CopyFromRange.loop I copy last fuel m (some ptr) it
              = .ok ⟨m.lists.set copy ⟨hd2, cs2.length⟩, h2, g2⟩ () ∧
            cs2.map Prod.snd = cs.map Prod.snd ++ vs ∧ g2 = m.grants.drop vs.length) ∨
         (m.can_new vs.length = false ∧
            CopyFromRange.loop I copy last fuel m (some ptr) it
              = .throw ⟨m.lists.set copy ⟨hd2, cs2.length⟩, h2, g2⟩)) := by
  intro vs
  induction vs with
  | nil =>
    intro fuel m L ptr it cs hy _ hL hc hsz hfresh hag hn0 hbound _
    have hit : it = last := hy
    subst hit
    have hLeq : (⟨L.head_next, cs.length⟩ : SingleLinkedList) = L := by
      cases L
      simp only at hsz
      rw [hsz]
    refine ⟨L.head_next, m.heap, m.grants, cs, hc, hfresh, hag, Nat.le_refl _, hbound,
      Or.inl ⟨can_new_zero hbound, ?_, by simp, by simp⟩⟩
    rw [copy_loop_done, hLeq, set_self_of_getElem? hL]
  | cons v vs ih =>
    intro fuel m L ptr it cs hy hfuel hL hc hsz hfresh hag hn0 hbound hptr
    obtain ⟨hne, it2, hstep, hrest⟩ := hy
    obtain ⟨fuel2, hf2⟩ : ∃ f, fuel = f + 1 := ⟨fuel - 1, by
      simp only [List.length_cons] at hfuel; omega⟩
    subst hf2
    have hthis := lists_lt hL
    have hLeq : (⟨L.head_next, cs.length⟩ : SingleLinkedList) = L := by
      cases L
      simp only at hsz
      rw [hsz]
    obtain ⟨tmp, hload⟩ := validpos_load hL hc hptr
    rw [copy_loop_step _ _ _ _ _ _ _ hne, (hstep m hag).1]
    simp only
    rcases new_Node_cases m v tmp with ⟨g, hg, hlt⟩ | ⟨gf, hfail⟩
    · obtain ⟨hd1, h1, hins, hseg1, hlen1, hframe1, hincr⟩ :=
        InsertAfter_chain v hL hc hsz hptr hg hlt
      rw [List.take_of_length_le (Nat.le_refl _), List.drop_of_length_le (Nat.le_refl _)]
        at hseg1
      have hL1 : (⟨m.lists.set copy ⟨hd1, cs.length + 1⟩, h1, g⟩ : Memory α).lists[copy]?
          = some ⟨hd1, cs.length + 1⟩ := by simp [hthis]
      have hk : (cs ++ [(m.heap.length, v)])[cs.length]? = some (m.heap.length, v) := by simp
      have hptr1 := advance_index hL1 hseg1 hk
      have hag1 : AgreeBelow n0 m0
          (⟨m.lists.set copy ⟨hd1, cs.length + 1⟩, h1, g⟩ : Memory α) := by
        intro a ha
        have hnot : a ∉ cs.map Prod.fst := by
          intro hmem
          have := hfresh a hmem
          omega
        show h1[a]? = m0.heap[a]?
        rw [hframe1 a (by omega) hnot]
        exact hag a ha
      have hfresh1 : ∀ a ∈ (cs ++ [(m.heap.length, v)]).map Prod.fst, n0 ≤ a := by
        intro a ha
        simp only [List.map_append, List.map_cons, List.map_nil, List.mem_append,
          List.mem_singleton] at ha
        rcases ha with h | h
        · exact hfresh a h
        · omega
      obtain ⟨hd2, h2, g2, cs2, hseg2, hfresh2, hag2, hle2, hb2, hres⟩ := ih fuel2
        (⟨m.lists.set copy ⟨hd1, cs.length + 1⟩, h1, g⟩ : Memory α) ⟨hd1, cs.length + 1⟩
        (.heap m.heap.length) it2 (cs ++ [(m.heap.length, v)]) hrest
        (by simp only [List.length_cons] at hfuel; omega) hL1 hseg1 (by simp) hfresh1 hag1
        (by show n0 ≤ h1.length; omega) (by show h1.length < SIZE_MOD; omega)
        (by simpa using hptr1)
      have hcan : m.can_new (vs.length + 1)
          = (⟨m.lists.set copy ⟨hd1, cs.length + 1⟩, h1, g⟩ : Memory α).can_new vs.length :=
        can_new_of_step hg rfl hlen1
      refine ⟨hd2, h2, g2, cs2, hseg2, hfresh2, hag2,
        by have : h1.length ≤ h2.length := hle2
           omega, hb2, ?_⟩
      simp only [hins, hincr, (hstep _ hag1).2, List.length_cons, hcan]
      rcases hres with ⟨hc1, hloop, hvals, hgr⟩ | ⟨hc1, hloop⟩
      · left
        refine ⟨hc1, ?_, ?_, ?_⟩
        · rw [hloop]
          simp
        · rw [hvals]
          simp
        · rw [hgr, hg]
          rfl
      · right
        refine ⟨hc1, ?_⟩
        rw [hloop]
        simp
    · have hthrow : InsertAfter m copy (some ptr) v = .throw ⟨m.lists, m.heap, gf⟩ := by
        simp [InsertAfter, hload, hfail]
      refine ⟨L.head_next, m.heap, gf, cs, hc, hfresh, hag, Nat.le_refl _, hbound,
        Or.inr ⟨can_new_false_of_fail hfail vs.length, ?_⟩⟩
      rw [hthrow, hLeq, set_self_of_getElem? hL]

/-! ## Destruction of a local list; copy construction and assignment -/

theorem Clear_seg {α : Type} {m : Memory α} {this : Nat} {L : SingleLinkedList}
    {cs : List (Nat × α)} (hL : m.lists[this]? = some L)
    (hc : Seg m.heap L.head_next cs none) (hsz : L.size_ = cs.length)
    (hbound : cs.length < SIZE_MOD) :
    ∃ h3, Clear m this = .ok ⟨m.lists.set this ⟨none, 0⟩, h3, m.grants⟩ () ∧
      h3.length = m.heap.length ∧ ∀ a, a ∉ cs.map Prod.fst → h3[a]? = m.heap[a]? := by
  obtain ⟨h3, hloop, hlen, hframe⟩ := Clear_loop_seg this cs m L hL hc hsz hbound
  refine ⟨h3, ?_, hlen, hframe⟩
  simp only [Clear, hL]
  rw [hsz, hloop]

theorem end_scope_empty {α : Type} (l : List SingleLinkedList)
    (h : List (Option (Node α))) (g : List Bool) :
    end_scope (⟨l ++ [⟨none, 0⟩], h, g⟩ : Memory α) = .ok ⟨l, h, g⟩ () := by
  have hL : (⟨l ++ [⟨none, 0⟩], h, g⟩ : Memory α).lists[l.length]? = some ⟨none, 0⟩ := by
    simp
  simp only [end_scope, List.length_append, List.length_singleton, Nat.add_sub_cancel, Clear,
    hL]
  rw [Clear_loop_zero hL rfl]
  simp

theorem end_scope_last {α : Type} (l : List SingleLinkedList) (X : SingleLinkedList)
    (h : List (Option (Node α))) (g : List Bool) (cs : List (Nat × α))
    (hc : Seg h X.head_next cs none) (hsz : X.size_ = cs.length)
    (hbound : cs.length < SIZE_MOD) :
    ∃ h3, end_scope (⟨l ++ [X], h, g⟩ : Memory α) = .ok ⟨l, h3, g⟩ () ∧
      h3.length = h.length ∧ ∀ a, a ∉ cs.map Prod.fst → h3[a]? = h[a]? := by
  have hL : (⟨l ++ [X], h, g⟩ : Memory α).lists[l.length]? = some X := by simp
  obtain ⟨h3, hclear, hlen, hframe⟩ := Clear_seg hL hc hsz hbound
  refine ⟨h3, ?_, hlen, hframe⟩
  simp only [end_scope, List.length_append, List.length_singleton, Nat.add_sub_cancel]
  rw [hclear]
  simp

theorem fill_and_swap_total {α It : Type} [DecidableEq It] (I : InputIt α It)
    (ls : List SingleLinkedList) (h : List (Option (Node α))) (g : List Bool)
    (first last : It) (vs : List α) (fuel : Nat)
    (hy : Yields I last h.length (⟨ls ++ [⟨none, 0⟩, ⟨none, 0⟩], h, g⟩ : Memory α) first vs)
    (hfuel : vs.length ≤ fuel) (hbound : h.length < SIZE_MOD) :
    ((⟨ls, h, g⟩ : Memory α).can_new vs.length = true ∧
      ∃ hd2 h2 cs2,
        fill_and_swap I fuel (⟨ls ++ [⟨none, 0⟩, ⟨none, 0⟩], h, g⟩ : Memory α)
            ls.length (ls.length + 1) first last
          = .ok ⟨ls ++ [⟨hd2, vs.length⟩], h2, g.drop vs.length⟩ ls.length ∧
        Seg h2 hd2 cs2 none ∧ cs2.map Prod.snd = vs ∧
        (∀ a ∈ cs2.map Prod.fst, h.length ≤ a) ∧ (∀ a, a < h.length → h2[a]? = h[a]?) ∧
        h2.length < SIZE_MOD) ∨
    ((⟨ls, h, g⟩ : Memory α).can_new vs.length = false ∧
      ∃ h3 g3,
        fill_and_swap I fuel (⟨ls ++ [⟨none, 0⟩, ⟨none, 0⟩], h, g⟩ : Memory α)
            ls.length (ls.length + 1) first last
          = .throw ⟨ls, h3, g3⟩ ∧
        (∀ a, a < h.length → h3[a]? = h[a]?) ∧ h3.length < SIZE_MOD) := by
  have hL1 : (⟨ls ++ [⟨none, 0⟩, ⟨none, 0⟩], h, g⟩ : Memory α).lists[ls.length + 1]?
      = some ⟨none, 0⟩ := getElem?_append_two_right _ _ _
  obtain ⟨hd2, h2, g2, cs2, hseg, hfresh, hag, hle, hb2, hres⟩ :=
    copy_loop_yields I (ls.length + 1) h.length
      (⟨ls ++ [⟨none, 0⟩, ⟨none, 0⟩], h, g⟩ : Memory α) last vs fuel
      (⟨ls ++ [⟨none, 0⟩, ⟨none, 0⟩], h, g⟩ : Memory α) ⟨none, 0⟩ (.head (ls.length + 1))
      first [] hy hfuel hL1 rfl rfl (by intro a ha; simp at ha) (fun _ _ => rfl)
      (Nat.le_refl _) hbound rfl
  have hcl : cs2.length < SIZE_MOD := by
    have := seg_length_le hseg
    omega
  rcases hres with ⟨hcan, hloop, hvals, hgr⟩ | ⟨hcan, hloop⟩
  · left
    refine ⟨hcan, hd2, h2, cs2, ?_, hseg, by simpa using hvals, hfresh, hag, hb2⟩
    have hlen : cs2.length = vs.length := by
      have := congrArg List.length hvals
      simpa using this
    simp only [fill_and_swap, CopyFromRange, before_begin]
    rw [hloop]
    simp only [set_append_two_right, swap, getElem?_append_two_left,
      getElem?_append_two_right, set_append_two_left]
    have hassoc : ls ++ [(⟨hd2, cs2.length⟩ : SingleLinkedList), ⟨none, 0⟩]
        = (ls ++ [⟨hd2, cs2.length⟩]) ++ [⟨none, 0⟩] := by simp
    rw [hassoc, end_scope_empty, hlen, hgr]
  · right
    have hassoc : ls ++ [(⟨none, 0⟩ : SingleLinkedList), ⟨hd2, cs2.length⟩]
        = (ls ++ [⟨none, 0⟩]) ++ [⟨hd2, cs2.length⟩] := by simp
    obtain ⟨h3, hend, hlen3, hframe3⟩ := end_scope_last (ls ++ [⟨none, 0⟩])
      ⟨hd2, cs2.length⟩ h2 g2 cs2 hseg rfl hcl
    refine ⟨hcan, h3, g2, ?_, ?_, by omega⟩
    · simp only [fill_and_swap, CopyFromRange, before_begin]
      rw [hloop]
      simp only [set_append_two_right]
      rw [hassoc, hend]
      simp
    · intro a ha
      have hnot : a ∉ cs2.map Prod.fst := by
        intro hmem
        have := hfresh a hmem
        omega
      rw [hframe3 a hnot]
      exact hag a ha

theorem can_new_eta {α : Type} (m : Memory α) (n : Nat) :
    (⟨m.lists, m.heap, m.grants⟩ : Memory α).can_new n = m.can_new n := rfl

theorem copy_ctor_total {α : Type} {m : Memory α} {A : Nat} {s : List α} (fuel : Nat)
    (hs : elements m A = some s) (hfuel : s.length ≤ fuel)
    (hbound : m.heap.length < SIZE_MOD) :
    (m.can_new s.length = true ∧
      ∃ hd2 h2 cs2,
        SingleLinkedList.copy_ctor fuel m A
          = .ok ⟨m.lists ++ [⟨hd2, s.length⟩], h2, m.grants.drop s.length⟩ m.lists.length ∧
        Seg h2 hd2 cs2 none ∧ cs2.map Prod.snd = s ∧
        (∀ a ∈ cs2.map Prod.fst, m.heap.length ≤ a) ∧
        (∀ a, a < m.heap.length → h2[a]? = m.heap[a]?) ∧ h2.length < SIZE_MOD) ∨
    (m.can_new s.length = false ∧
      ∃ h3 g3, SingleLinkedList.copy_ctor fuel m A = .throw ⟨m.lists, h3, g3⟩ ∧
        (∀ a, a < m.heap.length → h3[a]? = m.heap[a]?) ∧ h3.length < SIZE_MOD) := by
  obtain ⟨LA, cA, hLA, hcA, hmA⟩ := (elements_iff m A s).mp hs
  have hA := lists_lt hLA
  have hne : m.lists.length ≠ A := by omega
  have hy := yields_list m.heap.length
    (⟨m.lists ++ [⟨none, 0⟩, ⟨none, 0⟩], m.heap, m.grants⟩ : Memory α) cA LA.head_next hcA
    (seg_lt hcA)
  rw [hmA] at hy
  have hbegin : begin (⟨m.lists ++ [⟨none, 0⟩, ⟨none, 0⟩], m.heap, m.grants⟩ : Memory α) A
      = some LA.head_next := by
    simp only [begin]
    rw [List.getElem?_append_left hA, hLA]
  have hunfold : SingleLinkedList.copy_ctor fuel m A
      = fill_and_swap list_it fuel
          (⟨m.lists ++ [⟨none, 0⟩, ⟨none, 0⟩], m.heap, m.grants⟩ : Memory α)
          m.lists.length (m.lists.length + 1) LA.head_next end_ := by
    simp only [SingleLinkedList.copy_ctor, SingleLinkedList.default_ctor, ne_eq, hne,
      not_false_eq_true, if_true, List.append_assoc, List.singleton_append,
      List.length_append, List.length_singleton, hbegin]
  rw [hunfold, ← can_new_eta]
  exact fill_and_swap_total list_it m.lists m.heap m.grants LA.head_next end_ s fuel hy hfuel
    hbound

theorem from_initializer_list_total {α : Type} (m : Memory α) (values : List α)
    (hbound : m.heap.length < SIZE_MOD) :
    (m.can_new values.length = true ∧
      ∃ hd2 h2 cs2,
        SingleLinkedList.from_initializer_list m values
          = .ok ⟨m.lists ++ [⟨hd2, values.length⟩], h2, m.grants.drop values.length⟩
              m.lists.length ∧
        Seg h2 hd2 cs2 none ∧ cs2.map Prod.snd = values ∧
        (∀ a ∈ cs2.map Prod.fst, m.heap.length ≤ a) ∧
        (∀ a, a < m.heap.length → h2[a]? = m.heap[a]?) ∧ h2.length < SIZE_MOD) ∨
    (m.can_new values.length = false ∧
      ∃ h3 g3, SingleLinkedList.from_initializer_list m values = .throw ⟨m.lists, h3, g3⟩ ∧
        (∀ a, a < m.heap.length → h3[a]? = m.heap[a]?) ∧ h3.length < SIZE_MOD) := by
  have hy := yields_array values m.heap.length
    (⟨m.lists ++ [⟨none, 0⟩, ⟨none, 0⟩], m.heap, m.grants⟩ : Memory α) values.length 0
    (by omega)
  rw [List.drop_zero] at hy
  have hunfold : SingleLinkedList.from_initializer_list m values
      = fill_and_swap (array_it values) values.length
          (⟨m.lists ++ [⟨none, 0⟩, ⟨none, 0⟩], m.heap, m.grants⟩ : Memory α)
          m.lists.length (m.lists.length + 1) 0 values.length := by
    simp only [SingleLinkedList.from_initializer_list, SingleLinkedList.default_ctor,
      List.append_assoc, List.singleton_append, List.length_append, List.length_singleton]
  rw [hunfold, ← can_new_eta]
  exact fill_and_swap_total (array_it values) m.lists m.heap m.grants 0 values.length values
    values.length hy (Nat.le_refl _) hbound

theorem elements_frame {α : Type} {m : Memory α} {l : Nat} {s : List α}
    (hs : elements m l = some s) (ls2 : List SingleLinkedList) (h2 : List (Option (Node α)))
    (g2 : List Bool) (hl : ls2[l]? = m.lists[l]?)
    (hframe : ∀ a, a < m.heap.length → h2[a]? = m.heap[a]?) :
    elements (⟨ls2, h2, g2⟩ : Memory α) l = some s ∧
    GetSize (⟨ls2, h2, g2⟩ : Memory α) l = GetSize m l := by
  obtain ⟨L, cs, hL, hc, hmap⟩ := (elements_iff m l s).mp hs
  constructor
  · apply (elements_iff _ _ _).mpr
    refine ⟨L, cs, by rw [← hL]; exact hl, ?_, hmap⟩
    exact seg_frame hc (fun a ha => hframe a (seg_lt hc a ha))
  · simp only [GetSize, hl]

theorem set_append_last {β : Type} (l : List β) (x y : β) :
    (l ++ [x]).set l.length y = l ++ [y] := by
  induction l with
  | nil => rfl
  | cons z l ih => simp [ih]

theorem set_append_inner {β : Type} (l : List β) (x y : β) {i : Nat} (hi : i < l.length) :
    (l ++ [x]).set i y = l.set i y ++ [x] := by
  induction l generalizing i with
  | nil => simp at hi
  | cons z l ih =>
    cases i with
    | zero => rfl
    | succ i =>
      have hi2 : i < l.length := by simpa using hi
      simp [ih hi2]

theorem assign_total {α : Type} {m : Memory α} {A B : Nat} {s : List α}
    {LB : SingleLinkedList} (fuel : Nat)
    (hinv : m.Inv) (hs : elements m A = some s) (hLB : m.lists[B]? = some LB)
    (hBA : B ≠ A) (hfuel : s.length ≤ fuel) :
    (m.can_new s.length = true ∧
      ∃ hd2 h3 cs2,
        assign fuel m B A
          = .ok ⟨m.lists.set B ⟨hd2, s.length⟩, h3, m.grants.drop s.length⟩ () ∧
        Seg h3 hd2 cs2 none ∧ cs2.map Prod.snd = s ∧
        (∀ (l : Nat) (t : List α), l ≠ B → elements m l = some t →
          ∀ g2, elements (⟨m.lists.set B ⟨hd2, s.length⟩, h3, g2⟩ : Memory α) l = some t ∧
            GetSize (⟨m.lists.set B ⟨hd2, s.length⟩, h3, g2⟩ : Memory α) l = GetSize m l)) ∨
    (m.can_new s.length = false ∧
      ∃ h3 g3, assign fuel m B A = .throw ⟨m.lists, h3, g3⟩ ∧
        (∀ a, a < m.heap.length → h3[a]? = m.heap[a]?)) := by
  have hbound := representable_heap hinv.1
  have hB := lists_lt hLB
  obtain ⟨cB, hcB, hszB⟩ := hinv.2.1 B LB hLB
  rcases copy_ctor_total fuel hs hfuel hbound with
    ⟨hcan, hd2, h2, cs2, hcopy, hseg, hvals, hfresh, hframe, hb2⟩ | ⟨hcan, h3, g3, hcopy, hframe, _⟩
  · left
    have hcB2 : Seg h2 LB.head_next cB none :=
      seg_frame hcB (fun a ha => hframe a (seg_lt hcB a ha))
    have hclB : cB.length < SIZE_MOD := by
      have := seg_length_le hcB
      omega
    obtain ⟨h3, hend, hlen3, hframe3⟩ := end_scope_last (m.lists.set B ⟨hd2, s.length⟩) LB h2
      (m.grants.drop s.length) cB hcB2 hszB hclB
    have hdisj : ∀ a ∈ cs2.map Prod.fst, a ∉ cB.map Prod.fst := by
      intro a ha hmem
      have h1 := hfresh a ha
      have h2 := seg_lt hcB a hmem
      omega
    refine ⟨hcan, hd2, h3, cs2, ?_, ?_, hvals, ?_⟩
    · simp only [assign, ne_eq, hBA, not_false_eq_true, if_true, hcopy, swap]
      rw [List.getElem?_append_left hB, hLB]
      simp only [List.getElem?_concat_length]
      rw [set_append_inner _ _ _ hB]
      have hl : m.lists.length = (m.lists.set B ⟨hd2, s.length⟩).length := by simp
      rw [hl, set_append_last, hend]
    · exact seg_frame hseg (fun a ha => hframe3 a (hdisj a ha))
    · intro l t hlB hel g2
      obtain ⟨Ll, cl, hLl, hcl, hml⟩ := (elements_iff m l t).mp hel
      have hdl : ∀ a ∈ cl.map Prod.fst, a ∉ cB.map Prod.fst :=
        hinv.2.2 l B Ll LB cl cB hlB hLl hLB hcl hcB
      have hget : (m.lists.set B ⟨hd2, s.length⟩)[l]? = some Ll := by
        rw [List.getElem?_set_ne (fun e => hlB e.symm)]; exact hLl
      constructor
      · apply (elements_iff _ _ _).mpr
        refine ⟨Ll, cl, hget, ?_, hml⟩
        refine seg_frame hcl ?_
        intro a ha
        rw [hframe3 a (hdl a ha)]
        exact hframe a (seg_lt hcl a ha)
      · simp only [GetSize, hget, hLl]
  · right
    refine ⟨hcan, h3, g3, ?_, hframe⟩
    simp only [assign, ne_eq, hBA, not_false_eq_true, if_true, hcopy]

/-- Claim C15. In a memory satisfying the invariant let list `A` have element
sequence `s`, let `B` be any list, and let the `s.length` nodes be allocatable (with
fuel for that many rounds of the copy loop). Then copy construction from `A` returns
a new list with sequence `s` and `GetSize()` equal to that of `A`; the assignment
`B = A` returns with `B` holding sequence `s` and that size, whatever `B` held; in
both cases `A` keeps its sequence and size; and the self-assignment `A = A`
returns the memory unchanged. -/
theorem copy_reproduces_source {α : Type} (m : Memory α) (A B : Nat) (s : List α)
    (fuel : Nat) (hinv : m.Inv) (hs : elements m A = some s) (hB : B < m.lists.length)
    (hfuel : s.length ≤ fuel) (hnew : m.can_new s.length = true) :
    (∃ m2 C, SingleLinkedList.copy_ctor fuel m A = .ok m2 C ∧ C = m.lists.length ∧
      elements m2 C = some s ∧ GetSize m2 C = some s.length ∧
      elements m2 A = some s ∧ GetSize m2 A = some s.length) ∧
    (∃ m2, assign fuel m B A = .ok m2 () ∧
      elements m2 B = some s ∧ GetSize m2 B = some s.length ∧
      elements m2 A = some s ∧ GetSize m2 A = some s.length) ∧
    assign fuel m A A = .ok m () := by
  obtain ⟨LA, cA, hLA, hcA, hmA, hszA, hlenA⟩ := inv_chain hinv hs
  have hA := lists_lt hLA
  have hsizeA : GetSize m A = some s.length := by simp only [GetSize, hLA, hszA]
  have hself : assign fuel m A A = .ok m () := by simp [assign]
  refine ⟨?_, ?_, hself⟩
  · rcases copy_ctor_total fuel hs hfuel (representable_heap hinv.1) with
      ⟨_, hd2, h2, cs2, hcopy, hseg, hvals, _, hframe, _⟩ | ⟨hcan, _⟩
    · refine ⟨_, _, hcopy, rfl, ?_, ?_, ?_, ?_⟩
      · rw [← hvals]
        exact elements_mk _ (List.getElem?_concat_length _ _) hseg
      · simp [GetSize]
      · exact (elements_frame hs _ h2 _ (List.getElem?_append_left hA) hframe).1
      · rw [(elements_frame hs _ h2 _ (List.getElem?_append_left hA) hframe).2, hsizeA]
    · rw [hnew] at hcan
      cases hcan
  · by_cases hBA : B = A
    · subst hBA
      exact ⟨m, hself, hs, hsizeA, hs, hsizeA⟩
    · obtain ⟨LB, hLB⟩ : ∃ LB, m.lists[B]? = some LB := ⟨_, List.getElem?_eq_getElem hB⟩
      rcases assign_total fuel hinv hs hLB hBA hfuel with
        ⟨_, hd2, h3, cs2, hasg, hseg, hvals, hothers⟩ | ⟨hcan, _⟩
      · have hAB : A ≠ B := fun e => hBA e.symm
        obtain ⟨hA1, hA2⟩ := hothers A s hAB hs (m.grants.drop s.length)
        refine ⟨_, hasg, ?_, ?_, hA1, ?_⟩
        · have := elements_set hB hd2 s.length (m.grants.drop s.length) hseg
          rw [hvals] at this
          exact this
        · rw [GetSize_set hB]
        · rw [hA2, hsizeA]
      · rw [hnew] at hcan
        cases hcan

theorem copy_reproduces_source_witness :
    elements sample_memory 0 = some [10, 20] ∧
    (∃ m2 C, SingleLinkedList.copy_ctor 2 sample_memory 0 = .ok m2 C ∧
      C = sample_memory.lists.length ∧
      elements m2 C = some [10, 20] ∧ GetSize m2 C = some ([10, 20] : List Nat).length ∧
      elements m2 0 = some [10, 20] ∧ GetSize m2 0 = some ([10, 20] : List Nat).length) ∧
    (∃ m2, assign 2 sample_memory 1 0 = .ok m2 () ∧
      elements m2 1 = some [10, 20] ∧ GetSize m2 1 = some ([10, 20] : List Nat).length ∧
      elements m2 0 = some [10, 20] ∧ GetSize m2 0 = some ([10, 20] : List Nat).length) ∧
    assign 2 sample_memory 0 0 = .ok sample_memory () :=
  ⟨by decide, copy_reproduces_source sample_memory 0 1 [10, 20] 2 sample_memory_inv
    (by decide) (by decide) (by decide) (by decide)⟩

/-! ## Failure of `new` -/

theorem new_Node_fail_frame {α : Type} {m m1 : Memory α} {v : α} {nxt : Option NodePtr}
    (hfail : m.new_Node v nxt = (m1, none)) : m1.lists = m.lists ∧ m1.heap = m.heap := by
  rcases new_Node_cases m v nxt with ⟨g, hg, hlt⟩ | ⟨g2, hf⟩
  · rw [new_Node_ok hg hlt] at hfail
    injection hfail with _ h2
    cases h2
  · rw [hf] at hfail
    injection hfail with h1 _
    rw [← h1]
    exact ⟨rfl, rfl⟩

theorem new_Node_fail_of {α : Type} {m : Memory α} (hcan : m.can_new 1 = false) (v : α)
    (nxt : Option NodePtr) : ∃ g2, m.new_Node v nxt = (⟨m.lists, m.heap, g2⟩, none) := by
  rcases new_Node_cases m v nxt with ⟨g, hg, hlt⟩ | hf
  · have : m.can_new 1 = true := by
      unfold Memory.can_new
      simp only [decide_eq_true_eq]
      exact ⟨by rw [hg]; rfl, hlt⟩
    rw [hcan] at this
    cases this
  · exact hf

theorem same_list_of_frame {α : Type} {m m2 : Memory α} {l : Nat} {s : List α}
    (hs : elements m l = some s) (hl : m2.lists = m.lists)
    (hframe : ∀ a, a < m.heap.length → m2.heap[a]? = m.heap[a]?) : SameList m m2 l := by
  have h := elements_frame hs m2.lists m2.heap m2.grants (by rw [hl]) hframe
  exact ⟨by rw [hs]; exact h.1, h.2⟩

theorem PushFront_throw {α : Type} {m m2 : Memory α} {this : Nat} {x : α}
    (h : PushFront m this x = .throw m2) : m2.lists = m.lists ∧ m2.heap = m.heap := by
  unfold PushFront at h
  cases hL : m.lists[this]? with
  | none => simp [hL] at h
  | some L =>
    simp only [hL] at h
    rcases hn : m.new_Node x L.head_next with ⟨m1, r⟩
    rw [hn] at h
    cases r with
    | none =>
      simp only at h
      injection h with h
      subst h
      exact new_Node_fail_frame hn
    | some p =>
      simp only at h
      repeat' split at h
      all_goals cases h

theorem PushBack_throw {α : Type} {m m2 : Memory α} {this : Nat} {x : α}
    (h : PushBack m this x = .throw m2) : m2.lists = m.lists ∧ m2.heap = m.heap := by
  unfold PushBack at h
  rcases hn : m.new_Node x none with ⟨m1, r⟩
  rw [hn] at h
  cases r with
  | none =>
    simp only at h
    injection h with h
    subst h
    exact new_Node_fail_frame hn
  | some p =>
    simp only at h
    repeat' split at h
    all_goals cases h

theorem InsertAfter_throw {α : Type} {m m2 : Memory α} {this : Nat} {pos : Iterator} {x : α}
    (h : InsertAfter m this pos x = .throw m2) : m2.lists = m.lists ∧ m2.heap = m.heap := by
  unfold InsertAfter at h
  cases pos with
  | none => simp at h
  | some p =>
    simp only at h
    cases hl : m.load_next p with
    | none => simp [hl] at h
    | some tmp =>
      simp only [hl] at h
      rcases hn : m.new_Node x tmp with ⟨m1, r⟩
      rw [hn] at h
      cases r with
      | none =>
        simp only at h
        injection h with h
        subst h
        exact new_Node_fail_frame hn
      | some q =>
        simp only at h
        repeat' split at h
        all_goals cases h

theorem scarce_memory_inv : scarce_memory.Inv := Inv_grants sample_memory_inv [true]

/-- Claim C16. In a memory satisfying the invariant let `this` be a list with a
position `pos`, and `A` a list with element sequence `src`. For each of `PushFront`,
`PushBack`, `InsertAfter`, copy construction from `A`, the assignment `this = A`
and construction from a sequence `values`: whenever the call throws, `this` (and
`A`) has exactly the element sequence and `GetSize()` it had before, and a failed
construction leaves no list object behind; and when the nodes the call needs can
not all be constructed, at whichever of them the failure occurs, the call does
throw. -/
theorem strong_failure_safety {α : Type} (m : Memory α) (this A : Nat) (s src values : List α)
    (i : Nat) (pos : NodePtr) (x : α) (fuel : Nat)
    (hinv : m.Inv) (hs : elements m this = some s) (hsrc : elements m A = some src)
    (hpos : advance m i (before_begin this) = .ok (some pos))
    (hfuel : src.length ≤ fuel) :
    ((∀ m2, PushFront m this x = .throw m2 → SameList m m2 this) ∧
      (m.can_new 1 = false → ∃ m2, PushFront m this x = .throw m2)) ∧
    ((∀ m2, PushBack m this x = .throw m2 → SameList m m2 this) ∧
      (m.can_new 1 = false → ∃ m2, PushBack m this x = .throw m2)) ∧
    ((∀ m2, InsertAfter m this (some pos) x = .throw m2 → SameList m m2 this) ∧
      (m.can_new 1 = false → ∃ m2, InsertAfter m this (some pos) x = .throw m2)) ∧
    ((∀ m2, SingleLinkedList.copy_ctor fuel m A = .throw m2 →
        m2.lists = m.lists ∧ SameList m m2 this ∧ SameList m m2 A) ∧
      (m.can_new src.length = false → ∃ m2, SingleLinkedList.copy_ctor fuel m A = .throw m2)) ∧
    ((∀ m2, assign fuel m this A = .throw m2 → SameList m m2 this ∧ SameList m m2 A) ∧
      (this ≠ A → m.can_new src.length = false → ∃ m2, assign fuel m this A = .throw m2)) ∧
    ((∀ m2, SingleLinkedList.from_initializer_list m values = .throw m2 →
        m2.lists = m.lists ∧ SameList m m2 this ∧ SameList m m2 A) ∧
      (m.can_new values.length = false →
        ∃ m2, SingleLinkedList.from_initializer_list m values = .throw m2)) := by
  obtain ⟨L, cs, hL, hc, _⟩ := (elements_iff m this s).mp hs
  have hbound := representable_heap hinv.1
  have hsame : ∀ (m2 : Memory α) (l : Nat) (t : List α), elements m l = some t →
      m2.lists = m.lists ∧ m2.heap = m.heap → SameList m m2 l := by
    intro m2 l t ht h
    exact same_list_of_frame ht h.1 (fun a _ => by rw [h.2])
  refine ⟨⟨?_, ?_⟩, ⟨?_, ?_⟩, ⟨?_, ?_⟩, ⟨?_, ?_⟩, ⟨?_, ?_⟩, ⟨?_, ?_⟩⟩
  · intro m2 h
    exact hsame m2 this s hs (PushFront_throw h)
  · intro hcan
    obtain ⟨g2, hf⟩ := new_Node_fail_of hcan x L.head_next
    exact ⟨⟨m.lists, m.heap, g2⟩, by simp [PushFront, hL, hf]⟩
  · intro m2 h
    exact hsame m2 this s hs (PushBack_throw h)
  · intro hcan
    obtain ⟨g2, hf⟩ := new_Node_fail_of hcan x none
    exact ⟨⟨m.lists, m.heap, g2⟩, by simp [PushBack, hf]⟩
  · intro m2 h
    exact hsame m2 this s hs (InsertAfter_throw h)
  · intro hcan
    obtain ⟨tmp, hload⟩ := validpos_load hL hc hpos
    obtain ⟨g2, hf⟩ := new_Node_fail_of hcan x tmp
    exact ⟨⟨m.lists, m.heap, g2⟩, by simp [InsertAfter, hload, hf]⟩
  · intro m2 h
    rcases copy_ctor_total fuel hsrc hfuel hbound with
      ⟨_, hd2, h2, cs2, hcopy, _⟩ | ⟨_, h3, g3, hcopy, hframe, _⟩
    · rw [hcopy] at h
      cases h
    · rw [hcopy] at h
      injection h with h
      subst h
      exact ⟨rfl, same_list_of_frame hs rfl hframe, same_list_of_frame hsrc rfl hframe⟩
  · intro hcan
    rcases copy_ctor_total fuel hsrc hfuel hbound with ⟨hc2, _⟩ | ⟨_, h3, g3, hcopy, _⟩
    · rw [hcan] at hc2
      cases hc2
    · exact ⟨_, hcopy⟩
  · intro m2 h
    by_cases hBA : this = A
    · subst hBA
      simp [assign] at h
    · rcases assign_total fuel hinv hsrc hL hBA hfuel with
        ⟨_, hd2, h3, cs2, hasg, _⟩ | ⟨_, h3, g3, hasg, hframe⟩
      · rw [hasg] at h
        cases h
      · rw [hasg] at h
        injection h with h
        subst h
        exact ⟨same_list_of_frame hs rfl hframe, same_list_of_frame hsrc rfl hframe⟩
  · intro hBA hcan
    rcases assign_total fuel hinv hsrc hL hBA hfuel with ⟨hc2, _⟩ | ⟨_, h3, g3, hasg, _⟩
    · rw [hcan] at hc2
      cases hc2
    · exact ⟨_, hasg⟩
  · intro m2 h
    rcases from_initializer_list_total m values hbound with
      ⟨_, hd2, h2, cs2, hctor, _⟩ | ⟨_, h3, g3, hctor, hframe, _⟩
    · rw [hctor] at h
      cases h
    · rw [hctor] at h
      injection h with h
      subst h
      exact ⟨rfl, same_list_of_frame hs rfl hframe, same_list_of_frame hsrc rfl hframe⟩
  · intro hcan
    rcases from_initializer_list_total m values hbound with ⟨hc2, _⟩ | ⟨_, h3, g3, hctor, _⟩
    · rw [hcan] at hc2
      cases hc2
    · exact ⟨_, hctor⟩

theorem strong_failure_safety_witness :
    scarce_memory.can_new 2 = false ∧ scarce_memory.can_new 1 = true ∧
    ((∀ m2, PushFront scarce_memory 1 5 = .throw m2 → SameList scarce_memory m2 1) ∧
      (scarce_memory.can_new 1 = false → ∃ m2, PushFront scarce_memory 1 5 = .throw m2)) ∧
    ((∀ m2, PushBack scarce_memory 1 5 = .throw m2 → SameList scarce_memory m2 1) ∧
      (scarce_memory.can_new 1 = false → ∃ m2, PushBack scarce_memory 1 5 = .throw m2)) ∧
    ((∀ m2, InsertAfter scarce_memory 1 (some (.head 1)) 5 = .throw m2 →
        SameList scarce_memory m2 1) ∧
      (scarce_memory.can_new 1 = false →
        ∃ m2, InsertAfter scarce_memory 1 (some (.head 1)) 5 = .throw m2)) ∧
    ((∀ m2, SingleLinkedList.copy_ctor 2 scarce_memory 0 = .throw m2 →
        m2.lists = scarce_memory.lists ∧ SameList scarce_memory m2 1 ∧
          SameList scarce_memory m2 0) ∧
      (scarce_memory.can_new ([10, 20] : List Nat).length = false →
        ∃ m2, SingleLinkedList.copy_ctor 2 scarce_memory 0 = .throw m2)) ∧
    ((∀ m2, assign 2 scarce_memory 1 0 = .throw m2 →
        SameList scarce_memory m2 1 ∧ SameList scarce_memory m2 0) ∧
      (1 ≠ 0 → scarce_memory.can_new ([10, 20] : List Nat).length = false →
        ∃ m2, assign 2 scarce_memory 1 0 = .throw m2)) ∧
    ((∀ m2, SingleLinkedList.from_initializer_list scarce_memory [7, 8, 9] = .throw m2 →
        m2.lists = scarce_memory.lists ∧ SameList scarce_memory m2 1 ∧
          SameList scarce_memory m2 0) ∧
      (scarce_memory.can_new ([7, 8, 9] : List Nat).length = false →
        ∃ m2, SingleLinkedList.from_initializer_list scarce_memory [7, 8, 9] = .throw m2)) :=
  ⟨by decide, by decide,
    strong_failure_safety scarce_memory 1 0 [] [10, 20] [7, 8, 9] 0 (.head 1) 5 2
      scarce_memory_inv (by decide) (by decide) (by decide) (by decide)⟩

/-- With room for one node only, copying `[10, 20]` fails at the second node: the
call throws, the node already copied is released, and no list object remains. -/
theorem copy_fails_part_way :
    SingleLinkedList.copy_ctor 2 scarce_memory 0
      = .throw ⟨scarce_memory.lists, scarce_memory.heap ++ [none], []⟩ ∧
    assign 2 scarce_memory 1 0
      = .throw ⟨scarce_memory.lists, scarce_memory.heap ++ [none], []⟩ := by
  decide

/-- Claim C18, counterexample. In the sample memory (list `0` is `[10, 20]`, list `1`
is empty) `InsertAfter` and `EraseAfter` called on list `1` with `before_begin()`
of list `0` are not stopped by the assertion: they return normally, change the
sequence of list `0`, and change `size_` of list `1`, whose sequence stays empty. -/
theorem foreign_position_counterexample :
    InsertAfter sample_memory 1 (before_begin 0) 5 ≠ .fault .assert_fail ∧
    (∃ m2 r, InsertAfter sample_memory 1 (before_begin 0) 5 = .ok m2 r ∧
      elements m2 0 = some [5, 10, 20] ∧ elements sample_memory 0 = some [10, 20] ∧
      GetSize m2 0 = some 2 ∧
      elements m2 1 = some [] ∧ GetSize m2 1 = some 1 ∧ GetSize sample_memory 1 = some 0) ∧
    EraseAfter sample_memory 1 (before_begin 0) ≠ .fault .assert_fail ∧
    (∃ m2 r, EraseAfter sample_memory 1 (before_begin 0) = .ok m2 r ∧
      elements m2 0 = some [20] ∧ GetSize m2 0 = some 2 ∧
      elements m2 1 = some [] ∧ GetSize m2 1 = some (SIZE_MOD - 1)) := by
  refine ⟨by decide, ⟨_, _, rfl, ?_⟩, by decide, ⟨_, _, rfl, ?_⟩⟩
  · decide
  · decide

/-- Claim C18, amended. In a memory satisfying the invariant let `L` and `M` be
different lists with element sequences `t` and `s`, and let `pos` be position
number `i` of `M`. The assertions of `InsertAfter` and `EraseAfter` called on `L`
with `pos` pass. When the node can be allocated, `InsertAfter` inserts `v` at index
`i` of `M` and leaves `GetSize()` of `M` unchanged, while `L` keeps its sequence
and its `GetSize()` grows by one; when it cannot, `InsertAfter` throws and both
lists are as before. When a node follows `pos` (`i < s.length`), `EraseAfter`
removes the element of index `i` of `M` and leaves `GetSize()` of `M` unchanged,
while `L` keeps its sequence and its `size_` is decremented as a `size_t`
(wrapping around at zero); when none follows (`i = s.length`), `EraseAfter`
returns `end()` and the memory is unchanged. -/
theorem foreign_position_not_asserted {α : Type} (m : Memory α) (L M : Nat)
    (s t : List α) (i : Nat) (pos : NodePtr) (v : α)
    (hinv : m.Inv) (hLM : L ≠ M)
    (hs : elements m M = some s) (ht : elements m L = some t)
    (hpos : advance m i (before_begin M) = .ok (some pos)) :
    InsertAfter m L (some pos) v ≠ .fault .assert_fail ∧
    EraseAfter m L (some pos) ≠ .fault .assert_fail ∧
    (m.can_new 1 = true →
      ∃ m2 new_item, InsertAfter m L (some pos) v = .ok m2 (some new_item) ∧
        elements m2 M = some (s.take i ++ v :: s.drop i) ∧ GetSize m2 M = some s.length ∧
        elements m2 L = some t ∧ GetSize m2 L = some (t.length + 1)) ∧
    (i < s.length →
      ∃ m2 ret, EraseAfter m L (some pos) = .ok m2 ret ∧
        elements m2 M = some (s.take i ++ s.drop (i + 1)) ∧ GetSize m2 M = some s.length ∧
        elements m2 L = some t ∧
        GetSize m2 L = some ((t.length + SIZE_MOD - 1) % SIZE_MOD)) ∧
    (m.can_new 1 = false →
      ∃ m2, InsertAfter m L (some pos) v = .throw m2 ∧ SameList m m2 L ∧ SameList m m2 M) ∧
    (i = s.length → EraseAfter m L (some pos) = .ok m end_) := by
  obtain ⟨LM, cM, hLMo, hcM, hmM, hszM, hlenM⟩ := inv_chain hinv hs
  obtain ⟨LL, cL, hLLo, hcL, hmL, hszL, hlenL⟩ := inv_chain hinv ht
  have hM := lists_lt hLMo
  have hLlt := lists_lt hLLo
  have hdisj : ∀ a ∈ cM.map Prod.fst, a ∉ cL.map Prod.fst :=
    hinv.2.2 M L LM LL cM cL (fun e => hLM e.symm) hLMo hLLo hcM hcL
  have hML : M ≠ L := fun e => hLM e.symm
  have hLM2 : LM = ⟨LM.head_next, LM.size_⟩ := rfl
  refine ⟨?_, ?_, ?_, ?_, ?_, ?_⟩
  · simp only [InsertAfter]
    intro h
    repeat' split at h
    all_goals cases h
  · simp only [EraseAfter]
    intro h
    repeat' split at h
    all_goals cases h
  · intro hnew
    obtain ⟨g, hg, hlt⟩ := can_new_one hnew
    have hmod : (LL.size_ + 1) % SIZE_MOD = t.length + 1 := by
      rw [hszL]
      have := seg_length_le hcL
      exact size_incr_mod (by omega) hlt
    rcases position_cases hLMo hcM hpos with ⟨hi, hp⟩ | ⟨k, x, hi, hk, hp⟩
    · subst hi; subst hp
      refine ⟨_, _, InsertAfter_head_other v hLLo hLMo hLM hg hlt, ?_, ?_, ?_, ?_⟩
      · have hseg : Seg (m.heap ++ [some (⟨v, LM.head_next⟩ : Node α)])
            (some (.heap m.heap.length)) ((m.heap.length, v) :: cM) none :=
          ⟨rfl, LM.head_next, by simp, seg_append_heap hcM _⟩
        have := elements_mk g
          (getElem?_set_set_left (⟨some (.heap m.heap.length), LM.size_⟩ : SingleLinkedList)
            (⟨LL.head_next, (LL.size_ + 1) % SIZE_MOD⟩ : SingleLinkedList) hML hM) hseg
        rw [this]
        simp [hmM]
      · simp only [GetSize, getElem?_set_set_left _ _ hML hM, hszM]
      · have := elements_mk g
          (getElem?_set_set_right M (⟨some (.heap m.heap.length), LM.size_⟩ : SingleLinkedList)
            (⟨LL.head_next, (LL.size_ + 1) % SIZE_MOD⟩ : SingleLinkedList) hLlt)
          (seg_append_heap hcL [some (⟨v, LM.head_next⟩ : Node α)])
        rw [this, hmL]
      · simp only [GetSize, getElem?_set_set_right M _ _ hLlt, hmod]
    · subst hi; subst hp
      obtain ⟨nxt, hcell, hseg⟩ := seg_insert v hcM hk
      have hxM : x.1 ∈ cM.map Prod.fst := List.mem_map.mpr ⟨x, List.getElem?_mem hk, rfl⟩
      have hLset : (m.lists.set L ⟨LL.head_next, (LL.size_ + 1) % SIZE_MOD⟩)[M]?
          = some LM := by
        rw [List.getElem?_set_ne hLM]; exact hLMo
      refine ⟨_, _, InsertAfter_heap v hLLo hg hlt hcell, ?_, ?_, ?_, ?_⟩
      · have := elements_mk g (hLM2 ▸ hLset) hseg
        rw [this]
        simp [← hmM, List.map_take, List.map_drop]
      · simp only [GetSize, hLset, hszM]
      · rw [elements_set hLlt LL.head_next _ g
          (seg_set_frame (seg_append_heap hcL _) _ _ (hdisj x.1 hxM)), hmL]
      · rw [GetSize_set hLlt, hmod]
  · intro hi
    rcases position_cases hLMo hcM hpos with ⟨hi0, hp⟩ | ⟨k, x, hik, hk, hp⟩
    · subst hi0; subst hp
      cases cM with
      | nil => rw [← hlenM] at hi; simp at hi
      | cons y c2 =>
        have hnd := seg_nodup hcM
        have hcM0 := hcM
        obtain ⟨hhead, nxt, hy, hrest⟩ := hcM
        have hyM : y.1 ∈ (y :: c2).map Prod.fst := by simp
        refine ⟨_, _, EraseAfter_head_other hLLo hLMo hLM hhead hy, ?_, ?_, ?_, ?_⟩
        · have := elements_mk m.grants
            (getElem?_set_set_left (⟨nxt, LM.size_⟩ : SingleLinkedList)
              (⟨LL.head_next, (LL.size_ + SIZE_MOD - 1) % SIZE_MOD⟩ : SingleLinkedList) hML hM)
            (seg_set_frame hrest y.1 none (List.nodup_cons.mp hnd).1)
          rw [this]
          simp [← hmM]
        · simp only [GetSize, getElem?_set_set_left _ _ hML hM, hszM]
        · have := elements_mk m.grants
            (getElem?_set_set_right M (⟨nxt, LM.size_⟩ : SingleLinkedList)
              (⟨LL.head_next, (LL.size_ + SIZE_MOD - 1) % SIZE_MOD⟩ : SingleLinkedList) hLlt)
            (seg_set_frame hcL y.1 none (hdisj y.1 hyM))
          rw [this, hmL]
        · simp only [GetSize, getElem?_set_set_right M _ _ hLlt, hszL]
    · subst hik; subst hp
      have hk1lt : k + 1 < cM.length := by omega
      obtain ⟨y, hk1⟩ : ∃ y, cM[k + 1]? = some y := ⟨_, List.getElem?_eq_getElem hk1lt⟩
      obtain ⟨ny, hcx, hcy, hxy, _, hseg⟩ := seg_erase hcM hk hk1
      have hxM : x.1 ∈ cM.map Prod.fst := List.mem_map.mpr ⟨x, List.getElem?_mem hk, rfl⟩
      have hyM : y.1 ∈ cM.map Prod.fst := List.mem_map.mpr ⟨y, List.getElem?_mem hk1, rfl⟩
      have hLset : (m.lists.set L ⟨LL.head_next, (LL.size_ + SIZE_MOD - 1) % SIZE_MOD⟩)[M]?
          = some LM := by
        rw [List.getElem?_set_ne hLM]; exact hLMo
      refine ⟨_, _, EraseAfter_heap hLLo hxy hcx hcy, ?_, ?_, ?_, ?_⟩
      · have := elements_mk m.grants (hLM2 ▸ hLset) hseg
        rw [this]
        simp [← hmM, List.map_take, List.map_drop]
      · simp only [GetSize, hLset, hszM]
      · rw [elements_set hLlt LL.head_next _ _
          (seg_set_frame (seg_set_frame hcL _ _ (hdisj y.1 hyM)) _ _ (hdisj x.1 hxM)), hmL]
      · rw [GetSize_set hLlt, hszL]
  · intro hcan
    obtain ⟨tmp, hload⟩ := validpos_load hLMo hcM hpos
    obtain ⟨g2, hf⟩ := new_Node_fail_of hcan v tmp
    refine ⟨⟨m.lists, m.heap, g2⟩, by simp [InsertAfter, hload, hf], ?_, ?_⟩
    · exact same_list_of_frame ht rfl (fun _ _ => rfl)
    · exact same_list_of_frame hs rfl (fun _ _ => rfl)
  · intro hi
    apply EraseAfter_end L
    rcases position_cases hLMo hcM hpos with ⟨hi0, hp⟩ | ⟨k, x, hik, hk, hp⟩
    · subst hp
      have hnil : cM = [] := by
        apply List.eq_nil_of_length_eq_zero
        omega
      subst hnil
      have hhead : LM.head_next = none := hcM
      simp [Memory.load_next, hLMo, hhead]
    · subst hp
      obtain ⟨nxt, _, hcell, h2, _, _⟩ := seg_split_at hcM hk
      have hd : cM.drop (k + 1) = [] := by
        apply List.drop_eq_nil_of_le
        omega
      rw [hd] at h2
      have hnxt : nxt = none := h2
      subst hnxt
      simp [Memory.load_next, hcell]

theorem foreign_position_not_asserted_witness :
    elements sample_memory 0 = some [10, 20] ∧ elements sample_memory 1 = some [] ∧
    InsertAfter sample_memory 1 (some (.heap 0)) 5 ≠ .fault .assert_fail ∧
    EraseAfter sample_memory 1 (some (.heap 0)) ≠ .fault .assert_fail ∧
    (sample_memory.can_new 1 = true →
      ∃ m2 new_item, InsertAfter sample_memory 1 (some (.heap 0)) 5 = .ok m2 (some new_item) ∧
        elements m2 0 = some (([10, 20] : List Nat).take 1 ++ 5 :: ([10, 20] : List Nat).drop 1) ∧
        GetSize m2 0 = some ([10, 20] : List Nat).length ∧
        elements m2 1 = some [] ∧ GetSize m2 1 = some (([] : List Nat).length + 1)) ∧
    (1 < ([10, 20] : List Nat).length →
      ∃ m2 ret, EraseAfter sample_memory 1 (some (.heap 0)) = .ok m2 ret ∧
        elements m2 0 = some (([10, 20] : List Nat).take 1 ++ ([10, 20] : List Nat).drop (1 + 1)) ∧
        GetSize m2 0 = some ([10, 20] : List Nat).length ∧
        elements m2 1 = some [] ∧
        GetSize m2 1 = some ((([] : List Nat).length + SIZE_MOD - 1) % SIZE_MOD)) ∧
    (sample_memory.can_new 1 = false →
      ∃ m2, InsertAfter sample_memory 1 (some (.heap 0)) 5 = .throw m2 ∧
        SameList sample_memory m2 1 ∧ SameList sample_memory m2 0) ∧
    (1 = ([10, 20] : List Nat).length →
      EraseAfter sample_memory 1 (some (.heap 0)) = .ok sample_memory end_) :=
  ⟨by decide, by decide,
    foreign_position_not_asserted sample_memory 1 0 [10, 20] [] 1 (.heap 0) 5
      sample_memory_inv (by decide) (by decide) (by decide) (by decide)⟩

end SLL
